import Mathlib

/-!
# CascLib: the encoding table (`Casc/CascEncoding.hpp`)

A shallow embedding of `Casc::CascEncoding` (parse, searchTable, find) together
with the stream operations it performs, followed by theorems about it.

Conventions of the embedding:

* `unsigned int`, `uint32_t` are 32 bits wide, `size_t` and `std::streamsize`
  are 64 bits wide; arithmetic that can leave these ranges is reduced
  explicitly.
* A C++ execution that consumes indeterminate memory (a buffer that a short
  `istream::read` left unfilled) or reads outside the 4096-byte chunk buffer has
  no defined result; the embedding reports it as `Outcome.undefined`.
* `md5` (the digest of a chunk body, `Functions::Hash::md5`) is a parameter of
  the lookup functions: nothing proved here depends on the digest function.
-/

set_option autoImplicit false
set_option linter.unusedVariables false

namespace Casc

/-! ## Data model -/

/-- One octet of a file or of a hash. -/
abbrev Byte := Fin 256

/-- The byte content of a `Hex` object (a hash or a storage key). -/
abbrev Hex := List Byte

/-- Modelled from the spec: the comparison operators of the `Hex` class used by
`CascEncoding` are declared in `Common.hpp`, which is not part of the sources at
hand. The spec says that two hashes compare as unsigned big-endian integers, that
is, byte-wise lexicographically; `Hex.lt a b` is `a < b`. -/
def Hex.lt : Hex → Hex → Bool
  | [], [] => false
  | [], _ :: _ => true
  | _ :: _, [] => false
  | a :: as, b :: bs => if a < b then true else if b < a then false else Hex.lt as bs

/-- The operator `a > b` of `Hex`. -/
def Hex.gt (a b : Hex) : Bool := Hex.lt b a

/-- Modelled from the spec: `Endian::read<EndianType::Big, T>` is declared in
`Common.hpp`; it decodes an unsigned integer whose most significant byte comes
first. -/
def Endian.readBig (b : List Byte) : Nat :=
  b.foldl (fun acc x => acc * 256 + x.val) 0

/-- Modelled from the spec: `Endian::read<EndianType::Little, T>` is declared in
`Common.hpp`; it decodes an unsigned integer whose least significant byte comes
first. -/
def Endian.readLittle (b : List Byte) : Nat :=
  b.foldr (fun x acc => x.val + 256 * acc) 0

/-- The exceptions thrown by `CascEncoding`. `InvalidHashException` carries the
two `Hex` values that the source hands to `lookup3`. -/
inductive CascError where
  | FileNotFoundException (hash : Hex)
  | InvalidHashException (expected actual : Hex)
  | InvalidSignatureException (actual expected : Nat)
  | GenericException
  deriving DecidableEq

/-- How a call ends: it returns a value, throws, or has no defined behaviour. -/
inductive Outcome (α : Type) where
  | ok (value : α)
  | throws (e : CascError)
  | undefined
  deriving DecidableEq

/-- Sequencing of calls: the first call that does not return decides. -/
def Outcome.bind {α β : Type} (x : Outcome α) (f : α → Outcome β) : Outcome β :=
  match x with
  | .ok a => f a
  | .throws e => .throws e
  | .undefined => .undefined

/-! ## The input stream -/

/-- State of a `std::istream` over a file: the file content, the get position
and the fail bit. -/
structure IStream where
  bytes : List Byte
  pos : Nat
  fail : Bool
  deriving DecidableEq

/-- A freshly opened stream over `bytes`. -/
def IStream.ofBytes (bytes : List Byte) : IStream := ⟨bytes, 0, false⟩

/-- The call `seekg(off, std::ios_base::cur)` with `off ≥ 0`: nothing happens on
a failed stream; a file stream may be positioned past its end. -/
def IStream.seekgCur (s : IStream) (off : Nat) : IStream :=
  if s.fail then s else { s with pos := s.pos + off }

/-- The call `seekg(p, std::ios_base::beg)`. -/
def IStream.seekgBeg (s : IStream) (p : Nat) : IStream :=
  if s.fail then s else { s with pos := p }

/-- The call `read(buf, n)`: `some` of the `n` bytes at the get position when
they exist; otherwise the buffer is not filled and the fail bit is set (the get
position of a failed stream cannot be observed and is left as it was). -/
def IStream.read (s : IStream) (n : Nat) : Option (List Byte) × IStream :=
  if s.fail then (none, s)
  else if n ≤ s.bytes.length - s.pos then
    (some ((s.bytes.drop s.pos).take n), { s with pos := s.pos + n })
  else (none, { s with fail := true })

/-! ## CascEncoding -/

/-- The constant `CascEncoding::HeaderSize`. -/
def HeaderSize : Nat := 22

/-- The constant `CascEncoding::ChunkBodySize`. -/
def ChunkBodySize : Nat := 4096

/-- The struct `CascEncoding::ChunkHead`: two arrays of 16 bytes. -/
structure ChunkHead where
  first : Hex
  hash : Hex
  deriving DecidableEq

/-- The value of `sizeof(ChunkHead)`. -/
def sizeofChunkHead : Nat := 32

/-- The data members of `CascEncoding`. -/
structure CascEncoding where
  stream : IStream
  hashSizeA : Nat
  hashSizeB : Nat
  chunkHeadsA : List ChunkHead
  chunkHeadsB : List ChunkHead
  chunksOffsetA : Nat
  chunksOffsetB : Nat
  deriving DecidableEq

/-- The member template `CascEncoding::read<Endian, T>` up to the decoding: the
`sizeof(T)` bytes read. When the stream cannot supply them the decoded value is
indeterminate. -/
def CascEncoding.read (s : IStream) (n : Nat) : Outcome (List Byte × IStream) :=
  match s.read n with
  | (some b, s1) => .ok (b, s1)
  | (none, _) => .undefined

/-- The header fields that `parse` reads into locals and members. -/
structure Header where
  hashSizeA : Nat
  hashSizeB : Nat
  tableSizeA : Nat
  tableSizeB : Nat
  stringTableSize : Nat
  deriving DecidableEq

/-- Lines 274-294 of `parse`: the header fields after the signature. -/
def parseFields (stream : IStream) : Outcome (Header × IStream) :=
  (CascEncoding.read (stream.seekgCur 1) 1).bind fun r1 =>
  (CascEncoding.read r1.2 1).bind fun r2 =>
  (CascEncoding.read (r2.2.seekgCur 4) 4).bind fun r3 =>
  (CascEncoding.read r3.2 4).bind fun r4 =>
  (CascEncoding.read (r4.2.seekgCur 1) 4).bind fun r5 =>
  .ok ({ hashSizeA := Endian.readLittle r1.1,
         hashSizeB := Endian.readLittle r2.1,
         tableSizeA := Endian.readBig r3.1,
         tableSizeB := Endian.readBig r4.1,
         stringTableSize := Endian.readBig r5.1 }, r5.2)

/-- Lines 268-294 of `parse`: the signature check, then the header fields. -/
def parseHeader (stream : IStream) : Outcome (Header × IStream) :=
  (CascEncoding.read stream 2).bind fun r0 =>
  if Endian.readLittle r0.1 ≠ 0x4E45 then
    .throws (.InvalidSignatureException (Endian.readLittle r0.1) 0x4E45)
  else parseFields r0.2

/-- The loops of `parse` that read `count` chunk heads, in file order. Once a
read comes up short the fail bit is set, every later read extracts nothing and
`parse` ends by throwing from `checkForErrors`, so the heads pushed from then on
are never observed and are left out. -/
def readHeads (s : IStream) : Nat → List ChunkHead × IStream
  | 0 => ([], s)
  | count + 1 =>
    match s.read sizeofChunkHead with
    | (some d, s1) =>
      ((⟨d.take 16, d.drop 16⟩ : ChunkHead) :: (readHeads s1 count).1, (readHeads s1 count).2)
    | (none, s1) => ([], s1)

/-- The value stored in `chunksOffsetA`: `HeaderSize + stringTableSize` is an
`unsigned int` sum, the product with `sizeof(ChunkHead)` is a `size_t`. -/
def offsetA (h : Header) : Nat :=
  ((HeaderSize + h.stringTableSize) % 2 ^ 32 + h.tableSizeA * sizeofChunkHead) % 2 ^ 64

/-- The value stored in `chunksOffsetB`: as `offsetA`, then the `unsigned int`
product `tableSizeA * ChunkBodySize` and the `size_t` product
`tableSizeB * sizeof(ChunkHead)` are added. -/
def offsetB (h : Header) : Nat :=
  ((HeaderSize + h.stringTableSize) % 2 ^ 32 + h.tableSizeA * sizeofChunkHead
    + (h.tableSizeA * ChunkBodySize) % 2 ^ 32 + h.tableSizeB * sizeofChunkHead) % 2 ^ 64

/-- The method `checkForErrors`. -/
def checkForErrors {α : Type} (s : IStream) (value : α) : Outcome α :=
  if s.fail then .throws .GenericException else .ok value

/-- Lines 296-326 of `parse`: the chunk heads of both tables, the two body
offsets and the final stream check, for the header `h` read before. -/
def parseTables (h : Header) (stream : IStream) : Outcome CascEncoding :=
  let s1 := stream.seekgCur h.stringTableSize
  let a := readHeads s1 h.tableSizeA
  let s2 := a.2.seekgCur ((h.tableSizeA * ChunkBodySize) % 2 ^ 32)
  let b := readHeads s2 h.tableSizeB
  checkForErrors b.2
    { stream := b.2
      hashSizeA := h.hashSizeA
      hashSizeB := h.hashSizeB
      chunkHeadsA := a.1.reverse
      chunkHeadsB := b.1.reverse
      chunksOffsetA := offsetA h
      chunksOffsetB := offsetB h }

/-- The method `parse(std::shared_ptr<std::istream>)` on a default-constructed
object. -/
def parse (stream : IStream) : Outcome CascEncoding :=
  (parseHeader stream).bind fun r => parseTables r.1 r.2

/-- What `parse` leaves in the object apart from the stream. -/
def CascEncoding.tables (self : CascEncoding) :
    Nat × Nat × List ChunkHead × List ChunkHead × Nat × Nat :=
  (self.hashSizeA, self.hashSizeB, self.chunkHeadsA, self.chunkHeadsB,
    self.chunksOffsetA, self.chunksOffsetB)

/-- Bytes `[i, i + n)` of the chunk buffer; `none` when the range leaves the
buffer. -/
def slice (data : List Byte) (i n : Nat) : Option (List Byte) :=
  if i + n ≤ data.length then some ((data.drop i).take n) else none

/-- The inner loop of `searchTable` (lines 180-190): `keyCount` keys of
`hashSizeA` bytes are copied from the cursor `it`, and appended to `keys` when
the entry's hash is the target. Returns the cursor and the keys. -/
def readKeys (data : List Byte) (hashSizeA : Nat) (isTarget : Bool) :
    Nat → Nat → List Hex → Option (Nat × List Hex)
  | 0, it, keys => some (it, keys)
  | keyCount + 1, it, keys =>
    match slice data it hashSizeA with
    | none => none
    | some key =>
      readKeys data hashSizeA isTarget keyCount (it + hashSizeA)
        (if isTarget then keys ++ [key] else keys)

/-- The entry loop of `searchTable` (lines 161-191) over the chunk buffer
`data`, from cursor `it`, with the keys collected so far. `fuel` bounds the
number of iterations; every iteration moves the cursor forward by two bytes at
least. -/
def scanEntries (data : List Byte) (hashSizeA : Nat) (target : Hex) :
    Nat → Nat → List Hex → Outcome (List Hex)
  | 0, _, _ => .undefined
  | fuel + 1, it, keys =>
    if keys.isEmpty ∧ it < data.length then
      match slice data it 2 with
      | none => .undefined
      | some kc =>
        if Endian.readLittle kc = 0 then .ok keys
        else
          match slice data (it + 2) 4 with
          | none => .undefined
          | some _ =>
            match slice data (it + 2 + 4) hashSizeA with
            | none => .undefined
            | some current =>
              match readKeys data hashSizeA (decide (target = current))
                  (Endian.readLittle kc) (it + 2 + 4 + hashSizeA) keys with
              | none => .undefined
              | some r => scanEntries data hashSizeA target fuel r.1 r.2
    else .ok keys

/-- What a table search did: the stream positions of the chunk bodies it read,
in order, and how it ended. -/
structure SearchResult where
  reads : List Nat
  outcome : Outcome (List Hex)
  deriving DecidableEq

/-- The chunk loop of `searchTable` (lines 142-193) from index `i` on, `rest`
being the heads at the indices `i, i + 1, ...` and `size` the value of
`heads.size()`. -/
def searchLoop (md5 : List Byte → Hex) (target : Hex) (size offset hashSizeA : Nat) :
    List ChunkHead → Nat → IStream → List Hex → SearchResult
  | [], _, _, keys => ⟨[], .ok keys⟩
  | head :: rest, i, stream, keys =>
    if keys.isEmpty then
      if Hex.gt target head.first then
        match (stream.seekgBeg
            ((offset + ChunkBodySize * (size - 1 - i)) % 2 ^ 64)).read 4096 with
        | (none, _) => ⟨[(offset + ChunkBodySize * (size - 1 - i)) % 2 ^ 64], .undefined⟩
        | (some data, stream1) =>
          if md5 data ≠ head.hash then
            ⟨[(offset + ChunkBodySize * (size - 1 - i)) % 2 ^ 64],
              .throws (.InvalidHashException head.hash (md5 data))⟩
          else
            match scanEntries data hashSizeA target data.length 0 keys with
            | .ok keys1 =>
              ⟨(offset + ChunkBodySize * (size - 1 - i)) % 2 ^ 64 ::
                  (searchLoop md5 target size offset hashSizeA rest (i + 1) stream1 keys1).reads,
                (searchLoop md5 target size offset hashSizeA rest (i + 1) stream1 keys1).outcome⟩
            | .throws e => ⟨[(offset + ChunkBodySize * (size - 1 - i)) % 2 ^ 64], .throws e⟩
            | .undefined => ⟨[(offset + ChunkBodySize * (size - 1 - i)) % 2 ^ 64], .undefined⟩
      else searchLoop md5 target size offset hashSizeA rest (i + 1) stream keys
    else ⟨[], .ok keys⟩

/-- The method `searchTable`. The parameter `hashSize` is not used by the
source: the entry loop works with the member `hashSizeA`. -/
def searchTable (md5 : List Byte → Hex) (self : CascEncoding) (target : Hex)
    (heads : List ChunkHead) (offset : Nat) (_hashSize : Nat) : SearchResult :=
  searchLoop md5 target heads.length offset self.hashSizeA heads 0 self.stream []

/-- The method `find`, applied to the value `target` of `Hex target(hash)`; the
exception carries that value. -/
def find (md5 : List Byte → Hex) (self : CascEncoding) (target : Hex) : SearchResult :=
  match searchTable md5 self target self.chunkHeadsA self.chunksOffsetA self.hashSizeA with
  | ⟨reads, .ok keys⟩ =>
    if keys.isEmpty then ⟨reads, .throws (.FileNotFoundException target)⟩
    else ⟨reads, .ok keys⟩
  | r => r

/-- Two stream states that no sequence of relative seeks and reads tells apart:
same get position, same fail bit, same bytes from the get position on. -/
def IStream.sameAhead (s t : IStream) : Prop :=
  s.pos = t.pos ∧ s.fail = t.fail ∧ s.bytes.drop s.pos = t.bytes.drop t.pos

/-! ## The file format, as the spec lays it out

The definitions of this section follow the spec's description of the encoding
file (§3 and §4.4); they build the inputs about which the theorems speak. -/

/-- Modelled from the spec: `Endian::write<EndianType::Big, T>` is declared in
`Common.hpp`; the `size` bytes of `n`, most significant byte first. -/
def Endian.writeBig : Nat → Nat → List Byte
  | 0, _ => []
  | size + 1, n => Endian.writeBig size (n / 256) ++ [⟨n % 256, Nat.mod_lt _ (by decide)⟩]

/-- Modelled from the spec: `Endian::write<EndianType::Little, T>` is declared
in `Common.hpp`; the `size` bytes of `n`, least significant byte first. -/
def Endian.writeLittle : Nat → Nat → List Byte
  | 0, _ => []
  | size + 1, n => ⟨n % 256, Nat.mod_lt _ (by decide)⟩ :: Endian.writeLittle size (n / 256)

/-- An entry of a chunk body (spec §3, EncodingEntry). -/
structure EncodingEntry where
  contentHash : Hex
  fileSize : Nat
  keys : List Hex
  deriving DecidableEq

/-- The bytes of an entry: `key_count` (u16 LE), `file_size` (u32 BE), the
content hash, then the keys. -/
def encodeEntry (e : EncodingEntry) : List Byte :=
  Endian.writeLittle 2 e.keys.length ++ Endian.writeBig 4 e.fileSize ++ e.contentHash
    ++ e.keys.flatten

/-- An entry fits the format for hashes of `hashSize` bytes: the hash and every
key have that size and `key_count` is a non-zero u16. -/
def EncodingEntry.WellFormed (hashSize : Nat) (e : EncodingEntry) : Prop :=
  e.contentHash.length = hashSize ∧ (∀ k ∈ e.keys, k.length = hashSize) ∧
    1 ≤ e.keys.length ∧ e.keys.length < 65536

/-- A chunk body: densely packed entries, the `key_count == 0` terminator, and
whatever fills the rest of the chunk. -/
def encodeBody (entries : List EncodingEntry) (fill : List Byte) : List Byte :=
  entries.flatMap encodeEntry ++ (0 :: 0 :: fill)

/-- The bytes of a chunk head: `first16 ‖ md5_16`. -/
def encodeHead (h : ChunkHead) : List Byte := h.first ++ h.hash

/-- The content of an encoding file, part by part; `u2`, `u5`, `u17` are the
reserved bytes of the header (one, four and one byte). -/
structure EncodingFile where
  u2 : Byte
  u5 : Byte
  u6 : Byte
  u7 : Byte
  u8 : Byte
  u17 : Byte
  hashSizeA : Nat
  hashSizeB : Nat
  strings : List Byte
  headsA : List ChunkHead
  bodiesA : List (List Byte)
  headsB : List ChunkHead
  bodiesB : List (List Byte)

/-- The 22 bytes of the header. -/
def EncodingFile.header (f : EncodingFile) : List Byte :=
  [0x45, 0x4E, f.u2] ++ Endian.writeBig 1 f.hashSizeA ++ Endian.writeBig 1 f.hashSizeB
    ++ [f.u5, f.u6, f.u7, f.u8] ++ Endian.writeBig 4 f.headsA.length
    ++ Endian.writeBig 4 f.headsB.length ++ [f.u17] ++ Endian.writeBig 4 f.strings.length

/-- The bytes of the file, in the order of the layout. -/
def EncodingFile.bytes (f : EncodingFile) : List Byte :=
  f.header ++ (f.strings ++ (f.headsA.flatMap encodeHead ++ (f.bodiesA.flatten
    ++ (f.headsB.flatMap encodeHead ++ f.bodiesB.flatten))))

/-- The parts have the sizes the format gives them: one byte per hash size, 16
bytes per head field, 4096 bytes per body, one body per head, and a header
whose sums stay below 2^32 (`22 + string_table_size` and `4096 * table_size_a`,
table B fitting a u32). -/
def EncodingFile.WellFormed (f : EncodingFile) : Prop :=
  f.hashSizeA < 256 ∧ f.hashSizeB < 256 ∧
  HeaderSize + f.strings.length < 2 ^ 32 ∧
  f.headsA.length < 2 ^ 20 ∧ f.headsB.length < 2 ^ 32 ∧
  f.bodiesA.length = f.headsA.length ∧ f.bodiesB.length = f.headsB.length ∧
  (∀ h ∈ f.headsA, h.first.length = 16 ∧ h.hash.length = 16) ∧
  (∀ h ∈ f.headsB, h.first.length = 16 ∧ h.hash.length = 16) ∧
  (∀ b ∈ f.bodiesA, b.length = ChunkBodySize) ∧
  (∀ b ∈ f.bodiesB, b.length = ChunkBodySize)

/-- The value of the object after `parse` of a well-formed file. -/
def EncodingFile.parsed (f : EncodingFile) : CascEncoding :=
  { stream := ⟨f.bytes,
      HeaderSize + f.strings.length + sizeofChunkHead * f.headsA.length
        + ChunkBodySize * f.headsA.length + sizeofChunkHead * f.headsB.length, false⟩
    hashSizeA := f.hashSizeA
    hashSizeB := f.hashSizeB
    chunkHeadsA := f.headsA.reverse
    chunkHeadsB := f.headsB.reverse
    chunksOffsetA := HeaderSize + f.strings.length + sizeofChunkHead * f.headsA.length
    chunksOffsetB := HeaderSize + f.strings.length + sizeofChunkHead * f.headsA.length
        + ChunkBodySize * f.headsA.length + sizeofChunkHead * f.headsB.length }

instance (s t : IStream) : Decidable (s.sameAhead t) :=
  inferInstanceAs (Decidable (_ ∧ _ ∧ _))

instance (hashSize : Nat) (e : EncodingEntry) : Decidable (e.WellFormed hashSize) :=
  inferInstanceAs (Decidable (_ ∧ _ ∧ _ ∧ _))

instance (f : EncodingFile) : Decidable f.WellFormed :=
  inferInstanceAs (Decidable (_ ∧ _ ∧ _ ∧ _ ∧ _ ∧ _ ∧ _ ∧ _ ∧ _ ∧ _ ∧ _))

/-- The lookup of the spec within one chunk (§4.4, Lookup, step 3): the key
list of the first entry whose content hash is `target`, and no key when there is
no such entry. -/
def lookupKeys (target : Hex) : List EncodingEntry → List Hex
  | [] => []
  | e :: es => if e.contentHash = target then e.keys else lookupKeys target es

/-! ## Example inputs -/

/-- A content hash: fifteen zero bytes, then 5. -/
def exampleHash : Hex := List.replicate 15 0 ++ [5]

/-- A storage key: sixteen bytes 7. -/
def exampleKey : Hex := List.replicate 16 7

/-- A stand-in for the digest function in the examples. -/
def exampleMd5 : List Byte → Hex := fun _ => List.replicate 16 9

/-- A chunk body with the single entry `(exampleHash, 100, [exampleKey])`. -/
def exampleBody : List Byte :=
  encodeBody [⟨exampleHash, 100, [exampleKey]⟩] (List.replicate 4056 0)

/-- A file with `table_size_a = 1`, `table_size_b = 0` and no string table. -/
def singleChunkFile (first digest : Hex) (body : List Byte) : EncodingFile :=
  { u2 := 1, u5 := 0, u6 := 4, u7 := 0, u8 := 4, u17 := 0
    hashSizeA := 16, hashSizeB := 16
    strings := []
    headsA := [⟨first, digest⟩]
    bodiesA := [body]
    headsB := []
    bodiesB := [] }

/-- A file with `table_size_a = 2`, `table_size_b = 0` and no string table. -/
def twoChunkFile (first0 digest0 first1 digest1 : Hex) (body0 body1 : List Byte) :
    EncodingFile :=
  { u2 := 1, u5 := 0, u6 := 4, u7 := 0, u8 := 4, u17 := 0
    hashSizeA := 16, hashSizeB := 16
    strings := []
    headsA := [⟨first0, digest0⟩, ⟨first1, digest1⟩]
    bodiesA := [body0, body1]
    headsB := []
    bodiesB := [] }

/-- The smallest hash: sixteen zero bytes. -/
def zeroHash : Hex := List.replicate 16 0

/-- A chunk body with two entries: `(zeroHash, 1, [sixteen bytes 3])`, then
`(exampleHash, 100, [exampleKey])`. -/
def exampleBody2 : List Byte :=
  encodeBody ([⟨zeroHash, 1, [List.replicate 16 3]⟩] ++
    ⟨exampleHash, 100, [exampleKey]⟩ :: []) (List.replicate 4018 0)

/-- The part of the file that ends with the table-A bodies: header, string
table, table-A heads, table-A bodies. -/
def EncodingFile.common (f : EncodingFile) : List Byte :=
  f.header ++ (f.strings ++ (f.headsA.flatMap encodeHead ++ f.bodiesA.flatten))

/-- The table-B part of the file: its heads, then its bodies. -/
def EncodingFile.tableB (f : EncodingFile) : List Byte :=
  f.headsB.flatMap encodeHead ++ f.bodiesB.flatten

/-- The file `singleChunkFile first digest body` with one chunk in table B. -/
def singleChunkFileB (first digest : Hex) (body : List Byte) (headB : ChunkHead)
    (bodyB : List Byte) : EncodingFile :=
  { u2 := 1, u5 := 0, u6 := 4, u7 := 0, u8 := 4, u17 := 0
    hashSizeA := 16, hashSizeB := 16
    strings := []
    headsA := [⟨first, digest⟩]
    bodiesA := [body]
    headsB := [headB]
    bodiesB := [bodyB] }

/-! ## The class template `Hex<Size>` (`Casc/Shared/Hex.hpp`) -/

/-- A `std::string`, as the list of its characters. -/
abbrev StdString := List Char

/-- The call `str[pos]` on a `const std::string`: the character at `pos`, the
null character at `pos == size()`, and no defined result beyond. -/
def StdString.charAt (str : StdString) (pos : Nat) : Option Char :=
  if pos < str.length then str[pos]?
  else if pos = str.length then some (Char.ofNat 0)
  else none

/-- Modelled from the C++ standard: `operator<` of `std::string` compares
character by character (as unsigned values), a proper prefix being smaller. -/
def StdString.lt : StdString → StdString → Bool
  | [], [] => false
  | [], _ :: _ => true
  | _ :: _, [] => false
  | a :: as, b :: bs =>
    if a.toNat < b.toNat then true
    else if b.toNat < a.toNat then false
    else StdString.lt as bs

/-- The digit that `std::hex` output writes for a value below 16 (lowercase,
since `std::uppercase` is not set). -/
def hexDigit (n : Nat) : Char :=
  if n < 10 then Char.ofNat (48 + n) else Char.ofNat (87 + n)

/-- The output `ss << std::setw(2) << c` under `std::hex` and
`std::setfill('0')` for an `unsigned int c` that comes from a `uint8_t`: two
digits, the first one `0` for values below 16. -/
def putHex (c : Byte) : StdString := [hexDigit (c.val / 16), hexDigit (c.val % 16)]

/-- The value of a character as a hexadecimal digit, in either letter case. -/
def hexValue (c : Char) : Option Nat :=
  if 48 ≤ c.toNat ∧ c.toNat ≤ 57 then some (c.toNat - 48)
  else if 97 ≤ c.toNat ∧ c.toNat ≤ 102 then some (c.toNat - 87)
  else if 65 ≤ c.toNat ∧ c.toNat ≤ 70 then some (c.toNat - 55)
  else none

/-- The white space that formatted input skips (`isspace` of the "C" locale). -/
def isSpace (c : Char) : Bool := c.toNat = 32 ∨ (9 ≤ c.toNat ∧ c.toNat ≤ 13)

/-- The digits at the front of `s`, accumulated onto `acc` in base 16, and how
many there were. -/
def hexRun : List Char → Nat → Nat → Nat × Nat
  | [], acc, count => (acc, count)
  | c :: rest, acc, count =>
    match hexValue c with
    | some v => hexRun rest (acc * 16 + v) (count + 1)
    | none => (acc, count)

/-- The unsigned part of a hexadecimal field: an optional `0x` or `0X` in front
of digits, or digits alone. `none` when there is no digit to convert. -/
def hexMagnitude (s : List Char) : Option Nat :=
  match s with
  | '0' :: 'x' :: rest => if (hexRun rest 0 0).2 = 0 then none else some (hexRun rest 0 0).1
  | '0' :: 'X' :: rest => if (hexRun rest 0 0).2 = 0 then none else some (hexRun rest 0 0).1
  | _ => if (hexRun s 0 0).2 = 0 then none else some (hexRun s 0 0).1

/-- Modelled from the C++ standard: the extraction `ss >> std::hex >> i1` into an
`int` from a stream that holds the characters `s` (a short field, so that there
is no overflow): white space is skipped, a sign may precede the number. `none`
when the extraction fails, or stops on a bare `0x`; the `int` is not initialised
by the caller, and libraries differ in what they store then. -/
def extractHex (s : List Char) : Option Int :=
  match s.dropWhile isSpace with
  | '-' :: rest => (hexMagnitude rest).map fun n => - (n : Int)
  | '+' :: rest => (hexMagnitude rest).map fun n => (n : Int)
  | rest => (hexMagnitude rest).map fun n => (n : Int)

/-- The conversion of an `int` to `uint8_t` in `arr[i] = i1`. -/
def toUint8 (i : Int) : Byte := ⟨(i % 256).toNat, by omega⟩

/-- The data members of `Hex<Size>` with `ElementType = uint8_t`. -/
structure Shared.Hex where
  arr : List Byte
  str : StdString
  deriving DecidableEq

/-- The loop of `Hex(const std::string &)` from index `i` on, with `count`
iterations to go: element `i` is extracted from the characters `2 * i` and
`2 * i + 1` of `str`. -/
def Shared.Hex.elements (str : StdString) : Nat → Nat → Option (List Byte)
  | 0, _ => some []
  | count + 1, i =>
    match str.charAt (i * 2), str.charAt (i * 2 + 1) with
    | some c0, some c1 =>
      match extractHex [c0, c1], Shared.Hex.elements str count (i + 1) with
      | some v, some rest => some (toUint8 v :: rest)
      | _, _ => none
    | _, _ => none

/-- The constructor `Hex(const std::string &str)` of `Hex<Size>`; `none` when an
element is not determined. -/
def Shared.Hex.ofString (Size : Nat) (str : StdString) : Option Shared.Hex :=
  (Shared.Hex.elements str Size 0).map fun arr => ⟨arr, str⟩

/-- The constructor `Hex(const std::array<ElementType, Size> &arr)`, `Size`
being the length of `arr`. -/
def Shared.Hex.ofArray (arr : List Byte) : Shared.Hex :=
  ⟨arr, arr.flatMap putHex⟩

/-- The method `data()`. -/
def Shared.Hex.data (self : Shared.Hex) : List Byte := self.arr

/-- The method `string()`. -/
def Shared.Hex.string (self : Shared.Hex) : StdString := self.str

/-- The characters of the lowercase hexadecimal notation. -/
def lowerHexChars : List Char := "0123456789abcdef".toList

/-- The hexadecimal digits of either letter case. -/
def hexChars : List Char := "0123456789abcdefABCDEF".toList

/-- The value of a hexadecimal digit, 0 for any other character. -/
def digitValue (c : Char) : Nat := (hexValue c).getD 0

/-! ## The bucket of an index key (`CascIndex::bucket`) -/

/-- Modelled from the spec: `CascIndex::bucket` is not part of the sources at
hand, only the test `GetBucket` that calls it is. This is the `x` of spec §4.3,
the XOR of all bytes of the key. -/
def CascIndex.xorFold (key : List Byte) : Nat :=
  key.foldl (fun x b => x ^^^ b.val) 0

/-- Modelled from the spec: `CascIndex::bucket(first, last)` is not part of the
sources at hand, only the test `GetBucket` that calls it is. Spec §4.3: with `x`
the XOR of the bytes in the iterator range, the bucket is
`(x >> 4) XOR (x & 0x0F)`. -/
def CascIndex.bucket (key : List Byte) : Nat :=
  (CascIndex.xorFold key >>> 4) ^^^ (CascIndex.xorFold key &&& 0x0F)

/-- The bytes between `begin()` and `end()` of a `std::array<uint8_t, N>`. -/
def arrayRange {N : Nat} (arr : Fin N → Byte) : List Byte := List.ofFn arr

/-- The bytes between `begin()` and `end()` of a `std::vector<uint8_t>`. -/
def vectorRange (vec : Array Byte) : List Byte := vec.toList

/-- The key of the test `GetBucket`. -/
def testKey : List Byte := [0x41, 0xEE, 0x19, 0x86, 0xAC, 0xC5, 0x33, 0xCC, 0x00]

/-- The 4094 bytes after a leading terminator: all 7. -/
def exampleTail : List Byte := List.replicate 4094 7

/-- The bytes of an entry for `exampleHash`, used as what follows a terminator. -/
def exampleFill : List Byte := encodeEntry ⟨exampleHash, 100, [exampleKey]⟩

/-! ## The legacy class `CascEncoding` (`CascLib/CascEncoding.hpp`) -/

/-- How a call of the legacy class ends: it returns a value, throws a
`std::exception` with the message `what`, or has no defined behaviour. -/
inductive Legacy.Outcome (α : Type) where
  | ok (value : α)
  | throws (what : String)
  | undefined
  deriving DecidableEq

/-- The data members of the legacy `CascEncoding` that `findKey` uses. -/
structure Legacy.CascEncoding where
  stream : IStream
  chunkHeadsA : List ChunkHead
  chunkHeadsB : List ChunkHead
  chunksOffsetA : Nat
  chunksOffsetB : Nat
  deriving DecidableEq

/-- The value of `sizeof(ChunkBody)` for the packed legacy struct: `unk` (2
bytes), `fileSize` (4), `hash` (16), `key` (16). -/
def Legacy.sizeofChunkBody : Nat := 38

/-- The `while (true)` loop of `findKey` over the buffer `data`, `chunk` pointing
`off` bytes into it: the loop ends when `chunk->unk` (a little-endian `uint16_t`)
is not 1, and returns from `findKey` when `chunk->hash` is `hex.data()`. The
result is `some` of the returned string, or `none` after a `break`. `hexData` is
`none` when the elements of `hex` are not determined. `fuel` bounds the number
of iterations; every iteration moves `chunk` forward by 38 bytes. -/
def Legacy.scanChunk (data : List Byte) (hexData : Option (List Byte)) :
    Nat → Nat → Legacy.Outcome (Option StdString)
  | 0, _ => .undefined
  | fuel + 1, off =>
    match slice data off 2 with
    | none => .undefined
    | some unk =>
      if Endian.readLittle unk ≠ 1 then .ok none
      else
        match slice data (off + 6) 16 with
        | none => .undefined
        | some hash =>
          if hexData = none then .undefined
          else if hexData = some hash then
            .ok (some (Shared.Hex.ofArray (hash.take 9)).string)
          else Legacy.scanChunk data hexData fuel (off + Legacy.sizeofChunkBody)

/-- The array `std::array<uint8_t, 16> { (uint8_t)0xFF }`. -/
def Legacy.lastNext : List Byte := 0xFF :: List.replicate 15 0

/-- The array from which `next` is made: the first key of the following head,
or `Legacy.lastNext` after the last head. -/
def Legacy.nextFirst : List ChunkHead → List Byte
  | [] => Legacy.lastNext
  | next :: _ => next.first

/-- One of the two `for` loops of `findKey`, over the heads `heads` of a table
whose bodies start at `offset`, from index `i` on, `rest` being the heads at the
indices `i, i + 1, ...`. The product `ChunkBodySize * i` is an `unsigned int`.
The result is `some` of the string that `findKey` returns, or `none` with the
stream when the loop ends. -/
def Legacy.searchHeads (hash : StdString) (hexData : Option (List Byte)) (size offset : Nat) :
    List ChunkHead → Nat → IStream → Legacy.Outcome (Option StdString × IStream)
  | [], _, stream => .ok (none, stream)
  | head :: rest, i, stream =>
    if i + 1 ≥ size ∨
        (¬ StdString.lt hash (Shared.Hex.ofArray head.first).string ∧
          StdString.lt hash (Shared.Hex.ofArray (Legacy.nextFirst rest)).string) then
      match (stream.seekgBeg (offset + (ChunkBodySize * i) % 2 ^ 32)).read 4096 with
      | (none, _) => .undefined
      | (some data, stream1) =>
        match Legacy.scanChunk data hexData data.length 0 with
        | .ok (some key) => .ok (some key, stream1)
        | .ok none => Legacy.searchHeads hash hexData size offset rest (i + 1) stream1
        | .throws what => .throws what
        | .undefined => .undefined
    else Legacy.searchHeads hash hexData size offset rest (i + 1) stream

/-- The legacy method `findKey`. -/
def Legacy.findKey (self : Legacy.CascEncoding) (hash : StdString) :
    Legacy.Outcome StdString :=
  match Legacy.searchHeads hash ((Shared.Hex.ofString 16 hash).map Shared.Hex.data)
      self.chunkHeadsA.length self.chunksOffsetA self.chunkHeadsA 0 self.stream with
  | .ok (some key, _) => .ok key
  | .ok (none, stream1) =>
    match Legacy.searchHeads hash ((Shared.Hex.ofString 16 hash).map Shared.Hex.data)
        self.chunkHeadsB.length self.chunksOffsetB self.chunkHeadsB 0 stream1 with
    | .ok (some key, _) => .ok key
    | .ok (none, _) => .throws "Key not found"
    | .throws what => .throws what
    | .undefined => .undefined
  | .throws what => .throws what
  | .undefined => .undefined

/-- A legacy chunk body: one entry with `unk = 1`, file size 100, hash
`exampleHash` and key `exampleKey`, then zero bytes. -/
def Legacy.exampleBody : List Byte :=
  [1, 0] ++ ([0, 0, 0, 100] ++ (exampleHash ++ (exampleKey ++ List.replicate 4058 0)))

/-- A legacy object over a stream that holds `Legacy.exampleBody` alone, as the
body of the only chunk of table A. -/
def Legacy.exampleEncoding : Legacy.CascEncoding :=
  { stream := ⟨Legacy.exampleBody, 0, false⟩
    chunkHeadsA := [⟨exampleHash, zeroHash⟩]
    chunkHeadsB := []
    chunksOffsetA := 0
    chunksOffsetB := 4096 }

/-! ## MD5 (`Casc/md5.hpp`)

The type `uint4` is a natural number below 2^32; every operation reduces its
result modulo 2^32. -/

/-- The complement `~x` of a `uint4`. -/
def MD5.not32 (x : Nat) : Nat := x ^^^ 0xFFFFFFFF

/-- The function `F`. -/
def MD5.F (x y z : Nat) : Nat := (x &&& y) ||| (MD5.not32 x &&& z)

/-- The function `G`. -/
def MD5.G (x y z : Nat) : Nat := (x &&& z) ||| (y &&& MD5.not32 z)

/-- The function `H`. -/
def MD5.H (x y z : Nat) : Nat := x ^^^ y ^^^ z

/-- The function `I`. -/
def MD5.I (x y z : Nat) : Nat := y ^^^ (x ||| MD5.not32 z)

/-- The function `rotate_left` on a `uint4`. -/
def MD5.rotate_left (x n : Nat) : Nat := ((x <<< n) % 2 ^ 32) ||| (x >>> (32 - n))

/-- The function `FF`; the result is the new value of its reference parameter
`a`. -/
def MD5.FF (a b c d x s ac : Nat) : Nat :=
  (MD5.rotate_left ((a + MD5.F b c d + x + ac) % 2 ^ 32) s + b) % 2 ^ 32

/-- The function `GG`. -/
def MD5.GG (a b c d x s ac : Nat) : Nat :=
  (MD5.rotate_left ((a + MD5.G b c d + x + ac) % 2 ^ 32) s + b) % 2 ^ 32

/-- The function `HH`. -/
def MD5.HH (a b c d x s ac : Nat) : Nat :=
  (MD5.rotate_left ((a + MD5.H b c d + x + ac) % 2 ^ 32) s + b) % 2 ^ 32

/-- The function `II`. -/
def MD5.II (a b c d x s ac : Nat) : Nat :=
  (MD5.rotate_left ((a + MD5.I b c d + x + ac) % 2 ^ 32) s + b) % 2 ^ 32

/-- The word `output[i]` that `decode` makes of `input[4i .. 4i+3]`. -/
def MD5.word (input : List Byte) (i : Nat) : Nat :=
  (input.getD (4 * i) 0).val ||| ((input.getD (4 * i + 1) 0).val <<< 8) |||
    ((input.getD (4 * i + 2) 0).val <<< 16) ||| ((input.getD (4 * i + 3) 0).val <<< 24)

/-- Conversion to `uint1`. -/
def MD5.uint1 (n : Nat) : Byte := ⟨n % 256, Nat.mod_lt _ (by decide)⟩

/-- The function `encode`: four bytes for every word of `input`. -/
def MD5.encode : List Nat → List Byte
  | [] => []
  | w :: input =>
    MD5.uint1 (w &&& 0xff) :: MD5.uint1 ((w >>> 8) &&& 0xff) ::
      MD5.uint1 ((w >>> 16) &&& 0xff) :: MD5.uint1 ((w >>> 24) &&& 0xff) :: MD5.encode input

/-- The data members of `MD5`. -/
structure MD5 where
  finalized : Bool
  buffer : List Byte
  count0 : Nat
  count1 : Nat
  state0 : Nat
  state1 : Nat
  state2 : Nat
  state3 : Nat
  digest : List Byte
  deriving DecidableEq

/-- The method `init`; `buffer` and `digest` stay as they are. -/
def MD5.init (self : MD5) : MD5 :=
  { self with
    finalized := false
    count0 := 0
    count1 := 0
    state0 := 0x67452301
    state1 := 0xefcdab89
    state2 := 0x98badcfe
    state3 := 0x10325476 }

/-- The 64 steps of `transform`: from the values of `a`, `b`, `c`, `d` before
step 1 and the block, their values after step 64. -/
def MD5.rounds (a b c d : Nat) (block : List Byte) : Nat × Nat × Nat × Nat :=
  let a := MD5.FF a b c d (MD5.word block 0) 7 0xd76aa478
  let d := MD5.FF d a b c (MD5.word block 1) 12 0xe8c7b756
  let c := MD5.FF c d a b (MD5.word block 2) 17 0x242070db
  let b := MD5.FF b c d a (MD5.word block 3) 22 0xc1bdceee
  let a := MD5.FF a b c d (MD5.word block 4) 7 0xf57c0faf
  let d := MD5.FF d a b c (MD5.word block 5) 12 0x4787c62a
  let c := MD5.FF c d a b (MD5.word block 6) 17 0xa8304613
  let b := MD5.FF b c d a (MD5.word block 7) 22 0xfd469501
  let a := MD5.FF a b c d (MD5.word block 8) 7 0x698098d8
  let d := MD5.FF d a b c (MD5.word block 9) 12 0x8b44f7af
  let c := MD5.FF c d a b (MD5.word block 10) 17 0xffff5bb1
  let b := MD5.FF b c d a (MD5.word block 11) 22 0x895cd7be
  let a := MD5.FF a b c d (MD5.word block 12) 7 0x6b901122
  let d := MD5.FF d a b c (MD5.word block 13) 12 0xfd987193
  let c := MD5.FF c d a b (MD5.word block 14) 17 0xa679438e
  let b := MD5.FF b c d a (MD5.word block 15) 22 0x49b40821
  let a := MD5.GG a b c d (MD5.word block 1) 5 0xf61e2562
  let d := MD5.GG d a b c (MD5.word block 6) 9 0xc040b340
  let c := MD5.GG c d a b (MD5.word block 11) 14 0x265e5a51
  let b := MD5.GG b c d a (MD5.word block 0) 20 0xe9b6c7aa
  let a := MD5.GG a b c d (MD5.word block 5) 5 0xd62f105d
  let d := MD5.GG d a b c (MD5.word block 10) 9 0x2441453
  let c := MD5.GG c d a b (MD5.word block 15) 14 0xd8a1e681
  let b := MD5.GG b c d a (MD5.word block 4) 20 0xe7d3fbc8
  let a := MD5.GG a b c d (MD5.word block 9) 5 0x21e1cde6
  let d := MD5.GG d a b c (MD5.word block 14) 9 0xc33707d6
  let c := MD5.GG c d a b (MD5.word block 3) 14 0xf4d50d87
  let b := MD5.GG b c d a (MD5.word block 8) 20 0x455a14ed
  let a := MD5.GG a b c d (MD5.word block 13) 5 0xa9e3e905
  let d := MD5.GG d a b c (MD5.word block 2) 9 0xfcefa3f8
  let c := MD5.GG c d a b (MD5.word block 7) 14 0x676f02d9
  let b := MD5.GG b c d a (MD5.word block 12) 20 0x8d2a4c8a
  let a := MD5.HH a b c d (MD5.word block 5) 4 0xfffa3942
  let d := MD5.HH d a b c (MD5.word block 8) 11 0x8771f681
  let c := MD5.HH c d a b (MD5.word block 11) 16 0x6d9d6122
  let b := MD5.HH b c d a (MD5.word block 14) 23 0xfde5380c
  let a := MD5.HH a b c d (MD5.word block 1) 4 0xa4beea44
  let d := MD5.HH d a b c (MD5.word block 4) 11 0x4bdecfa9
  let c := MD5.HH c d a b (MD5.word block 7) 16 0xf6bb4b60
  let b := MD5.HH b c d a (MD5.word block 10) 23 0xbebfbc70
  let a := MD5.HH a b c d (MD5.word block 13) 4 0x289b7ec6
  let d := MD5.HH d a b c (MD5.word block 0) 11 0xeaa127fa
  let c := MD5.HH c d a b (MD5.word block 3) 16 0xd4ef3085
  let b := MD5.HH b c d a (MD5.word block 6) 23 0x4881d05
  let a := MD5.HH a b c d (MD5.word block 9) 4 0xd9d4d039
  let d := MD5.HH d a b c (MD5.word block 12) 11 0xe6db99e5
  let c := MD5.HH c d a b (MD5.word block 15) 16 0x1fa27cf8
  let b := MD5.HH b c d a (MD5.word block 2) 23 0xc4ac5665
  let a := MD5.II a b c d (MD5.word block 0) 6 0xf4292244
  let d := MD5.II d a b c (MD5.word block 7) 10 0x432aff97
  let c := MD5.II c d a b (MD5.word block 14) 15 0xab9423a7
  let b := MD5.II b c d a (MD5.word block 5) 21 0xfc93a039
  let a := MD5.II a b c d (MD5.word block 12) 6 0x655b59c3
  let d := MD5.II d a b c (MD5.word block 3) 10 0x8f0ccc92
  let c := MD5.II c d a b (MD5.word block 10) 15 0xffeff47d
  let b := MD5.II b c d a (MD5.word block 1) 21 0x85845dd1
  let a := MD5.II a b c d (MD5.word block 8) 6 0x6fa87e4f
  let d := MD5.II d a b c (MD5.word block 15) 10 0xfe2ce6e0
  let c := MD5.II c d a b (MD5.word block 6) 15 0xa3014314
  let b := MD5.II b c d a (MD5.word block 13) 21 0x4e0811a1
  let a := MD5.II a b c d (MD5.word block 4) 6 0xf7537e82
  let d := MD5.II d a b c (MD5.word block 11) 10 0xbd3af235
  let c := MD5.II c d a b (MD5.word block 2) 15 0x2ad7d2bb
  let b := MD5.II b c d a (MD5.word block 9) 21 0xeb86d391
  (a, b, c, d)

/-- The method `transform` on a block of 64 bytes: `a`, `b`, `c`, `d` start as
the four words of `state`, go through the 64 steps and are added to `state`. -/
def MD5.transform (self : MD5) (block : List Byte) : MD5 :=
  let r := MD5.rounds self.state0 self.state1 self.state2 self.state3 block
  { self with
    state0 := (self.state0 + r.1) % 2 ^ 32
    state1 := (self.state1 + r.2.1) % 2 ^ 32
    state2 := (self.state2 + r.2.2.1) % 2 ^ 32
    state3 := (self.state3 + r.2.2.2) % 2 ^ 32 }

/-- The call `memcpy(&buffer[index], src, n)` with `src` the `n` bytes copied:
`none` when the copy would write outside the 64 bytes of `buffer`. -/
def MD5.memcpy (buffer : List Byte) (index : Nat) (src : List Byte) : Option (List Byte) :=
  if index + src.length ≤ 64 then
    some (buffer.take index ++ src ++ buffer.drop (index + src.length))
  else none

/-- The loop `for (i = firstpart; i + blocksize <= length; i += blocksize)
transform(&input[i])` of `update`, from a given value of `i`; the result is the
object and `i` after the loop. `input` holds the bytes that exist at the
pointer: `none` when a block is read outside them, and when `fuel` passes of
the loop were not enough. -/
def MD5.updateBlocks (input : List Byte) (length : Nat) : Nat → MD5 → Nat → Option (MD5 × Nat)
  | 0, _, _ => none
  | fuel + 1, self, i =>
    if (i + 64) % 2 ^ 32 ≤ length then
      match slice input i 64 with
      | none => none
      | some block => MD5.updateBlocks input length fuel (self.transform block) ((i + 64) % 2 ^ 32)
    else some (self, i)

/-- The method `update(input, length)`, `length` being a 32-bit value and
`input` the bytes that exist at the pointer. -/
def MD5.update (self : MD5) (input : List Byte) (length : Nat) : Option MD5 :=
  let index := self.count0 / 8 % 64
  let count0 := (self.count0 + (length <<< 3) % 2 ^ 32) % 2 ^ 32
  let count1 := if count0 < (length <<< 3) % 2 ^ 32 then (self.count1 + 1) % 2 ^ 32 else self.count1
  let count1 := (count1 + (length >>> 29)) % 2 ^ 32
  let self := { self with count0 := count0, count1 := count1 }
  let firstpart := 64 - index
  if length ≥ firstpart then
    (slice input 0 firstpart).bind fun first =>
    (MD5.memcpy self.buffer index first).bind fun buffer =>
    let self := { self with buffer := buffer }
    let self := self.transform self.buffer
    (MD5.updateBlocks input length (length / 64 + 1) self firstpart).bind fun r =>
    (slice input r.2 ((length + 2 ^ 32 - r.2) % 2 ^ 32)).bind fun rest =>
    (MD5.memcpy r.1.buffer 0 rest).bind fun buffer =>
    some { r.1 with buffer := buffer }
  else
    (slice input 0 length).bind fun rest =>
    (MD5.memcpy self.buffer index rest).bind fun buffer =>
    some { self with buffer := buffer }

/-- The array `padding` of `finalize`. -/
def MD5.padding : List Byte := 0x80 :: List.replicate 63 0

/-- The method `finalize`. -/
def MD5.finalize (self : MD5) : Option MD5 :=
  if self.finalized then some self
  else
    let bits := MD5.encode [self.count0, self.count1]
    let index := self.count0 / 8 % 64
    let padLen := if index < 56 then 56 - index else 120 - index
    (self.update MD5.padding padLen).bind fun self =>
    (self.update bits 8).bind fun self =>
    some { self with
      digest := MD5.encode [self.state0, self.state1, self.state2, self.state3]
      buffer := List.replicate 64 0
      count0 := 0
      count1 := 0
      finalized := true }

/-- The method `hexdigest`. -/
def MD5.hexdigest (self : MD5) : StdString :=
  if self.finalized then self.digest.flatMap putHex else []

/-- The bytes at `c_str()` of a string: its characters and the terminating
zero. -/
def StdString.c_str (s : StdString) : List Byte :=
  s.map (fun c => MD5.uint1 c.toNat) ++ [0]

/-- The constructor `MD5(const std::string&)` on the storage `self`; the
conversion of `text.length()` to `size_type` keeps its low 32 bits. -/
def MD5.ofString (self : MD5) (text : StdString) : Option MD5 :=
  (self.init.update text.c_str (text.length % 2 ^ 32)).bind MD5.finalize

/-- The constructor `MD5(const std::vector<char>&)` on the storage `self`. -/
def MD5.ofVector (self : MD5) (input : List Byte) : Option MD5 :=
  (self.init.update input (input.length % 2 ^ 32)).bind MD5.finalize

/-- The function `md5(const std::string)`; `self` is the storage of its local
object. -/
def md5String (self : MD5) (str : StdString) : Option StdString :=
  (MD5.ofString self str).map MD5.hexdigest

/-- The function `md5(const std::vector<char>&)`. -/
def md5Vector (self : MD5) (input : List Byte) : Option StdString :=
  (MD5.ofVector self input).map MD5.hexdigest

/-- Storage filled with zero bytes. -/
def MD5.zeroed : MD5 :=
  ⟨false, List.replicate 64 0, 0, 0, 0, 0, 0, 0, List.replicate 16 0⟩

/-- The blocks of 64 bytes at the front of `l`, run through `transform` in
order, and the bytes of `l` that are left (fewer than 64). -/
def MD5.absorb (self : MD5) (l : List Byte) : MD5 × List Byte :=
  if h : 64 ≤ l.length then MD5.absorb (self.transform (l.take 64)) (l.drop 64) else (self, l)
termination_by l.length
decreasing_by simp; omega

/-- The four words of `state`. -/
def MD5.state (self : MD5) : Nat × Nat × Nat × Nat :=
  (self.state0, self.state1, self.state2, self.state3)

/-- The bytes waiting in `buffer`: its first `count[0] / 8 % 64` bytes. -/
def MD5.pending (self : MD5) : List Byte := self.buffer.take (self.count0 / 8 % 64)

/-- The 64-bit counter `count[1] * 2^32 + count[0]`. -/
def MD5.bitCount (self : MD5) : Nat := self.count1 * 2 ^ 32 + self.count0

/-- What the types of the data members say, and that `count[0]` counts whole
bytes. -/
def MD5.Valid (self : MD5) : Prop :=
  self.buffer.length = 64 ∧ self.count0 < 2 ^ 32 ∧ self.count1 < 2 ^ 32 ∧ self.count0 % 8 = 0

/-- One call of `update` for each piece, in order. -/
def MD5.updates : MD5 → List (List Byte) → Option MD5
  | self, [] => some self
  | self, piece :: pieces => (self.update piece piece.length).bind fun s => MD5.updates s pieces

/-- The object `r` is what feeding the bytes `l` to the object `self` leaves:
the blocks of 64 bytes of the pending bytes followed by `l` have gone through
`transform`, the rest is pending, and the counter has advanced by `8 * l.length`
modulo 2^64. -/
def MD5.Fed (self : MD5) (l : List Byte) (r : MD5) : Prop :=
  r.Valid ∧ r.state = (MD5.absorb self (self.pending ++ l)).1.state ∧
  r.pending = (MD5.absorb self (self.pending ++ l)).2 ∧
  r.bitCount = (self.bitCount + 8 * l.length) % 2 ^ 64 ∧
  r.finalized = self.finalized ∧ r.digest = self.digest
/-- The call `read(buf, n)` with what it stores: the bytes it could extract (at
most `n`, written to the front of `buf`) and the stream after it; the fail bit
is set when fewer than `n` bytes were there. -/
def IStream.readSome (s : IStream) (n : Nat) : List Byte × IStream :=
  if s.fail then ([], s)
  else if n ≤ s.bytes.length - s.pos then
    ((s.bytes.drop s.pos).take n, { s with pos := s.pos + n })
  else (s.bytes.drop s.pos, { s with fail := true })

/-- The loop `for (auto i = 0U; i < length; i += 4096U)` of the constructor
`MD5(std::ifstream&, size_type)`, from a given value of `i`, with `buf` the
content of the local array `buf`. The result is the object, the stream and the
counts of the reads made; `none` when `fuel` passes were not enough, and when
an `update` has no result. -/
def MD5.readBlocks (length : Nat) :
    Nat → MD5 → IStream → List Byte → Nat → Option (MD5 × IStream × List Nat)
  | 0, _, _, _, _ => none
  | fuel + 1, self, stream, buf, i =>
    if i < length then
      let count := min ((length + 2 ^ 32 - i) % 2 ^ 32) 4096
      let got := stream.readSome count
      let buf := got.1 ++ buf.drop got.1.length
      (self.update buf count).bind fun self =>
      (MD5.readBlocks length fuel self got.2 buf ((i + 4096) % 2 ^ 32)).map fun r =>
        (r.1, r.2.1, count :: r.2.2)
    else some (self, stream, [])

/-- The constructor `MD5(std::ifstream &stream, size_type length)` on the
storage `self`, the local array `buf` holding `buf` at first: the object, the
stream after `seekg(pos)` and the counts of the reads. -/
def MD5.ofStream (self : MD5) (buf : List Byte) (fuel : Nat) (stream : IStream) (length : Nat) :
    Option (MD5 × IStream × List Nat) :=
  let pos := stream.pos
  (MD5.readBlocks length fuel self.init stream buf 0).bind fun r =>
  r.1.finalize.map fun self => (self, r.2.1.seekgBeg pos, r.2.2)

/-- Two objects that differ at most in the bytes of `buffer` that are not
pending and in `digest`, neither of them finalized. -/
def MD5.Same (r t : MD5) : Prop :=
  r.Valid ∧ t.Valid ∧ r.state = t.state ∧ r.pending = t.pending ∧ r.bitCount = t.bitCount ∧
  r.finalized = false ∧ t.finalized = false

/-- A vector of 2^32 - 64 zero bytes. -/
def MD5.longInput : List Byte := List.replicate 4294967232 0

/-- A chunk body whose first entry announces 257 keys: `01 01`, then 4094 bytes
7. -/
def overshootBody : List Byte := 1 :: 1 :: exampleTail

/-- A chunk body without entries: the `key_count == 0` marker, then 4094 bytes
7. -/
def emptyBody : List Byte := encodeBody [] exampleTail

/-- A two-chunk file whose heads have the first keys `zeroHash` and
`exampleHash`, both bodies without entries; `digest0` is the digest recorded
for chunk 0, the one recorded for chunk 1 is that of its body. -/
def twoEmptyChunks (digest0 : Hex) : EncodingFile :=
  twoChunkFile zeroHash digest0 exampleHash (exampleMd5 emptyBody) emptyBody emptyBody

/-- Sequencing of legacy calls: the first failure ends the run. -/
def Legacy.Outcome.bind {α β : Type} (x : Legacy.Outcome α) (f : α → Legacy.Outcome β) :
    Legacy.Outcome β :=
  match x with
  | .ok a => f a
  | .throws what => .throws what
  | .undefined => .undefined

/-- The legacy member template `read(input, value, big)` up to the decoding: the
`sizeof(T)` bytes read. When the stream cannot supply them the decoded value is
indeterminate. The decoders `readBE` and `readLE` are declared in
`StreamOps.hpp`, which is not part of the sources at hand: `parse` below decodes
with `Endian.readBig`. -/
def Legacy.read (s : IStream) (n : Nat) : Legacy.Outcome (List Byte × IStream) :=
  match s.read n with
  | (some b, s1) => .ok (b, s1)
  | (none, _) => .undefined

/-- The legacy method `parse(std::istream*, bool)` on a default-constructed
object: the magic bytes, the three 32-bit fields (the hash sizes are skipped),
the heads of both tables in file order, and the two offsets. The sum
`HeaderSize + stringTableSize` and the product `tableSizeA * ChunkBodySize` are
`unsigned int` values, the products with `sizeof(ChunkHead)` are `size_t`
values. -/
def Legacy.parse (stream : IStream) : Legacy.Outcome Legacy.CascEncoding :=
  (Legacy.read stream 2).bind fun r0 =>
  if r0.1.getD 0 0 ≠ 0x45 ∨ r0.1.getD 1 0 ≠ 0x4E then .throws "Invalid file magic"
  else
    (Legacy.read (r0.2.seekgCur 7) 4).bind fun r1 =>
    (Legacy.read r1.2 4).bind fun r2 =>
    (Legacy.read (r2.2.seekgCur 1) 4).bind fun r3 =>
    let tableSizeA := Endian.readBig r1.1
    let tableSizeB := Endian.readBig r2.1
    let stringTableSize := Endian.readBig r3.1
    let a := readHeads (r3.2.seekgCur stringTableSize) tableSizeA
    let b := readHeads (a.2.seekgCur ((tableSizeA * ChunkBodySize) % 2 ^ 32)) tableSizeB
    if b.2.fail then .throws "Stream is in an invalid state."
    else
      .ok { stream := b.2
            chunkHeadsA := a.1
            chunkHeadsB := b.1
            chunksOffsetA :=
              ((HeaderSize + stringTableSize) % 2 ^ 32 + tableSizeA * sizeofChunkHead) % 2 ^ 64
            chunksOffsetB :=
              ((HeaderSize + stringTableSize) % 2 ^ 32 + tableSizeA * sizeofChunkHead
                + (tableSizeA * ChunkBodySize) % 2 ^ 32) % 2 ^ 64 }

/-- A content hash with a letter digit: `0a`, fourteen zero bytes, then 1. -/
def Legacy.letterHash : List Byte := 0x0A :: (List.replicate 14 0 ++ [1])

/-- A legacy chunk body: one entry with `unk = 1`, file size 100, hash
`Legacy.letterHash` and key `exampleKey`, then zero bytes. -/
def Legacy.letterBody : List Byte :=
  [1, 0] ++ ([0, 0, 0, 100] ++ (Legacy.letterHash ++ (exampleKey ++ List.replicate 4058 0)))

/-- A legacy object with two chunks in table A, none in table B, over a stream
that holds the two bodies: chunk 0 (first key `0a 00 .. 00`) is
`Legacy.letterBody`, chunk 1 (first key `0f 00 .. 00`) holds no entry. -/
def Legacy.letterEncoding : Legacy.CascEncoding :=
  { stream := ⟨Legacy.letterBody ++ List.replicate 4096 0, 0, false⟩
    chunkHeadsA := [⟨0x0A :: List.replicate 15 0, zeroHash⟩, ⟨0x0F :: List.replicate 15 0, zeroHash⟩]
    chunkHeadsB := []
    chunksOffsetA := 0
    chunksOffsetB := 8192 }

/-- The number of passes of the entry loop of `searchTable` (lines 161-191) that
`scanEntries` makes from the cursor `it`: a pass is counted when the loop
condition `keys.empty() && it < end` holds, whether the pass then ends the loop
or not. -/
def scanPasses (data : List Byte) (hashSizeA : Nat) (target : Hex) :
    Nat → Nat → List Hex → Nat
  | 0, _, _ => 0
  | fuel + 1, it, keys =>
    if keys.isEmpty ∧ it < data.length then
      match slice data it 2 with
      | none => 1
      | some kc =>
        if Endian.readLittle kc = 0 then 1
        else
          match slice data (it + 2) 4 with
          | none => 1
          | some _ =>
            match slice data (it + 2 + 4) hashSizeA with
            | none => 1
            | some current =>
              match readKeys data hashSizeA (decide (target = current))
                  (Endian.readLittle kc) (it + 2 + 4 + hashSizeA) keys with
              | none => 1
              | some r => 1 + scanPasses data hashSizeA target fuel r.1 r.2
    else 0

/-- The writes into `buffer` that `update(input, length)` makes, as pairs of the
first index written and the number of bytes: the calls
`memcpy(&buffer[index], input, firstpart)` and
`memcpy(&buffer[index], &input[i], length - i)` of the source, in order, with
the values that `update` computes for them (the second call is left out when
the run has no result before it). -/
def MD5.updateWrites (self : MD5) (input : List Byte) (length : Nat) : List (Nat × Nat) :=
  let index := self.count0 / 8 % 64
  let count0 := (self.count0 + (length <<< 3) % 2 ^ 32) % 2 ^ 32
  let count1 := if count0 < (length <<< 3) % 2 ^ 32 then (self.count1 + 1) % 2 ^ 32 else self.count1
  let count1 := (count1 + (length >>> 29)) % 2 ^ 32
  let self := { self with count0 := count0, count1 := count1 }
  let firstpart := 64 - index
  if length ≥ firstpart then
    (index, firstpart) ::
      match (slice input 0 firstpart).bind fun first =>
          (MD5.memcpy self.buffer index first).bind fun buffer =>
          let self := { self with buffer := buffer }
          let self := self.transform self.buffer
          MD5.updateBlocks input length (length / 64 + 1) self firstpart with
      | some r => [(0, (length + 2 ^ 32 - r.2) % 2 ^ 32)]
      | none => []
  else [(index, length)]

/-- How a run of the entry loop ends: the loop is left with the keys collected
(through its condition or through `break`), a read leaves the chunk buffer, or
the passes allowed are used up before the loop is left. -/
inductive ScanEnd where
  | returned (keys : List Hex)
  | outside
  | outOfFuel
  deriving DecidableEq

/-- The outcome that `scanEntries` gives for an end of the loop. -/
def ScanEnd.toOutcome : ScanEnd → Outcome (List Hex)
  | .returned keys => .ok keys
  | .outside => .undefined
  | .outOfFuel => .undefined

/-- A run of the entry loop: the number of passes made and the way it ends. -/
structure ScanRun where
  passes : Nat
  ending : ScanEnd
  deriving DecidableEq

/-- The entry loop of `searchTable` (lines 161-191) as in `scanEntries`, with
the passes counted and the end of the run told apart: `fuel` is the number of
times the loop condition `keys.empty() && it < end` may be tested; a pass is
counted each time the condition holds. -/
def scanRun (data : List Byte) (hashSizeA : Nat) (target : Hex) :
    Nat → Nat → List Hex → ScanRun
  | 0, _, _ => ⟨0, .outOfFuel⟩
  | fuel + 1, it, keys =>
    if keys.isEmpty ∧ it < data.length then
      match slice data it 2 with
      | none => ⟨1, .outside⟩
      | some kc =>
        if Endian.readLittle kc = 0 then ⟨1, .returned keys⟩
        else
          match slice data (it + 2) 4 with
          | none => ⟨1, .outside⟩
          | some _ =>
            match slice data (it + 2 + 4) hashSizeA with
            | none => ⟨1, .outside⟩
            | some current =>
              match readKeys data hashSizeA (decide (target = current))
                  (Endian.readLittle kc) (it + 2 + 4 + hashSizeA) keys with
              | none => ⟨1, .outside⟩
              | some r =>
                ⟨1 + (scanRun data hashSizeA target fuel r.1 r.2).passes,
                  (scanRun data hashSizeA target fuel r.1 r.2).ending⟩
    else ⟨0, .returned keys⟩

/-! ## Basic facts about the stream and the header -/

theorem Outcome.bind_ok {α β : Type} (a : α) (f : α → Outcome β) :
    (Outcome.ok a).bind f = f a := rfl

theorem Outcome.bind_eq_ok {α β : Type} {x : Outcome α} {f : α → Outcome β} {b : β}
    (h : x.bind f = .ok b) : ∃ a, x = .ok a ∧ f a = .ok b := by
  cases x with
  | ok a => exact ⟨a, rfl, h⟩
  | throws e => simp [Outcome.bind] at h
  | undefined => simp [Outcome.bind] at h

theorem read_bind_ne_throws {β : Type} (s : IStream) (n : Nat)
    (f : List Byte × IStream → Outcome β) (e : CascError)
    (hf : ∀ r, f r ≠ .throws e) : (CascEncoding.read s n).bind f ≠ .throws e := by
  unfold CascEncoding.read
  rcases h : s.read n with ⟨o, s1⟩
  cases o with
  | none => simp [Outcome.bind]
  | some b => simpa [Outcome.bind] using hf (b, s1)

theorem parseFields_ne_throws (s : IStream) (e : CascError) : parseFields s ≠ .throws e := by
  unfold parseFields
  refine read_bind_ne_throws _ _ _ _ fun r1 => ?_
  refine read_bind_ne_throws _ _ _ _ fun r2 => ?_
  refine read_bind_ne_throws _ _ _ _ fun r3 => ?_
  refine read_bind_ne_throws _ _ _ _ fun r4 => ?_
  refine read_bind_ne_throws _ _ _ _ fun r5 => ?_
  intro h
  cases h

theorem parseTables_throws {h : Header} {s : IStream} {e : CascError}
    (he : parseTables h s = .throws e) : e = .GenericException := by
  unfold parseTables checkForErrors at he
  simp only at he
  split at he
  · cases he; rfl
  · cases he

theorem byte_val_0x45 : ((0x45 : Byte) : Nat) = 69 := rfl

theorem byte_val_0x4E : ((0x4E : Byte) : Nat) = 78 := rfl

theorem signature_eq_iff (b0 b1 : Byte) :
    b0.val + 256 * b1.val = 0x4E45 ↔ b0 = 0x45 ∧ b1 = 0x4E := by
  constructor
  · intro h
    have h0 := b0.isLt
    have h1 := b1.isLt
    constructor
    · apply Fin.ext
      rw [byte_val_0x45]
      omega
    · apply Fin.ext
      rw [byte_val_0x4E]
      omega
  · rintro ⟨rfl, rfl⟩
    rfl

theorem parseHeader_cons_cons (b0 b1 : Byte) (rest : List Byte) :
    parseHeader (IStream.ofBytes (b0 :: b1 :: rest)) =
      if b0.val + 256 * b1.val ≠ 0x4E45 then
        .throws (.InvalidSignatureException (b0.val + 256 * b1.val) 0x4E45)
      else parseFields ⟨b0 :: b1 :: rest, 2, false⟩ := by
  simp [parseHeader, CascEncoding.read, IStream.read, IStream.ofBytes, Outcome.bind, Endian.readLittle]

/-- The header part of `parse` on a stream that starts with "EN" and has 22
bytes at least. -/
theorem parseHeader_bytes
    (b2 b3 b4 b5 b6 b7 b8 b9 b10 b11 b12 b13 b14 b15 b16 b17 b18 b19 b20 b21 : Byte)
    (rest : List Byte) :
    parseHeader (IStream.ofBytes (0x45 :: 0x4E :: b2 :: b3 :: b4 :: b5 :: b6 :: b7 :: b8 ::
        b9 :: b10 :: b11 :: b12 :: b13 :: b14 :: b15 :: b16 :: b17 :: b18 :: b19 :: b20 ::
        b21 :: rest))
      = .ok ({ hashSizeA := b3.val, hashSizeB := b4.val,
               tableSizeA := ((b9.val * 256 + b10.val) * 256 + b11.val) * 256 + b12.val,
               tableSizeB := ((b13.val * 256 + b14.val) * 256 + b15.val) * 256 + b16.val,
               stringTableSize :=
                 ((b18.val * 256 + b19.val) * 256 + b20.val) * 256 + b21.val },
             ⟨0x45 :: 0x4E :: b2 :: b3 :: b4 :: b5 :: b6 :: b7 :: b8 ::
                b9 :: b10 :: b11 :: b12 :: b13 :: b14 :: b15 :: b16 :: b17 :: b18 :: b19 ::
                b20 :: b21 :: rest, 22, false⟩) := by
  simp [parseHeader, parseFields, CascEncoding.read, IStream.read, IStream.seekgCur,
    IStream.ofBytes, Outcome.bind, Endian.readLittle, Endian.readBig, byte_val_0x45,
    byte_val_0x4E]

theorem exists_header_bytes (c : List Byte) (h : 22 ≤ c.length) :
    ∃ (b0 b1 b2 b3 b4 b5 b6 b7 b8 b9 b10 b11 b12 b13 b14 b15 b16 b17 b18 b19 b20 b21 : Byte)
      (rest : List Byte),
      c = b0 :: b1 :: b2 :: b3 :: b4 :: b5 :: b6 :: b7 :: b8 :: b9 :: b10 :: b11 :: b12 ::
        b13 :: b14 :: b15 :: b16 :: b17 :: b18 :: b19 :: b20 :: b21 :: rest := by
  rcases c with _ | ⟨b0, c⟩
  · simp at h
  rcases c with _ | ⟨b1, c⟩
  · simp at h
  rcases c with _ | ⟨b2, c⟩
  · simp at h
  rcases c with _ | ⟨b3, c⟩
  · simp at h
  rcases c with _ | ⟨b4, c⟩
  · simp at h
  rcases c with _ | ⟨b5, c⟩
  · simp at h
  rcases c with _ | ⟨b6, c⟩
  · simp at h
  rcases c with _ | ⟨b7, c⟩
  · simp at h
  rcases c with _ | ⟨b8, c⟩
  · simp at h
  rcases c with _ | ⟨b9, c⟩
  · simp at h
  rcases c with _ | ⟨b10, c⟩
  · simp at h
  rcases c with _ | ⟨b11, c⟩
  · simp at h
  rcases c with _ | ⟨b12, c⟩
  · simp at h
  rcases c with _ | ⟨b13, c⟩
  · simp at h
  rcases c with _ | ⟨b14, c⟩
  · simp at h
  rcases c with _ | ⟨b15, c⟩
  · simp at h
  rcases c with _ | ⟨b16, c⟩
  · simp at h
  rcases c with _ | ⟨b17, c⟩
  · simp at h
  rcases c with _ | ⟨b18, c⟩
  · simp at h
  rcases c with _ | ⟨b19, c⟩
  · simp at h
  rcases c with _ | ⟨b20, c⟩
  · simp at h
  rcases c with _ | ⟨b21, c⟩
  · simp at h
  exact ⟨b0, b1, b2, b3, b4, b5, b6, b7, b8, b9, b10, b11, b12, b13, b14, b15, b16, b17, b18,
    b19, b20, b21, c, rfl⟩

theorem parseHeader_append (c : List Byte) (hd : Header) (s0 : IStream)
    (hhdr : parseHeader (IStream.ofBytes c) = .ok (hd, s0)) (hlen : 22 ≤ c.length)
    (t : List Byte) :
    parseHeader (IStream.ofBytes (c ++ t)) = .ok (hd, ⟨c ++ t, 22, false⟩) := by
  obtain ⟨b0, b1, b2, b3, b4, b5, b6, b7, b8, b9, b10, b11, b12, b13, b14, b15, b16, b17, b18,
    b19, b20, b21, rest, rfl⟩ := exists_header_bytes c hlen
  rw [parseHeader_cons_cons] at hhdr
  by_cases hsig : b0.val + 256 * b1.val = 0x4E45
  · obtain ⟨rfl, rfl⟩ := (signature_eq_iff b0 b1).mp hsig
    have e1 := parseHeader_bytes b2 b3 b4 b5 b6 b7 b8 b9 b10 b11 b12 b13 b14 b15 b16 b17 b18
      b19 b20 b21 rest
    have e2 := parseHeader_bytes b2 b3 b4 b5 b6 b7 b8 b9 b10 b11 b12 b13 b14 b15 b16 b17 b18
      b19 b20 b21 (rest ++ t)
    rw [parseHeader_cons_cons] at e1
    rw [e1] at hhdr
    injection hhdr with hhdr
    injection hhdr with h1 h2
    rw [← h1]
    exact e2
  · rw [if_pos hsig] at hhdr
    cases hhdr

theorem IStream.sameAhead_seekgCur {s t : IStream} (h : s.sameAhead t) (k : Nat) :
    (s.seekgCur k).sameAhead (t.seekgCur k) := by
  rcases s with ⟨sb, sp, sf⟩
  rcases t with ⟨tb, tp, tf⟩
  obtain ⟨hp, hf, hd⟩ := h
  simp only at hp hf hd
  subst hp hf
  unfold IStream.seekgCur
  simp only
  split
  · exact ⟨rfl, rfl, hd⟩
  · refine ⟨rfl, rfl, ?_⟩
    simp only
    rw [← List.drop_drop, ← List.drop_drop, hd]

theorem IStream.sameAhead_read {s t : IStream} (h : s.sameAhead t) (n : Nat) :
    (s.read n).1 = (t.read n).1 ∧ (s.read n).2.sameAhead (t.read n).2 := by
  rcases s with ⟨sb, sp, sf⟩
  rcases t with ⟨tb, tp, tf⟩
  obtain ⟨hp, hf, hd⟩ := h
  simp only at hp hf hd
  subst hp hf
  unfold IStream.read
  simp only
  rw [← List.length_drop, ← List.length_drop, ← hd]
  split
  · exact ⟨rfl, rfl, rfl, hd⟩
  · split
    · refine ⟨rfl, rfl, rfl, ?_⟩
      simp only
      rw [← List.drop_drop, ← List.drop_drop, hd]
    · exact ⟨rfl, rfl, rfl, hd⟩

theorem readHeads_sameAhead (n : Nat) : ∀ {s t : IStream}, s.sameAhead t →
    (readHeads s n).1 = (readHeads t n).1 ∧ (readHeads s n).2.sameAhead (readHeads t n).2 := by
  induction n with
  | zero => intro s t h; exact ⟨rfl, h⟩
  | succ k ih =>
    intro s t h
    obtain ⟨h1, h2⟩ := IStream.sameAhead_read h sizeofChunkHead
    unfold readHeads
    rcases hs : s.read sizeofChunkHead with ⟨os, s1⟩
    rcases ht : t.read sizeofChunkHead with ⟨ot, t1⟩
    rw [hs, ht] at h1 h2
    simp only at h1 h2
    subst h1
    cases os with
    | none => exact ⟨rfl, h2⟩
    | some d =>
      obtain ⟨i1, i2⟩ := ih h2
      simp only
      exact ⟨by rw [i1], i2⟩

theorem parseTables_sameAhead (h : Header) {s t : IStream} (hst : s.sameAhead t) :
    (parseTables h s).bind (fun e => .ok e.tables) =
      (parseTables h t).bind (fun e => .ok e.tables) := by
  have h1 := IStream.sameAhead_seekgCur hst h.stringTableSize
  obtain ⟨ha, h2⟩ := readHeads_sameAhead h.tableSizeA h1
  have h3 := IStream.sameAhead_seekgCur h2 ((h.tableSizeA * ChunkBodySize) % 2 ^ 32)
  obtain ⟨hb, h4⟩ := readHeads_sameAhead h.tableSizeB h3
  unfold parseTables checkForErrors
  simp only
  rw [← h4.2.1]
  split
  · rfl
  · simp only [Outcome.bind, CascEncoding.tables]
    rw [ha, hb]

theorem IStream.read_length {s s1 : IStream} {n : Nat} {d : List Byte}
    (h : s.read n = (some d, s1)) : d.length = n := by
  unfold IStream.read at h
  split at h
  · cases h
  · split at h
    · injection h with h1 h2
      injection h1 with h1
      rw [← h1, List.length_take, List.length_drop]
      omega
    · cases h

theorem IStream.seekgCur_bytes (s : IStream) (k : Nat) : (s.seekgCur k).bytes = s.bytes := by
  unfold IStream.seekgCur
  split <;> rfl

theorem readHeads_lengths (n : Nat) : ∀ (s : IStream), ∀ h ∈ (readHeads s n).1,
    h.first.length = 16 ∧ h.hash.length = 16 := by
  induction n with
  | zero => intro s h hh; simp [readHeads] at hh
  | succ k ih =>
    intro s h hh
    rw [readHeads] at hh
    rcases hr : s.read sizeofChunkHead with ⟨o, s1⟩
    rw [hr] at hh
    cases o with
    | none => simp at hh
    | some d =>
      simp only [List.mem_cons] at hh
      have hd := IStream.read_length hr
      simp only [sizeofChunkHead] at hd
      rcases hh with rfl | hh
      · simp [List.length_take, List.length_drop, hd]
      · exact ih s1 h hh

theorem readHeads_bytes (n : Nat) : ∀ (s : IStream), (readHeads s n).2.bytes = s.bytes := by
  induction n with
  | zero => intro s; rfl
  | succ k ih =>
    intro s
    rw [readHeads]
    rcases hr : s.read sizeofChunkHead with ⟨o, s1⟩
    have hb : s1.bytes = s.bytes := by
      unfold IStream.read at hr
      split at hr
      · injection hr with _ h2; rw [← h2]
      · split at hr
        · injection hr with _ h2; rw [← h2]
        · injection hr with _ h2; rw [← h2]
    cases o with
    | none => exact hb
    | some d => simp only; rw [ih s1, hb]

theorem readHeads_within (c : List Byte) (n : Nat) :
    ∀ p, p + 32 * n ≤ c.length →
      ∃ heads : List ChunkHead, heads.length = n ∧
        ∀ t, readHeads ⟨c ++ t, p, false⟩ n = (heads, ⟨c ++ t, p + 32 * n, false⟩) := by
  induction n with
  | zero =>
    intro p _
    exact ⟨[], rfl, fun t => rfl⟩
  | succ k ih =>
    intro p hp
    obtain ⟨heads, hl, hh⟩ := ih (p + 32) (by omega)
    refine ⟨⟨((c.drop p).take 32).take 16, ((c.drop p).take 32).drop 16⟩ :: heads, by simp [hl],
      fun t => ?_⟩
    have hread : IStream.read ⟨c ++ t, p, false⟩ sizeofChunkHead =
        (some ((c.drop p).take 32), ⟨c ++ t, p + 32, false⟩) := by
      unfold IStream.read
      simp only [sizeofChunkHead, Bool.false_eq_true, if_false]
      rw [if_pos (by rw [List.length_append]; omega),
        List.drop_append_of_le_length (by omega),
        List.take_append_of_le_length (by rw [List.length_drop]; omega)]
    rw [readHeads, hread]
    simp only
    rw [hh t]
    simp only
    congr 2
    omega

/-- What `parse` stores when it returns, in terms of the header it read. -/
theorem parseTables_ok {h : Header} {s : IStream} {enc : CascEncoding}
    (hp : parseTables h s = .ok enc) :
    enc.hashSizeA = h.hashSizeA ∧ enc.chunksOffsetA = offsetA h ∧
      enc.chunkHeadsA = (readHeads (s.seekgCur h.stringTableSize) h.tableSizeA).1.reverse ∧
      enc.stream.fail = false ∧ enc.stream.bytes = s.bytes := by
  unfold parseTables checkForErrors at hp
  simp only at hp
  split at hp
  · cases hp
  · next hf =>
    injection hp with hp
    rw [← hp]
    refine ⟨rfl, rfl, rfl, by simpa using hf, ?_⟩
    simp only
    rw [readHeads_bytes, IStream.seekgCur_bytes, readHeads_bytes, IStream.seekgCur_bytes]

theorem parse_heads_lengths {s : IStream} {enc : CascEncoding} (hp : parse s = .ok enc) :
    ∀ h ∈ enc.chunkHeadsA, h.first.length = 16 ∧ h.hash.length = 16 := by
  obtain ⟨r, -, ht⟩ := Outcome.bind_eq_ok hp
  unfold parseTables checkForErrors at ht
  simp only at ht
  split at ht
  · cases ht
  · injection ht with ht
    intro h hh
    rw [← ht] at hh
    simp only [List.mem_reverse] at hh
    exact readHeads_lengths _ _ h hh

/-- Where the stored offsets are the offsets of the layout: when
`22 + string_table_size` fits 32 bits, `chunksOffsetA` is exact. -/
theorem offsetA_exact (h : Header) (hs : HeaderSize + h.stringTableSize < 2 ^ 32)
    (ha : h.tableSizeA < 2 ^ 32) :
    offsetA h = 22 + h.stringTableSize + 32 * h.tableSizeA := by
  simp only [offsetA, HeaderSize, sizeofChunkHead] at hs ⊢
  omega

/-- When moreover `4096 * table_size_a` fits 32 bits, `chunksOffsetB` is exact. -/
theorem offsetB_exact (h : Header) (hs : HeaderSize + h.stringTableSize < 2 ^ 32)
    (ha : h.tableSizeA < 2 ^ 20) (hb : h.tableSizeB < 2 ^ 32) :
    offsetB h = 22 + h.stringTableSize + 32 * h.tableSizeA + 4096 * h.tableSizeA
      + 32 * h.tableSizeB := by
  simp only [offsetB, HeaderSize, sizeofChunkHead, ChunkBodySize] at hs ⊢
  have o1 : (22 + h.stringTableSize) % 2 ^ 32 = 22 + h.stringTableSize :=
    Nat.mod_eq_of_lt hs
  have o2 : h.tableSizeA * 4096 % 2 ^ 32 = h.tableSizeA * 4096 :=
    Nat.mod_eq_of_lt (by omega)
  rw [o1, o2, Nat.mod_eq_of_lt (by omega)]
  omega

/-! ## Parsing a well-formed file -/

theorem writeBig_length (size n : Nat) : (Endian.writeBig size n).length = size := by
  induction size generalizing n with
  | zero => rfl
  | succ k ih => simp [Endian.writeBig, ih]

theorem writeLittle_length (size n : Nat) : (Endian.writeLittle size n).length = size := by
  induction size generalizing n with
  | zero => rfl
  | succ k ih => simp [Endian.writeLittle, ih]

theorem EncodingFile.header_length (f : EncodingFile) : f.header.length = 22 := by
  simp [EncodingFile.header, writeBig_length]

theorem flatten_length_uniform (n : Nat) (l : List (List Byte))
    (h : ∀ b ∈ l, b.length = n) : l.flatten.length = n * l.length := by
  induction l with
  | nil => simp
  | cons a t ih =>
    rw [List.flatten_cons, List.length_append, h a (List.mem_cons_self _ _),
      ih (fun b hb => h b (List.mem_cons_of_mem _ hb)), List.length_cons]
    ring

theorem flatMap_encodeHead_length (l : List ChunkHead)
    (h : ∀ x ∈ l, x.first.length = 16 ∧ x.hash.length = 16) :
    (l.flatMap encodeHead).length = 32 * l.length := by
  induction l with
  | nil => simp
  | cons a t ih =>
    rw [List.flatMap_cons, List.length_append,
      ih (fun b hb => h b (List.mem_cons_of_mem _ hb)), List.length_cons]
    have := h a (List.mem_cons_self _ _)
    simp only [encodeHead, List.length_append, this.1, this.2]
    omega

theorem drop_append_of_length {l₁ l₂ : List Byte} {n : Nat} (h : l₁.length = n) :
    (l₁ ++ l₂).drop n = l₂ := by
  rw [← h, List.drop_left]

theorem drop_add_append {l₁ l₂ : List Byte} {n k : Nat} (h : l₁.length = n) :
    (l₁ ++ l₂).drop (n + k) = l₂.drop k := by
  rw [← h, List.drop_append]

theorem parseHeader_file (f : EncodingFile) (hw : f.WellFormed) (rest : List Byte) :
    parseHeader (IStream.ofBytes (f.header ++ rest)) =
      .ok ({ hashSizeA := f.hashSizeA, hashSizeB := f.hashSizeB,
             tableSizeA := f.headsA.length, tableSizeB := f.headsB.length,
             stringTableSize := f.strings.length }, ⟨f.header ++ rest, 22, false⟩) := by
  obtain ⟨ha, hb, hs, hna, hnb, -⟩ := hw
  simp only [HeaderSize] at hs
  simp [EncodingFile.header, Endian.writeBig, parseHeader, parseFields, CascEncoding.read,
    IStream.read, IStream.seekgCur, IStream.ofBytes, Outcome.bind, Endian.readLittle,
    Endian.readBig, byte_val_0x45, byte_val_0x4E]
  refine ⟨?_, ?_, ?_, ?_, ?_⟩ <;> omega

theorem readHeads_encoded (heads : List ChunkHead) :
    ∀ (s : IStream) (rest : List Byte), s.fail = false →
      (∀ h ∈ heads, h.first.length = 16 ∧ h.hash.length = 16) →
      s.bytes.drop s.pos = heads.flatMap encodeHead ++ rest →
      readHeads s heads.length =
        (heads, ⟨s.bytes, s.pos + sizeofChunkHead * heads.length, false⟩) := by
  induction heads with
  | nil =>
    intro s rest hf _ _
    rcases s with ⟨b, p, fl⟩
    simp only at hf
    subst hf
    rfl
  | cons h t ih =>
    intro s rest hf hlen hd
    rcases s with ⟨b, p, fl⟩
    simp only at hf hd
    subst hf
    obtain ⟨h1, h2⟩ := hlen h (List.mem_cons_self _ _)
    have hd2 : List.drop p b = (h.first ++ h.hash) ++ (t.flatMap encodeHead ++ rest) := by
      rw [hd]; simp [encodeHead]
    have hlen32 : (h.first ++ h.hash).length = 32 := by simp [h1, h2]
    have hread : (IStream.read ⟨b, p, false⟩ sizeofChunkHead) =
        (some (h.first ++ h.hash), ⟨b, p + 32, false⟩) := by
      unfold IStream.read
      simp only [sizeofChunkHead]
      rw [← List.length_drop, hd2]
      have : (32 : Nat) ≤ (h.first ++ h.hash ++ (t.flatMap encodeHead ++ rest)).length := by
        rw [List.length_append, hlen32]; omega
      rw [if_pos this]
      rw [← hlen32, List.take_left]
      simp
    have hnext := ih ⟨b, p + 32, false⟩ rest rfl
      (fun x hx => hlen x (List.mem_cons_of_mem _ hx))
      (by
        simp only
        rw [← List.drop_drop, hd2, ← hlen32, List.drop_left])
    rw [List.length_cons, readHeads, hread]
    simp only
    rw [hnext]
    simp only [sizeofChunkHead]
    have e1 : List.take 16 (h.first ++ h.hash) = h.first := by
      rw [← h1, List.take_left]
    have e2 : List.drop 16 (h.first ++ h.hash) = h.hash := by
      rw [← h1, List.drop_left]
    rw [e1, e2]
    congr 2
    omega

theorem parse_file (f : EncodingFile) (hw : f.WellFormed) :
    parse (IStream.ofBytes f.bytes) = .ok f.parsed := by
  have hw' := hw
  obtain ⟨ha, hb, hs, hna, hnb, hba, hbb, hha, hhb, hla, hlb⟩ := hw'
  simp only [HeaderSize, ChunkBodySize] at hs hla hlb
  have hA := flatMap_encodeHead_length f.headsA hha
  have hBody := flatten_length_uniform 4096 f.bodiesA hla
  rw [hba] at hBody
  have hph : parseHeader (IStream.ofBytes f.bytes) =
      .ok ({ hashSizeA := f.hashSizeA, hashSizeB := f.hashSizeB,
             tableSizeA := f.headsA.length, tableSizeB := f.headsB.length,
             stringTableSize := f.strings.length }, ⟨f.bytes, 22, false⟩) :=
    parseHeader_file f hw _
  have d1 : List.drop (22 + f.strings.length) f.bytes =
      f.headsA.flatMap encodeHead ++ (f.bodiesA.flatten
        ++ (f.headsB.flatMap encodeHead ++ f.bodiesB.flatten)) := by
    rw [EncodingFile.bytes, drop_add_append f.header_length, List.drop_left]
  have r1 := readHeads_encoded f.headsA ⟨f.bytes, 22 + f.strings.length, false⟩ _ rfl hha d1
  have d2 : List.drop (22 + f.strings.length + 32 * f.headsA.length + 4096 * f.headsA.length)
      f.bytes = f.headsB.flatMap encodeHead ++ f.bodiesB.flatten := by
    have e : 22 + f.strings.length + 32 * f.headsA.length + 4096 * f.headsA.length =
        (22 + f.strings.length) + (32 * f.headsA.length + 4096 * f.headsA.length) := by omega
    rw [e, (List.drop_drop _ (22 + f.strings.length) f.bytes).symm, d1, drop_add_append hA,
      drop_append_of_length hBody]
  have r2 := readHeads_encoded f.headsB
    ⟨f.bytes, 22 + f.strings.length + 32 * f.headsA.length + 4096 * f.headsA.length, false⟩
    _ rfl hhb d2
  have hmod : f.headsA.length * 4096 % 2 ^ 32 = 4096 * f.headsA.length := by omega
  simp only [sizeofChunkHead] at r1 r2
  rw [parse, hph, Outcome.bind_ok]
  simp only [parseTables, IStream.seekgCur, Bool.false_eq_true, if_false, r1,
    ChunkBodySize, hmod, r2, checkForErrors]
  simp only [EncodingFile.parsed, offsetA, offsetB, HeaderSize, sizeofChunkHead, ChunkBodySize]
  have o1 : (22 + f.strings.length) % 2 ^ 32 = 22 + f.strings.length := by omega
  have o2 : (22 + f.strings.length + f.headsA.length * 32) % 2 ^ 64 =
      22 + f.strings.length + 32 * f.headsA.length := by omega
  have o3 : (22 + f.strings.length + f.headsA.length * 32 + f.headsA.length * 4096 % 2 ^ 32
      + f.headsB.length * 32) % 2 ^ 64 = 22 + f.strings.length + 32 * f.headsA.length
        + 4096 * f.headsA.length + 32 * f.headsB.length := by omega
  rw [o1, o2, o3]

theorem EncodingFile.common_append_tableB (f : EncodingFile) :
    f.common ++ f.tableB = f.bytes := by
  simp only [EncodingFile.common, EncodingFile.tableB, EncodingFile.bytes, List.append_assoc]

theorem EncodingFile.common_length (f : EncodingFile) (hw : f.WellFormed) :
    f.common.length = HeaderSize + f.strings.length + sizeofChunkHead * f.headsA.length
      + ChunkBodySize * f.headsA.length := by
  obtain ⟨-, -, -, -, -, hba, -, hha, -, hla, -⟩ := hw
  simp only [EncodingFile.common, List.length_append, f.header_length,
    flatMap_encodeHead_length f.headsA hha, flatten_length_uniform _ f.bodiesA hla, hba,
    HeaderSize, sizeofChunkHead]
  omega

theorem EncodingFile.parseHeader_common (f : EncodingFile) (hw : f.WellFormed) :
    parseHeader (IStream.ofBytes f.common) =
      .ok ({ hashSizeA := f.hashSizeA, hashSizeB := f.hashSizeB,
             tableSizeA := f.headsA.length, tableSizeB := f.headsB.length,
             stringTableSize := f.strings.length }, ⟨f.common, 22, false⟩) :=
  parseHeader_file f hw _

/-! ## The entry loop of `searchTable` -/

theorem slice_at {data a x b : List Byte} {i n : Nat} (hd : data = a ++ (x ++ b))
    (hi : a.length = i) (hn : x.length = n) : slice data i n = some x := by
  subst hd hi hn
  unfold slice
  rw [if_pos (by simp), List.drop_left, List.take_left]

theorem slice_length {data d : List Byte} {i n : Nat} (h : slice data i n = some d) :
    d.length = n := by
  unfold slice at h
  split at h
  · injection h with h
    rw [← h, List.length_take, List.length_drop]
    omega
  · cases h

theorem slice_bound {data d : List Byte} {i n : Nat} (h : slice data i n = some d) :
    i + n ≤ data.length := by
  unfold slice at h
  split at h
  · assumption
  · cases h

theorem slice_append_left (c t : List Byte) (p n : Nat) (h : p + n ≤ c.length) :
    slice (c ++ t) p n = slice c p n := by
  unfold slice
  rw [if_pos h, if_pos (by rw [List.length_append]; omega),
    List.drop_append_of_le_length (by omega),
    List.take_append_of_le_length (by rw [List.length_drop]; omega)]

/-- In a well-formed file the body of chunk number `before.length` of table A
lies at `chunksOffsetA + 4096 * before.length`. -/
theorem slice_body (f : EncodingFile) (hw : f.WellFormed) (before after : List (List Byte))
    (body : List Byte) (hb : f.bodiesA = before ++ body :: after) :
    slice f.bytes (HeaderSize + f.strings.length + sizeofChunkHead * f.headsA.length
      + ChunkBodySize * before.length) 4096 = some body := by
  obtain ⟨-, -, -, -, -, -, -, hha, -, hla, -⟩ := hw
  have hA := flatMap_encodeHead_length f.headsA hha
  have hpre : before.flatten.length = ChunkBodySize * before.length :=
    flatten_length_uniform _ before (fun b hx => hla b (by rw [hb]; simp [hx]))
  have hbody : body.length = 4096 := hla body (by rw [hb]; simp)
  refine slice_at (a := f.header ++ f.strings ++ f.headsA.flatMap encodeHead ++ before.flatten)
    (b := after.flatten ++ (f.headsB.flatMap encodeHead ++ f.bodiesB.flatten)) ?_ ?_ hbody
  · rw [EncodingFile.bytes, hb]
    simp only [List.flatten_append, List.flatten_cons, List.append_assoc]
  · simp only [List.length_append, f.header_length, hA, hpre, HeaderSize, sizeofChunkHead]

theorem readLittle_writeLittle_two (n : Nat) (h : n < 65536) :
    Endian.readLittle (Endian.writeLittle 2 n) = n := by
  simp [Endian.readLittle, Endian.writeLittle]
  omega

theorem readKeys_encoded (hs : Nat) (isTarget : Bool) (keys : List Hex) :
    ∀ (data a b : List Byte) (it : Nat) (acc : List Hex),
      (∀ k ∈ keys, k.length = hs) → data = a ++ (keys.flatten ++ b) → a.length = it →
      readKeys data hs isTarget keys.length it acc =
        some (it + hs * keys.length, if isTarget then acc ++ keys else acc) := by
  induction keys with
  | nil =>
    intro data a b it acc _ _ _
    cases isTarget <;> simp [readKeys]
  | cons k ks ih =>
    intro data a b it acc hk hd hi
    have hklen := hk k (List.mem_cons_self _ _)
    have hs1 : slice data it hs = some k :=
      slice_at (by rw [hd, List.flatten_cons, List.append_assoc]) hi hklen
    rw [List.length_cons, readKeys, hs1]
    simp only
    rw [ih data (a ++ k) b (it + hs) _ (fun x hx => hk x (List.mem_cons_of_mem _ hx))
      (by rw [hd, List.flatten_cons, List.append_assoc, List.append_assoc])
      (by rw [List.length_append, hi, hklen])]
    cases isTarget
    · simp only [Bool.false_eq_true, if_false]
      congr 2
      ring
    · simp only [if_true, List.append_assoc, List.singleton_append]
      congr 2
      ring

theorem readKeys_cursor (data : List Byte) (hs : Nat) (isTarget : Bool) (keyCount : Nat) :
    ∀ (it : Nat) (keys : List Hex) (r : Nat × List Hex),
      readKeys data hs isTarget keyCount it keys = some r → r.1 = it + hs * keyCount := by
  induction keyCount with
  | zero =>
    intro it keys r h
    rw [readKeys] at h
    injection h with h
    rw [← h]
    rfl
  | succ k ih =>
    intro it keys r h
    rw [readKeys] at h
    cases hsl : slice data it hs with
    | none => rw [hsl] at h; cases h
    | some key =>
      rw [hsl] at h
      simp only at h
      rw [ih _ _ r h]
      ring

theorem encodeEntry_length (hs : Nat) (e : EncodingEntry) (hw : e.WellFormed hs) :
    (encodeEntry e).length = 2 + 4 + hs + hs * e.keys.length := by
  obtain ⟨h1, h2, -, -⟩ := hw
  simp only [encodeEntry, List.length_append, writeLittle_length, writeBig_length, h1,
    flatten_length_uniform hs e.keys h2]

theorem flatMap_encodeEntry_length (entries : List EncodingEntry) :
    2 * entries.length ≤ (entries.flatMap encodeEntry).length := by
  induction entries with
  | nil => simp
  | cons e es ih =>
    rw [List.flatMap_cons, List.length_append, List.length_cons]
    have : 2 ≤ (encodeEntry e).length := by
      simp only [encodeEntry, List.length_append, writeLittle_length]
      omega
    omega

theorem scanEntries_encoded (hs : Nat) (target : Hex) (entries : List EncodingEntry) :
    ∀ (data a fill : List Byte) (it fuel : Nat),
      (∀ e ∈ entries, e.WellFormed hs) → entries.length < fuel →
      data = a ++ encodeBody entries fill → a.length = it →
      scanEntries data hs target fuel it [] = .ok (lookupKeys target entries) := by
  induction entries with
  | nil =>
    intro data a fill it fuel _ hfuel hd hi
    obtain ⟨fuel', rfl⟩ : ∃ k, fuel = k + 1 := ⟨fuel - 1, by simp at hfuel; omega⟩
    have hlt : it < data.length := by
      rw [hd, ← hi]; simp [encodeBody]
    have hs1 : slice data it 2 = some [0, 0] :=
      slice_at (x := [0, 0]) (b := fill) (by rw [hd]; simp [encodeBody]) hi rfl
    rw [scanEntries, if_pos ⟨rfl, hlt⟩, hs1]
    simp [Endian.readLittle, lookupKeys]
  | cons e es ih =>
    intro data a fill it fuel hw hfuel hd hi
    obtain ⟨fuel', rfl⟩ : ∃ k, fuel = k + 1 := ⟨fuel - 1, by simp at hfuel; omega⟩
    have hwe := hw e (List.mem_cons_self _ _)
    obtain ⟨h1, h2, h3, h4⟩ := hwe
    have hdata : data = a ++ (Endian.writeLittle 2 e.keys.length ++
        (Endian.writeBig 4 e.fileSize ++ (e.contentHash ++ (e.keys.flatten ++
          encodeBody es fill)))) := by
      rw [hd]; simp [encodeBody, encodeEntry, List.append_assoc]
    have hlt : it < data.length := by
      rw [hdata, ← hi]; simp [writeLittle_length]
    have hs1 : slice data it 2 = some (Endian.writeLittle 2 e.keys.length) :=
      slice_at hdata hi (writeLittle_length _ _)
    have hs2 : slice data (it + 2) 4 = some (Endian.writeBig 4 e.fileSize) :=
      slice_at (a := a ++ Endian.writeLittle 2 e.keys.length)
        (by rw [hdata]; simp only [List.append_assoc]; rfl)
        (by rw [List.length_append, hi, writeLittle_length]) (writeBig_length _ _)
    have hs3 : slice data (it + 2 + 4) hs = some e.contentHash :=
      slice_at (a := a ++ Endian.writeLittle 2 e.keys.length ++ Endian.writeBig 4 e.fileSize)
        (by rw [hdata]; simp only [List.append_assoc]; rfl)
        (by simp only [List.length_append, hi, writeLittle_length, writeBig_length]) h1
    have hrk := readKeys_encoded hs (decide (target = e.contentHash)) e.keys data
      (a ++ Endian.writeLittle 2 e.keys.length ++ Endian.writeBig 4 e.fileSize
        ++ e.contentHash) (encodeBody es fill) (it + 2 + 4 + hs) [] h2
      (by rw [hdata]; simp only [List.append_assoc])
      (by simp only [List.length_append, hi, writeLittle_length, writeBig_length, h1])
    have hkc : Endian.readLittle (Endian.writeLittle 2 e.keys.length) ≠ 0 := by
      rw [readLittle_writeLittle_two _ h4]; omega
    rw [scanEntries, if_pos ⟨rfl, hlt⟩, hs1]
    simp only
    rw [if_neg hkc, hs2]
    simp only
    rw [hs3]
    simp only
    rw [readLittle_writeLittle_two _ h4, hrk]
    simp only [List.nil_append]
    by_cases ht : e.contentHash = target
    · have hne : e.keys ≠ [] := by
        intro h0; rw [h0] at h3; simp at h3
      have hfuel' : ∃ k, fuel' = k + 1 := ⟨fuel' - 1, by simp at hfuel; omega⟩
      obtain ⟨k, rfl⟩ := hfuel'
      rw [lookupKeys, if_pos ht, decide_eq_true ht.symm, if_pos rfl, scanEntries]
      have : ¬ (e.keys.isEmpty = true ∧ it + 2 + 4 + hs + hs * e.keys.length < data.length) := by
        intro h; exact hne (List.isEmpty_iff.mp h.1)
      rw [if_neg this]
    · have ht' : ¬ target = e.contentHash := fun h => ht h.symm
      rw [lookupKeys, if_neg ht, decide_eq_false ht', if_neg (by simp)]
      exact ih data (a ++ encodeEntry e) fill _ fuel'
        (fun x hx => hw x (List.mem_cons_of_mem _ hx))
        (by simp at hfuel; omega)
        (by rw [hd]; simp [encodeBody, List.append_assoc])
        (by rw [List.length_append, hi, encodeEntry_length hs e ⟨h1, h2, h3, h4⟩]; omega)

theorem scanEntries_body (hs : Nat) (target : Hex) (entries : List EncodingEntry)
    (fill : List Byte) (hw : ∀ e ∈ entries, e.WellFormed hs) :
    scanEntries (encodeBody entries fill) hs target (encodeBody entries fill).length 0 [] =
      .ok (lookupKeys target entries) := by
  refine scanEntries_encoded hs target entries _ [] fill 0 _ hw ?_ rfl rfl
  have := flatMap_encodeEntry_length entries
  simp only [encodeBody, List.length_append, List.length_cons]
  omega

/-- The fuel of the entry loop is never used up: every iteration that goes on
moves the cursor forward by six bytes at least, so any two amounts of fuel above
half the distance to the end of the buffer give the same result. -/
theorem scanEntries_fuel (data : List Byte) (hs : Nat) (target : Hex) (fuel : Nat) :
    ∀ (fuel' it : Nat) (keys : List Hex),
      data.length - it < 2 * fuel → data.length - it < 2 * fuel' →
      scanEntries data hs target fuel it keys = scanEntries data hs target fuel' it keys := by
  induction fuel with
  | zero => intro fuel' it keys h _; omega
  | succ f ih =>
    intro fuel' it keys h h'
    obtain ⟨f', rfl⟩ : ∃ k, fuel' = k + 1 := ⟨fuel' - 1, by omega⟩
    rw [scanEntries, scanEntries]
    by_cases hc : keys.isEmpty = true ∧ it < data.length
    · rw [if_pos hc, if_pos hc]
      cases slice data it 2 with
      | none => rfl
      | some kc =>
        simp only
        by_cases hk : Endian.readLittle kc = 0
        · rw [if_pos hk, if_pos hk]
        · rw [if_neg hk, if_neg hk]
          cases hfs : slice data (it + 2) 4 with
          | none => rfl
          | some fs =>
            simp only
            cases slice data (it + 2 + 4) hs with
            | none => rfl
            | some current =>
              simp only
              cases hr : readKeys data hs (decide (target = current)) (Endian.readLittle kc)
                  (it + 2 + 4 + hs) keys with
              | none => rfl
              | some r =>
                simp only
                have hcur := readKeys_cursor _ _ _ _ _ _ r hr
                have := hc.2
                have := slice_bound hfs
                exact ih f' r.1 r.2 (by rw [hcur]; omega) (by rw [hcur]; omega)
    · rw [if_neg hc, if_neg hc]

/-! ## The chunk loop of `searchTable`, and `find` -/

theorem Hex.lt_irrefl (a : Hex) : Hex.lt a a = false := by
  induction a with
  | nil => rfl
  | cons x xs ih => simp [Hex.lt, ih]

theorem Hex.gt_irrefl (a : Hex) : Hex.gt a a = false := Hex.lt_irrefl a

theorem Hex.lt_zero (n : Nat) : ∀ (a : Hex), a.length = n → Hex.lt a (List.replicate n 0) = false := by
  induction n with
  | zero =>
    intro a ha
    rw [List.length_eq_zero.mp ha]
    rfl
  | succ k ih =>
    intro a ha
    rcases a with _ | ⟨x, xs⟩
    · simp at ha
    · simp only [List.length_cons, Nat.add_right_cancel_iff] at ha
      rw [List.replicate_succ, Hex.lt, if_neg (by simp [Fin.lt_def]), ih xs ha]
      simp

/-- The seek and read of one chunk body on a stream that has not failed. -/
theorem read_chunk (s : IStream) (hf : s.fail = false) (p : Nat) :
    (s.seekgBeg p).read 4096 =
      match slice s.bytes p 4096 with
      | some d => (some d, ⟨s.bytes, p + 4096, false⟩)
      | none => (none, ⟨s.bytes, p, true⟩) := by
  rcases s with ⟨b, q, fl⟩
  simp only at hf
  subst hf
  unfold IStream.seekgBeg IStream.read slice
  simp only [Bool.false_eq_true, if_false]
  by_cases h : 4096 ≤ b.length - p
  · rw [if_pos h, if_pos (by omega)]
  · rw [if_neg h, if_neg (by omega)]

theorem searchLoop_keys (md5 : List Byte → Hex) (target : Hex) (size offset hs : Nat)
    (heads : List ChunkHead) (i : Nat) (s : IStream) (keys : List Hex) (hk : keys ≠ []) :
    searchLoop md5 target size offset hs heads i s keys = ⟨[], .ok keys⟩ := by
  cases heads with
  | nil => rfl
  | cons h t =>
    have : keys.isEmpty = false := by
      cases keys with
      | nil => exact absurd rfl hk
      | cons _ _ => rfl
    rw [searchLoop, this]
    simp

theorem searchLoop_skip (md5 : List Byte → Hex) (target : Hex) (size offset hs : Nat)
    (skipped : List ChunkHead) :
    ∀ (rest : List ChunkHead) (i : Nat) (s : IStream),
      (∀ x ∈ skipped, Hex.gt target x.first = false) →
      searchLoop md5 target size offset hs (skipped ++ rest) i s [] =
        searchLoop md5 target size offset hs rest (i + skipped.length) s [] := by
  induction skipped with
  | nil => intro rest i s _; rfl
  | cons h t ih =>
    intro rest i s hsk
    rw [List.cons_append, searchLoop, if_pos List.isEmpty_nil, hsk h (List.mem_cons_self _ _)]
    simp only [Bool.false_eq_true, if_false]
    rw [ih rest (i + 1) s (fun x hx => hsk x (List.mem_cons_of_mem _ hx)), List.length_cons]
    congr 1
    omega

/-- One iteration of the chunk loop on a head that the target exceeds. -/
theorem searchLoop_step (md5 : List Byte → Hex) (target : Hex) (size offset hs : Nat)
    (head : ChunkHead) (rest : List ChunkHead) (i : Nat) (s : IStream) (hf : s.fail = false)
    (hgt : Hex.gt target head.first = true) :
    searchLoop md5 target size offset hs (head :: rest) i s [] =
      match slice s.bytes ((offset + ChunkBodySize * (size - 1 - i)) % 2 ^ 64) 4096 with
      | none => ⟨[(offset + ChunkBodySize * (size - 1 - i)) % 2 ^ 64], .undefined⟩
      | some data =>
        if md5 data ≠ head.hash then
          ⟨[(offset + ChunkBodySize * (size - 1 - i)) % 2 ^ 64],
            .throws (.InvalidHashException head.hash (md5 data))⟩
        else
          match scanEntries data hs target data.length 0 [] with
          | .ok keys1 =>
            ⟨(offset + ChunkBodySize * (size - 1 - i)) % 2 ^ 64 ::
                (searchLoop md5 target size offset hs rest (i + 1)
                  ⟨s.bytes, (offset + ChunkBodySize * (size - 1 - i)) % 2 ^ 64 + 4096, false⟩
                  keys1).reads,
              (searchLoop md5 target size offset hs rest (i + 1)
                  ⟨s.bytes, (offset + ChunkBodySize * (size - 1 - i)) % 2 ^ 64 + 4096, false⟩
                  keys1).outcome⟩
          | .throws e => ⟨[(offset + ChunkBodySize * (size - 1 - i)) % 2 ^ 64], .throws e⟩
          | .undefined => ⟨[(offset + ChunkBodySize * (size - 1 - i)) % 2 ^ 64], .undefined⟩ := by
  rw [searchLoop, if_pos List.isEmpty_nil, if_pos hgt, read_chunk s hf]
  cases slice s.bytes ((offset + ChunkBodySize * (size - 1 - i)) % 2 ^ 64) 4096 with
  | none => rfl
  | some data => rfl

theorem searchLoop_step_reads (md5 : List Byte → Hex) (target : Hex) (size offset hs : Nat)
    (head : ChunkHead) (rest : List ChunkHead) (i : Nat) (s : IStream) (hf : s.fail = false)
    (hgt : Hex.gt target head.first = true) :
    (searchLoop md5 target size offset hs (head :: rest) i s []).reads.head? =
      some ((offset + ChunkBodySize * (size - 1 - i)) % 2 ^ 64) := by
  rw [searchLoop_step md5 target size offset hs head rest i s hf hgt]
  cases slice s.bytes ((offset + ChunkBodySize * (size - 1 - i)) % 2 ^ 64) 4096 with
  | none => rfl
  | some data =>
    simp only
    split
    · rfl
    · split <;> rfl

theorem searchLoop_all_skipped (md5 : List Byte → Hex) (target : Hex) (size offset hs : Nat)
    (heads : List ChunkHead) (i : Nat) (s : IStream)
    (hsk : ∀ x ∈ heads, Hex.gt target x.first = false) :
    searchLoop md5 target size offset hs heads i s [] = ⟨[], .ok []⟩ := by
  have := searchLoop_skip md5 target size offset hs heads [] i s hsk
  rw [List.append_nil] at this
  rw [this]
  rfl

theorem searchLoop_congr (md5 : List Byte → Hex) (target : Hex) (size offset hs : Nat)
    (heads : List ChunkHead) :
    ∀ (i : Nat) (s t : IStream) (keys : List Hex), s.fail = false → t.fail = false →
      (∀ k, i ≤ k → k < i + heads.length →
        slice s.bytes ((offset + ChunkBodySize * (size - 1 - k)) % 2 ^ 64) 4096 =
          slice t.bytes ((offset + ChunkBodySize * (size - 1 - k)) % 2 ^ 64) 4096) →
      searchLoop md5 target size offset hs heads i s keys =
        searchLoop md5 target size offset hs heads i t keys := by
  induction heads with
  | nil => intro i s t keys _ _ _; rfl
  | cons head rest ih =>
    intro i s t keys hs1 ht1 hsl
    cases keys with
    | cons x xs =>
      rw [searchLoop_keys md5 target size offset hs _ i s (x :: xs) (by simp),
        searchLoop_keys md5 target size offset hs _ i t (x :: xs) (by simp)]
    | nil =>
      have hrest : ∀ (s' t' : IStream) (keys1 : List Hex), s'.bytes = s.bytes →
          t'.bytes = t.bytes → s'.fail = false → t'.fail = false →
          searchLoop md5 target size offset hs rest (i + 1) s' keys1 =
            searchLoop md5 target size offset hs rest (i + 1) t' keys1 := by
        intro s' t' keys1 hsb htb hsf htf
        refine ih (i + 1) s' t' keys1 hsf htf fun k hk1 hk2 => ?_
        rw [hsb, htb]
        exact hsl k (by omega) (by rw [List.length_cons]; omega)
      cases hgt : Hex.gt target head.first with
      | false =>
        rw [searchLoop, searchLoop, if_pos List.isEmpty_nil, if_pos List.isEmpty_nil, hgt]
        simp only [Bool.false_eq_true, if_false]
        exact hrest s t [] rfl rfl hs1 ht1
      | true =>
        rw [searchLoop_step md5 target size offset hs head rest i s hs1 hgt,
          searchLoop_step md5 target size offset hs head rest i t ht1 hgt,
          hsl i (Nat.le_refl _) (by rw [List.length_cons]; omega)]
        cases slice t.bytes ((offset + ChunkBodySize * (size - 1 - i)) % 2 ^ 64) 4096 with
        | none => rfl
        | some data =>
          simp only
          by_cases hm : md5 data ≠ head.hash
          · rw [if_pos hm, if_pos hm]
          · rw [if_neg hm, if_neg hm]
            cases scanEntries data hs target data.length 0 [] with
            | ok keys1 =>
              simp only
              rw [hrest
                ⟨s.bytes, (offset + ChunkBodySize * (size - 1 - i)) % 2 ^ 64 + 4096, false⟩
                ⟨t.bytes, (offset + ChunkBodySize * (size - 1 - i)) % 2 ^ 64 + 4096, false⟩
                keys1 rfl rfl rfl rfl]
            | throws e => rfl
            | undefined => rfl

theorem find_reads (md5 : List Byte → Hex) (enc : CascEncoding) (target : Hex) :
    (find md5 enc target).reads =
      (searchLoop md5 target enc.chunkHeadsA.length enc.chunksOffsetA enc.hashSizeA
        enc.chunkHeadsA 0 enc.stream []).reads := by
  unfold find searchTable
  split
  · next reads keys heq =>
    rw [heq]
    split <;> rfl
  · rfl

theorem find_of_search (md5 : List Byte → Hex) (enc : CascEncoding) (target : Hex)
    (reads : List Nat) (keys : List Hex)
    (h : searchLoop md5 target enc.chunkHeadsA.length enc.chunksOffsetA enc.hashSizeA
        enc.chunkHeadsA 0 enc.stream [] = ⟨reads, .ok keys⟩) :
    find md5 enc target =
      if keys.isEmpty then ⟨reads, .throws (.FileNotFoundException target)⟩
      else ⟨reads, .ok keys⟩ := by
  unfold find searchTable
  rw [h]

theorem find_all_skipped (md5 : List Byte → Hex) (enc : CascEncoding) (target : Hex)
    (hsk : ∀ x ∈ enc.chunkHeadsA, Hex.gt target x.first = false) :
    find md5 enc target = ⟨[], .throws (.FileNotFoundException target)⟩ := by
  rw [find_of_search md5 enc target [] []
    (searchLoop_all_skipped md5 target _ _ _ _ 0 _ hsk)]
  rfl

/-- The digest check on the chunk that the loop selects: when the chunk loop
passes over the heads `skipped`, the target exceeds the first key of `head`, and
the body read for `head` does not have the digest that `head` records, `find`
throws `InvalidHashException`. -/
theorem find_corrupt_selected_chunk (md5 : List Byte → Hex) (enc : CascEncoding)
    (target : Hex) (skipped rest : List ChunkHead) (head : ChunkHead) (body : List Byte)
    (hheads : enc.chunkHeadsA = skipped ++ head :: rest)
    (hskip : ∀ x ∈ skipped, Hex.gt target x.first = false)
    (hsel : Hex.gt target head.first = true)
    (hfail : enc.stream.fail = false)
    (hslice : slice enc.stream.bytes ((enc.chunksOffsetA + ChunkBodySize *
        (enc.chunkHeadsA.length - 1 - skipped.length)) % 2 ^ 64) 4096 = some body)
    (hbad : md5 body ≠ head.hash) :
    (find md5 enc target).outcome = .throws (.InvalidHashException head.hash (md5 body)) := by
  have hsearch : searchLoop md5 target enc.chunkHeadsA.length enc.chunksOffsetA enc.hashSizeA
      enc.chunkHeadsA 0 enc.stream [] =
        ⟨[(enc.chunksOffsetA + ChunkBodySize *
          (enc.chunkHeadsA.length - 1 - skipped.length)) % 2 ^ 64],
          .throws (.InvalidHashException head.hash (md5 body))⟩ := by
    conv => lhs; arg 6; rw [hheads]
    rw [searchLoop_skip md5 target _ _ _ skipped (head :: rest) 0 enc.stream hskip,
      Nat.zero_add, searchLoop_step md5 target _ _ _ head rest _ enc.stream hfail hsel, hslice]
    simp only
    rw [if_pos hbad]
  unfold find searchTable
  rw [hsearch]

/-! ## Facts about the example inputs -/

theorem singleChunkFile_wellFormed (first digest : Hex) (body : List Byte)
    (hf : first.length = 16) (hd : digest.length = 16) (hb : body.length = 4096) :
    (singleChunkFile first digest body).WellFormed := by
  simp [EncodingFile.WellFormed, singleChunkFile, HeaderSize, ChunkBodySize, hf, hd, hb]

theorem twoChunkFile_wellFormed (first0 digest0 first1 digest1 : Hex) (body0 body1 : List Byte)
    (hf0 : first0.length = 16) (hd0 : digest0.length = 16) (hf1 : first1.length = 16)
    (hd1 : digest1.length = 16) (hb0 : body0.length = 4096) (hb1 : body1.length = 4096) :
    (twoChunkFile first0 digest0 first1 digest1 body0 body1).WellFormed := by
  simp [EncodingFile.WellFormed, twoChunkFile, HeaderSize, ChunkBodySize, hf0, hd0, hf1, hd1,
    hb0, hb1]

theorem singleChunkFileB_wellFormed (first digest : Hex) (body : List Byte) (headB : ChunkHead)
    (bodyB : List Byte) (hf : first.length = 16) (hd : digest.length = 16)
    (hb : body.length = 4096) (hB1 : headB.first.length = 16) (hB2 : headB.hash.length = 16)
    (hbB : bodyB.length = 4096) :
    (singleChunkFileB first digest body headB bodyB).WellFormed := by
  simp [EncodingFile.WellFormed, singleChunkFileB, HeaderSize, ChunkBodySize, hf, hd, hb, hB1,
    hB2, hbB]

theorem exampleBody_length : exampleBody.length = 4096 := by
  simp only [exampleBody, encodeBody, encodeEntry, exampleHash, exampleKey, List.flatMap_cons,
    List.flatMap_nil, List.flatten_cons, List.flatten_nil, List.length_append, List.length_cons,
    List.length_nil, List.length_replicate, writeLittle_length, writeBig_length]

theorem exampleBody2_length : exampleBody2.length = 4096 := by
  simp only [exampleBody2, encodeBody, encodeEntry, exampleHash, exampleKey, zeroHash,
    List.flatMap_cons, List.cons_append, List.nil_append,
    List.flatMap_nil, List.flatten_cons, List.flatten_nil, List.length_append, List.length_cons,
    List.length_nil, List.length_replicate, writeLittle_length, writeBig_length]

/-- Reading the body of the only chunk of a single-chunk file after `parse`. -/
theorem singleChunkFile_read (first digest : Hex) (body : List Byte)
    (hf : first.length = 16) (hd : digest.length = 16) (hb : body.length = 4096) :
    (((singleChunkFile first digest body).parsed.stream.seekgBeg
      (((singleChunkFile first digest body).parsed.chunksOffsetA + ChunkBodySize *
        ((singleChunkFile first digest body).parsed.chunkHeadsA.length - 1 - 0)) % 2 ^ 64)).read
          4096).1 = some body := by
  have hs := slice_body (singleChunkFile first digest body)
    (singleChunkFile_wellFormed first digest body hf hd hb) [] [] body rfl
  rw [read_chunk _ rfl]
  have hp : ((singleChunkFile first digest body).parsed.chunksOffsetA + ChunkBodySize *
        ((singleChunkFile first digest body).parsed.chunkHeadsA.length - 1 - 0)) % 2 ^ 64 =
      HeaderSize + (singleChunkFile first digest body).strings.length
        + sizeofChunkHead * (singleChunkFile first digest body).headsA.length
        + ChunkBodySize * ([] : List (List Byte)).length := by
    simp [EncodingFile.parsed, singleChunkFile, HeaderSize, sizeofChunkHead, ChunkBodySize]
  rw [hp]
  have hbytes : (singleChunkFile first digest body).parsed.stream.bytes =
      (singleChunkFile first digest body).bytes := rfl
  rw [hbytes, hs]

/-! ## The claims about the encoding table (C1 to C10) -/

/-- C1 (the code on the input of the claim): in a well-formed file with one
chunk in table A and none in table B, whose body holds the single entry
`(H, 100, [K])` and whose head records `first = H` and the digest of the body,
`find(H)` reads no chunk body and throws `FileNotFoundException`: the head test
`target > first` is strict and fails for `H` itself, so `[K]` is not returned. -/
theorem find_single_entry_own_hash (md5 : List Byte → Hex) (f : EncodingFile)
    (hw : f.WellFormed) (H K : Hex) (fill : List Byte)
    (hheads : f.headsA = [⟨H, md5 (encodeBody [⟨H, 100, [K]⟩] fill)⟩])
    (hbodies : f.bodiesA = [encodeBody [⟨H, 100, [K]⟩] fill])
    (hB : f.headsB = []) :
    parse (IStream.ofBytes f.bytes) = .ok f.parsed ∧
      find md5 f.parsed H = ⟨[], .throws (.FileNotFoundException H)⟩ := by
  refine ⟨parse_file f hw, find_all_skipped md5 _ H ?_⟩
  intro x hx
  simp only [EncodingFile.parsed, hheads, List.reverse_cons, List.reverse_nil, List.nil_append,
    List.mem_singleton] at hx
  rw [hx]
  exact Hex.gt_irrefl H

/-- The single-entry file with `exampleHash`, `exampleKey` and zero fill. -/
theorem find_single_entry_own_hash_witness :
    parse (IStream.ofBytes (singleChunkFile exampleHash (exampleMd5 exampleBody)
        exampleBody).bytes)
      = .ok (singleChunkFile exampleHash (exampleMd5 exampleBody) exampleBody).parsed ∧
    find exampleMd5 (singleChunkFile exampleHash (exampleMd5 exampleBody) exampleBody).parsed
        exampleHash
      = ⟨[], .throws (.FileNotFoundException exampleHash)⟩ :=
  find_single_entry_own_hash exampleMd5
    (singleChunkFile exampleHash (exampleMd5 exampleBody) exampleBody)
    (singleChunkFile_wellFormed _ _ _ (by decide) (by decide) exampleBody_length)
    exampleHash exampleKey (List.replicate 4056 0) rfl rfl rfl

/-- C2: when the chunk loop passes over the heads `skipped` (the target does not
exceed their first key) and scans the chunk of `head`, whose body is a dense
sequence of well-formed entries closed by the `key_count == 0` terminator and
has the digest recorded in `head`, then for an entry `e` of that body with
content hash `target` that no earlier entry of the body shares, `find(target)`
returns exactly the keys of `e`, in stored order. -/
theorem find_returns_first_matching_entry (md5 : List Byte → Hex) (enc : CascEncoding)
    (target : Hex) (skipped rest : List ChunkHead) (head : ChunkHead)
    (before after : List EncodingEntry) (e : EncodingEntry) (fill : List Byte)
    (hheads : enc.chunkHeadsA = skipped ++ head :: rest)
    (hskip : ∀ x ∈ skipped, Hex.gt target x.first = false)
    (hsel : Hex.gt target head.first = true)
    (hread : ((enc.stream.seekgBeg ((enc.chunksOffsetA + ChunkBodySize *
        (enc.chunkHeadsA.length - 1 - skipped.length)) % 2 ^ 64)).read 4096).1
          = some (encodeBody (before ++ e :: after) fill))
    (hmd5 : md5 (encodeBody (before ++ e :: after) fill) = head.hash)
    (hwf : ∀ x ∈ before ++ e :: after, x.WellFormed enc.hashSizeA)
    (hbefore : ∀ x ∈ before, x.contentHash ≠ target)
    (he : e.contentHash = target) :
    (find md5 enc target).outcome = .ok e.keys := by
  have hfail : enc.stream.fail = false := by
    rcases hst : enc.stream with ⟨b, p, fl⟩
    rw [hst] at hread
    cases fl with
    | false => rfl
    | true => simp [IStream.seekgBeg, IStream.read] at hread
  rw [read_chunk enc.stream hfail] at hread
  have hslice : slice enc.stream.bytes ((enc.chunksOffsetA + ChunkBodySize *
        (enc.chunkHeadsA.length - 1 - skipped.length)) % 2 ^ 64) 4096
          = some (encodeBody (before ++ e :: after) fill) := by
    cases hs : slice enc.stream.bytes ((enc.chunksOffsetA + ChunkBodySize *
        (enc.chunkHeadsA.length - 1 - skipped.length)) % 2 ^ 64) 4096 with
    | none => rw [hs] at hread; simp at hread
    | some d => rw [hs] at hread; simpa using hread
  have hlook : lookupKeys target (before ++ e :: after) = e.keys := by
    clear hread hslice hmd5 hwf
    induction before with
    | nil => simp [lookupKeys, he]
    | cons b bs ih =>
      rw [List.cons_append, lookupKeys, if_neg (hbefore b (List.mem_cons_self _ _))]
      exact ih (fun x hx => hbefore x (List.mem_cons_of_mem _ hx))
  have hne : e.keys ≠ [] := by
    have := (hwf e (by simp)).2.2.1
    intro h0
    rw [h0] at this
    simp at this
  have hsearch : searchLoop md5 target enc.chunkHeadsA.length enc.chunksOffsetA enc.hashSizeA
      enc.chunkHeadsA 0 enc.stream [] =
        ⟨[(enc.chunksOffsetA + ChunkBodySize *
          (enc.chunkHeadsA.length - 1 - skipped.length)) % 2 ^ 64], .ok e.keys⟩ := by
    conv => lhs; arg 6; rw [hheads]
    rw [searchLoop_skip md5 target _ _ _ skipped (head :: rest) 0 enc.stream hskip,
      Nat.zero_add, searchLoop_step md5 target _ _ _ head rest _ enc.stream hfail hsel, hslice]
    simp only
    rw [if_neg (not_not.mpr hmd5), scanEntries_body _ target _ fill hwf, hlook]
    simp only
    rw [searchLoop_keys md5 target _ _ _ rest _ _ e.keys hne]
  rw [find_of_search md5 enc target _ _ hsearch]
  have : e.keys.isEmpty = false := by
    cases hk : e.keys with
    | nil => exact absurd hk hne
    | cons _ _ => rfl
  rw [this]
  rfl

/-- The single-chunk file with body `exampleBody2`: `find(exampleHash)` returns
`[exampleKey]`, the keys of the second entry. -/
theorem find_returns_first_matching_entry_witness :
    (find exampleMd5 (singleChunkFile zeroHash (exampleMd5 exampleBody2) exampleBody2).parsed
      exampleHash).outcome = .ok [exampleKey] :=
  find_returns_first_matching_entry exampleMd5
    (singleChunkFile zeroHash (exampleMd5 exampleBody2) exampleBody2).parsed exampleHash
    [] [] ⟨zeroHash, exampleMd5 exampleBody2⟩ [⟨zeroHash, 1, [List.replicate 16 3]⟩] []
    ⟨exampleHash, 100, [exampleKey]⟩ (List.replicate 4018 0)
    rfl (by simp) (by decide)
    (singleChunkFile_read zeroHash (exampleMd5 exampleBody2) exampleBody2 (by decide)
      (by decide) exampleBody2_length)
    rfl
    (by
      intro x hx
      simp only [List.cons_append, List.nil_append, List.mem_cons, List.mem_singleton,
        List.not_mem_nil, or_false] at hx
      rcases hx with rfl | rfl <;>
        simp [EncodingEntry.WellFormed, zeroHash, exampleHash, exampleKey, singleChunkFile,
          EncodingFile.parsed])
    (by
      intro x hx
      simp only [List.mem_singleton] at hx
      rw [hx]
      decide)
    rfl

/-- C3 (the code on a failing input): in a well-formed file whose table A has
the two heads `first = A` and `first = B` with `A < B`, the first chunk body that
`find(B)` reads is the one of chunk 0, at `chunksOffsetA`, and not the one of
chunk 1, the highest index with `first ≤ B`: the head test is strict. -/
theorem find_equal_head_reads_lower_chunk (md5 : List Byte → Hex) (f : EncodingFile)
    (hw : f.WellFormed) (A B digestA digestB : Hex)
    (hheads : f.headsA = [⟨A, digestA⟩, ⟨B, digestB⟩]) (hAB : Hex.lt A B = true) :
    parse (IStream.ofBytes f.bytes) = .ok f.parsed ∧
      (find md5 f.parsed B).reads.head? = some (f.parsed.chunksOffsetA + ChunkBodySize * 0) ∧
      f.parsed.chunksOffsetA + ChunkBodySize * 0 ≠ f.parsed.chunksOffsetA + ChunkBodySize * 1 := by
  refine ⟨parse_file f hw, ?_, by simp [ChunkBodySize]⟩
  obtain ⟨-, -, hs, hna, -⟩ := hw
  have hrev : f.parsed.chunkHeadsA = [⟨B, digestB⟩] ++ [⟨A, digestA⟩] := by
    simp [EncodingFile.parsed, hheads]
  rw [find_reads]
  conv => lhs; arg 1; arg 1; arg 6; rw [hrev]
  rw [searchLoop_skip md5 B _ _ _ [⟨B, digestB⟩] [⟨A, digestA⟩] 0 _
    (by intro x hx; simp only [List.mem_singleton] at hx; rw [hx]; exact Hex.gt_irrefl B),
    searchLoop_step_reads md5 B _ _ _ ⟨A, digestA⟩ [] _ _ rfl hAB]
  simp only [hrev, List.length_append, List.length_singleton, EncodingFile.parsed, hheads,
    List.length_cons, List.length_nil, List.length_reverse, HeaderSize, sizeofChunkHead,
    ChunkBodySize] at hs ⊢
  congr 1
  omega

/-- The two-chunk file with first keys `zeroHash` and `exampleHash`. -/
theorem find_equal_head_reads_lower_chunk_witness :
    parse (IStream.ofBytes (twoChunkFile zeroHash (exampleMd5 []) exampleHash (exampleMd5 [])
        (List.replicate 4096 0) (List.replicate 4096 0)).bytes)
      = .ok (twoChunkFile zeroHash (exampleMd5 []) exampleHash (exampleMd5 [])
        (List.replicate 4096 0) (List.replicate 4096 0)).parsed ∧
    (find exampleMd5 (twoChunkFile zeroHash (exampleMd5 []) exampleHash (exampleMd5 [])
        (List.replicate 4096 0) (List.replicate 4096 0)).parsed exampleHash).reads.head?
      = some ((twoChunkFile zeroHash (exampleMd5 []) exampleHash (exampleMd5 [])
        (List.replicate 4096 0) (List.replicate 4096 0)).parsed.chunksOffsetA
          + ChunkBodySize * 0) ∧
    (twoChunkFile zeroHash (exampleMd5 []) exampleHash (exampleMd5 [])
        (List.replicate 4096 0) (List.replicate 4096 0)).parsed.chunksOffsetA
          + ChunkBodySize * 0 ≠
      (twoChunkFile zeroHash (exampleMd5 []) exampleHash (exampleMd5 [])
        (List.replicate 4096 0) (List.replicate 4096 0)).parsed.chunksOffsetA
          + ChunkBodySize * 1 :=
  find_equal_head_reads_lower_chunk exampleMd5
    (twoChunkFile zeroHash (exampleMd5 []) exampleHash (exampleMd5 [])
      (List.replicate 4096 0) (List.replicate 4096 0))
    (twoChunkFile_wellFormed _ _ _ _ _ _ (by decide) (by decide) (by decide) (by decide)
      (List.length_replicate _ _) (List.length_replicate _ _))
    zeroHash exampleHash (exampleMd5 []) (exampleMd5 []) rfl (by decide)

/-- C4: in a well-formed file with one chunk in table A, 16-byte hashes, whose
body holds the single entry `(H, 100, [K])` and whose head records `first = H`
and the digest of the body, `find(H')` for every `H'` other than `H` throws
`FileNotFoundException` (and so returns no key and raises no other error). -/
theorem find_other_hash_not_found (md5 : List Byte → Hex) (f : EncodingFile)
    (hw : f.WellFormed) (H K H' : Hex) (fill : List Byte)
    (hsize : f.hashSizeA = 16) (hH : H.length = 16) (hK : K.length = 16)
    (hheads : f.headsA = [⟨H, md5 (encodeBody [⟨H, 100, [K]⟩] fill)⟩])
    (hbodies : f.bodiesA = [encodeBody [⟨H, 100, [K]⟩] fill])
    (hne : H' ≠ H) :
    parse (IStream.ofBytes f.bytes) = .ok f.parsed ∧
      (find md5 f.parsed H').outcome = .throws (.FileNotFoundException H') := by
  refine ⟨parse_file f hw, ?_⟩
  have hrev : f.parsed.chunkHeadsA = [⟨H, md5 (encodeBody [⟨H, 100, [K]⟩] fill)⟩] := by
    simp [EncodingFile.parsed, hheads]
  cases hgt : Hex.gt H' H with
  | false =>
    rw [find_all_skipped md5 f.parsed H'
      (by intro x hx; rw [hrev, List.mem_singleton] at hx; rw [hx]; exact hgt)]
  | true =>
    have hs := slice_body f hw [] [] _ hbodies
    have hw' := hw
    obtain ⟨-, -, hstr, -⟩ := hw'
    have hp : (f.parsed.chunksOffsetA + ChunkBodySize * (f.parsed.chunkHeadsA.length - 1 - 0))
        % 2 ^ 64 = HeaderSize + f.strings.length + sizeofChunkHead * f.headsA.length
          + ChunkBodySize * ([] : List (List Byte)).length := by
      simp only [EncodingFile.parsed, hheads, List.reverse_cons, List.reverse_nil,
        List.nil_append, List.length_singleton, List.length_nil, HeaderSize, sizeofChunkHead,
        ChunkBodySize] at hstr ⊢
      omega
    have hwf : ∀ x ∈ [(⟨H, 100, [K]⟩ : EncodingEntry)], x.WellFormed f.parsed.hashSizeA := by
      intro x hx
      rw [List.mem_singleton] at hx
      rw [hx]
      simp [EncodingEntry.WellFormed, EncodingFile.parsed, hsize, hH, hK]
    have hsearch : searchLoop md5 H' f.parsed.chunkHeadsA.length f.parsed.chunksOffsetA
        f.parsed.hashSizeA f.parsed.chunkHeadsA 0 f.parsed.stream [] =
          ⟨[HeaderSize + f.strings.length + sizeofChunkHead * f.headsA.length
            + ChunkBodySize * ([] : List (List Byte)).length], .ok []⟩ := by
      conv => lhs; arg 6; rw [hrev]
      rw [searchLoop_step md5 H' _ _ _ _ [] 0 f.parsed.stream rfl hgt, hp]
      have hb : f.parsed.stream.bytes = f.bytes := rfl
      rw [hb, hs]
      simp only
      rw [if_neg (not_not.mpr rfl), scanEntries_body _ H' _ fill hwf]
      simp only [lookupKeys, if_neg (Ne.symm hne)]
      rfl
    rw [find_of_search md5 f.parsed H' _ _ hsearch]
    rfl

/-- The single-entry file, asked for `exampleKey` taken as a hash. -/
theorem find_other_hash_not_found_witness :
    parse (IStream.ofBytes (singleChunkFile exampleHash (exampleMd5 exampleBody)
        exampleBody).bytes)
      = .ok (singleChunkFile exampleHash (exampleMd5 exampleBody) exampleBody).parsed ∧
    (find exampleMd5 (singleChunkFile exampleHash (exampleMd5 exampleBody) exampleBody).parsed
        exampleKey).outcome
      = .throws (.FileNotFoundException exampleKey) :=
  find_other_hash_not_found exampleMd5
    (singleChunkFile exampleHash (exampleMd5 exampleBody) exampleBody)
    (singleChunkFile_wellFormed _ _ _ (by decide) (by decide) exampleBody_length)
    exampleHash exampleKey exampleKey (List.replicate 4056 0) rfl (by decide) (by decide)
    rfl rfl (by decide)

/-- C5 (the code on a failing input): in a well-formed file with one chunk in
table A whose head records `first = H` and a digest that is not the digest of
the body, the body holding an entry for `H`, `find(H)` reads no chunk body and
throws `FileNotFoundException`, not `InvalidHashException`: the chunk with
`first ≤ H` is passed over by the strict head test and its digest is never
checked. -/
theorem find_equal_head_corrupt_chunk (md5 : List Byte → Hex) (f : EncodingFile)
    (hw : f.WellFormed) (H K digest : Hex) (fill : List Byte)
    (hheads : f.headsA = [⟨H, digest⟩])
    (hbodies : f.bodiesA = [encodeBody [⟨H, 100, [K]⟩] fill])
    (hbad : md5 (encodeBody [⟨H, 100, [K]⟩] fill) ≠ digest) :
    parse (IStream.ofBytes f.bytes) = .ok f.parsed ∧
      find md5 f.parsed H = ⟨[], .throws (.FileNotFoundException H)⟩ := by
  refine ⟨parse_file f hw, find_all_skipped md5 _ H ?_⟩
  intro x hx
  simp only [EncodingFile.parsed, hheads, List.reverse_cons, List.reverse_nil, List.nil_append,
    List.mem_singleton] at hx
  rw [hx]
  exact Hex.gt_irrefl H

/-- The single-entry file with sixteen bytes 1 as the recorded digest. -/
theorem find_equal_head_corrupt_chunk_witness :
    parse (IStream.ofBytes (singleChunkFile exampleHash (List.replicate 16 1)
        exampleBody).bytes)
      = .ok (singleChunkFile exampleHash (List.replicate 16 1) exampleBody).parsed ∧
    find exampleMd5 (singleChunkFile exampleHash (List.replicate 16 1) exampleBody).parsed
        exampleHash
      = ⟨[], .throws (.FileNotFoundException exampleHash)⟩ :=
  find_equal_head_corrupt_chunk exampleMd5
    (singleChunkFile exampleHash (List.replicate 16 1) exampleBody)
    (singleChunkFile_wellFormed _ _ _ (by decide) (by decide) exampleBody_length)
    exampleHash exampleKey (List.replicate 16 1) (List.replicate 4056 0) rfl rfl (by decide)

/-- C6 (the code on the inputs of the claim): for every stream that `parse`
accepts, `find` of the smallest hash (sixteen zero bytes) reads no chunk body
and throws `FileNotFoundException`, whatever the chunks contain: no head has a
first key below the zero hash, so the strict head test never holds. -/
theorem find_zero_hash_not_found (md5 : List Byte → Hex) (bytes : List Byte)
    (enc : CascEncoding) (hp : parse (IStream.ofBytes bytes) = .ok enc) :
    find md5 enc zeroHash = ⟨[], .throws (.FileNotFoundException zeroHash)⟩ := by
  refine find_all_skipped md5 enc zeroHash ?_
  intro x hx
  exact Hex.lt_zero 16 x.first (parse_heads_lengths hp x hx).1

/-- The single-chunk file with body `exampleBody2`, whose first entry has the
zero hash. -/
theorem find_zero_hash_not_found_witness :
    find exampleMd5 (singleChunkFile zeroHash (exampleMd5 exampleBody2) exampleBody2).parsed
      zeroHash = ⟨[], .throws (.FileNotFoundException zeroHash)⟩ :=
  find_zero_hash_not_found exampleMd5
    (singleChunkFile zeroHash (exampleMd5 exampleBody2) exampleBody2).bytes
    (singleChunkFile zeroHash (exampleMd5 exampleBody2) exampleBody2).parsed
    (parse_file _ (singleChunkFile_wellFormed _ _ _ (by decide) (by decide)
      exampleBody2_length))

/-- C7: `parse` throws `InvalidSignatureException(actual, expected)` exactly when
the stream has two first bytes that are not 'E' (0x45) followed by 'N' (0x4E);
the exception then carries the little-endian value of those two bytes and
0x4E45. In particular no signature error is raised when the stream starts with
"EN". -/
theorem parse_invalid_signature_iff (bytes : List Byte) (actual expected : Nat) :
    parse (IStream.ofBytes bytes) = .throws (.InvalidSignatureException actual expected) ↔
      ∃ b0 b1 rest, bytes = b0 :: b1 :: rest ∧ ¬ (b0 = 0x45 ∧ b1 = 0x4E) ∧
        actual = b0.val + 256 * b1.val ∧ expected = 0x4E45 := by
  rcases bytes with _ | ⟨b0, _ | ⟨b1, rest⟩⟩
  · simp [parse, parseHeader, CascEncoding.read, IStream.read, IStream.ofBytes, Outcome.bind]
  · simp [parse, parseHeader, CascEncoding.read, IStream.read, IStream.ofBytes, Outcome.bind]
  · rw [parse, parseHeader_cons_cons]
    by_cases hsig : b0.val + 256 * b1.val = 0x4E45
    · rw [if_neg (not_not.mpr hsig)]
      constructor
      · intro h
        exfalso
        cases hf : parseFields ⟨b0 :: b1 :: rest, 2, false⟩ with
        | ok r =>
          rw [hf, Outcome.bind_ok] at h
          have := parseTables_throws h
          cases this
        | throws e => exact parseFields_ne_throws _ _ hf
        | undefined => rw [hf] at h; simp [Outcome.bind] at h
      · rintro ⟨c0, c1, r, heq, hne, -, -⟩
        injection heq with h0 t0
        injection t0 with h1 t1
        subst h0 h1
        exact absurd ((signature_eq_iff b0 b1).mp hsig) hne
    · rw [if_pos hsig]
      have hne : ¬ (b0 = 0x45 ∧ b1 = 0x4E) := fun h => hsig ((signature_eq_iff b0 b1).mpr h)
      constructor
      · intro h
        simp only [Outcome.bind] at h
        injection h with h
        injection h with ha he
        exact ⟨b0, b1, rest, rfl, hne, ha.symm, he.symm⟩
      · rintro ⟨c0, c1, r, heq, -, ha, he⟩
        injection heq with h0 t0
        injection t0 with h1 t1
        subst h0 h1 ha he
        rfl

/-- C8: on a stream that starts with "EN" and has a full header, the header part
of `parse` leaves the get position at 22 and has decoded `hashSizeA` from byte 3,
`hashSizeB` from byte 4, `tableSizeA` from bytes 9..12, `tableSizeB` from bytes
13..16 and `stringTableSize` from bytes 18..21, all three big-endian; and
replacing the bytes 2, 5..8 and 17 by any other values changes nothing in the
tables that `parse` produces. -/
theorem parse_header_layout
    (b2 b3 b4 b5 b6 b7 b8 b9 b10 b11 b12 b13 b14 b15 b16 b17 b18 b19 b20 b21 : Byte)
    (c2 c5 c6 c7 c8 c17 : Byte) (rest : List Byte) :
    parseHeader (IStream.ofBytes (0x45 :: 0x4E :: b2 :: b3 :: b4 :: b5 :: b6 :: b7 :: b8 ::
        b9 :: b10 :: b11 :: b12 :: b13 :: b14 :: b15 :: b16 :: b17 :: b18 :: b19 :: b20 ::
        b21 :: rest))
      = .ok ({ hashSizeA := b3.val, hashSizeB := b4.val,
               tableSizeA := ((b9.val * 256 + b10.val) * 256 + b11.val) * 256 + b12.val,
               tableSizeB := ((b13.val * 256 + b14.val) * 256 + b15.val) * 256 + b16.val,
               stringTableSize :=
                 ((b18.val * 256 + b19.val) * 256 + b20.val) * 256 + b21.val },
             ⟨0x45 :: 0x4E :: b2 :: b3 :: b4 :: b5 :: b6 :: b7 :: b8 ::
                b9 :: b10 :: b11 :: b12 :: b13 :: b14 :: b15 :: b16 :: b17 :: b18 :: b19 ::
                b20 :: b21 :: rest, 22, false⟩)
    ∧ (parse (IStream.ofBytes (0x45 :: 0x4E :: c2 :: b3 :: b4 :: c5 :: c6 :: c7 :: c8 ::
        b9 :: b10 :: b11 :: b12 :: b13 :: b14 :: b15 :: b16 :: c17 :: b18 :: b19 :: b20 ::
        b21 :: rest))).bind (fun e => .ok e.tables)
      = (parse (IStream.ofBytes (0x45 :: 0x4E :: b2 :: b3 :: b4 :: b5 :: b6 :: b7 :: b8 ::
        b9 :: b10 :: b11 :: b12 :: b13 :: b14 :: b15 :: b16 :: b17 :: b18 :: b19 :: b20 ::
        b21 :: rest))).bind (fun e => .ok e.tables) := by
  refine ⟨parseHeader_bytes b2 b3 b4 b5 b6 b7 b8 b9 b10 b11 b12 b13 b14 b15 b16 b17 b18 b19
    b20 b21 rest, ?_⟩
  rw [parse, parse,
    parseHeader_bytes c2 b3 b4 c5 c6 c7 c8 b9 b10 b11 b12 b13 b14 b15 b16 c17 b18 b19 b20 b21
      rest,
    parseHeader_bytes b2 b3 b4 b5 b6 b7 b8 b9 b10 b11 b12 b13 b14 b15 b16 b17 b18 b19 b20 b21
      rest, Outcome.bind_ok, Outcome.bind_ok]
  apply parseTables_sameAhead
  exact ⟨rfl, rfl, rfl⟩

/-- C9 (the code at the failing input): for the 22-byte header with
`table_size_a = table_size_b = 0` and `string_table_size = 0xFFFFFFFF`, `parse`
returns and stores 21 in both offsets, whereas the layout puts the bodies at
22 + 0xFFFFFFFF = 4294967317; and for `table_size_a = 2^20` with empty string
table and table B the stored `chunksOffsetB` is 33554454, not
4328521750 = 22 + 32 * 2^20 + 4096 * 2^20. -/
theorem parse_offsets_wrap :
    (parse (IStream.ofBytes [0x45, 0x4E, 1, 16, 16, 0, 4, 0, 4, 0, 0, 0, 0, 0, 0, 0, 0, 0,
        255, 255, 255, 255])).bind (fun e => .ok (e.chunksOffsetA, e.chunksOffsetB))
      = .ok (21, 21)
    ∧ 22 + 0xFFFFFFFF + 32 * 0 = 4294967317
    ∧ offsetB { hashSizeA := 16, hashSizeB := 16, tableSizeA := 2 ^ 20, tableSizeB := 0,
                stringTableSize := 0 } = 33554454
    ∧ 22 + 0 + 32 * 2 ^ 20 + 4096 * 2 ^ 20 + 32 * 0 = 4328521750 := by
  refine ⟨by decide, by decide, by decide, by decide⟩

/-- C10: `find` searches table A only. Let `common` be the part of an encoding
file that ends with the table-A bodies (header, string table, table-A heads and
bodies, with the sizes its own header gives). For any two files that continue
`common` with whatever table-B heads and bodies and that `parse` accepts,
`find(h)` ends the same way (same keys or same exception) after the same reads. -/
theorem find_ignores_table_B (md5 : List Byte → Hex) (common tail1 tail2 : List Byte)
    (hd : Header) (s0 : IStream) (e1 e2 : CascEncoding) (h : Hex)
    (hhdr : parseHeader (IStream.ofBytes common) = .ok (hd, s0))
    (hlen : common.length = HeaderSize + hd.stringTableSize
      + sizeofChunkHead * hd.tableSizeA + ChunkBodySize * hd.tableSizeA)
    (hp1 : parse (IStream.ofBytes (common ++ tail1)) = .ok e1)
    (hp2 : parse (IStream.ofBytes (common ++ tail2)) = .ok e2) :
    find md5 e1 h = find md5 e2 h := by
  simp only [HeaderSize, sizeofChunkHead, ChunkBodySize] at hlen
  have h22 : 22 ≤ common.length := by omega
  simp only [parse, parseHeader_append common hd s0 hhdr h22, Outcome.bind_ok] at hp1 hp2
  obtain ⟨a1, a2, a3, a4, a5⟩ := parseTables_ok hp1
  obtain ⟨b1, b2, b3, b4, b5⟩ := parseTables_ok hp2
  obtain ⟨heads, hl, hh⟩ := readHeads_within common hd.tableSizeA (22 + hd.stringTableSize)
    (by omega)
  have hk1 : (⟨common ++ tail1, 22, false⟩ : IStream).seekgCur hd.stringTableSize =
      ⟨common ++ tail1, 22 + hd.stringTableSize, false⟩ := by simp [IStream.seekgCur]
  have hk2 : (⟨common ++ tail2, 22, false⟩ : IStream).seekgCur hd.stringTableSize =
      ⟨common ++ tail2, 22 + hd.stringTableSize, false⟩ := by simp [IStream.seekgCur]
  rw [hk1, hh tail1] at a3
  rw [hk2, hh tail2] at b3
  simp only at a3 a5 b3 b5
  have hc := searchLoop_congr md5 h heads.reverse.length (offsetA hd) hd.hashSizeA
    heads.reverse 0 e1.stream e2.stream [] a4 b4 (by
      intro k _ hk
      rw [List.length_reverse, hl] at hk ⊢
      have hO : offsetA hd ≤ 22 + hd.stringTableSize + 32 * hd.tableSizeA := by
        unfold offsetA
        refine le_trans (Nat.mod_le _ _) ?_
        have := Nat.mod_le (HeaderSize + hd.stringTableSize) (2 ^ 32)
        simp only [HeaderSize, sizeofChunkHead] at this ⊢
        omega
      have hP := Nat.mod_le (offsetA hd + ChunkBodySize * (hd.tableSizeA - 1 - k)) (2 ^ 64)
      have hb : (offsetA hd + ChunkBodySize * (hd.tableSizeA - 1 - k)) % 2 ^ 64 + 4096
          ≤ common.length := by
        generalize (offsetA hd + ChunkBodySize * (hd.tableSizeA - 1 - k)) % 2 ^ 64 = P at hP ⊢
        generalize offsetA hd = O at hP hO
        simp only [ChunkBodySize] at hP
        omega
      rw [a5, b5, slice_append_left _ _ _ _ hb, slice_append_left _ _ _ _ hb])
  unfold find searchTable
  rw [a1, a2, a3, b1, b2, b3, hc]

/-- Two files with the same table A and different chunks in table B. -/
theorem find_ignores_table_B_witness :
    find exampleMd5 (singleChunkFileB zeroHash (exampleMd5 exampleBody2) exampleBody2
        ⟨zeroHash, exampleKey⟩ (List.replicate 4096 1)).parsed exampleHash
      = find exampleMd5 (singleChunkFileB zeroHash (exampleMd5 exampleBody2) exampleBody2
        ⟨exampleHash, zeroHash⟩ exampleBody).parsed exampleHash :=
  find_ignores_table_B exampleMd5
    (singleChunkFileB zeroHash (exampleMd5 exampleBody2) exampleBody2
        ⟨zeroHash, exampleKey⟩ (List.replicate 4096 1)).common
    (singleChunkFileB zeroHash (exampleMd5 exampleBody2) exampleBody2
        ⟨zeroHash, exampleKey⟩ (List.replicate 4096 1)).tableB
    (singleChunkFileB zeroHash (exampleMd5 exampleBody2) exampleBody2
        ⟨exampleHash, zeroHash⟩ exampleBody).tableB
    _ _ _ _ exampleHash
    (EncodingFile.parseHeader_common _
      (singleChunkFileB_wellFormed _ _ _ _ _ (by decide) (by decide) exampleBody2_length
        (by decide) (by decide) (List.length_replicate _ _)))
    (EncodingFile.common_length _
      (singleChunkFileB_wellFormed _ _ _ _ _ (by decide) (by decide) exampleBody2_length
        (by decide) (by decide) (List.length_replicate _ _)))
    (by
      rw [EncodingFile.common_append_tableB]
      exact parse_file _
        (singleChunkFileB_wellFormed _ _ _ _ _ (by decide) (by decide) exampleBody2_length
          (by decide) (by decide) (List.length_replicate _ _)))
    (by
      rw [show (singleChunkFileB zeroHash (exampleMd5 exampleBody2) exampleBody2
          ⟨zeroHash, exampleKey⟩ (List.replicate 4096 1)).common =
        (singleChunkFileB zeroHash (exampleMd5 exampleBody2) exampleBody2
          ⟨exampleHash, zeroHash⟩ exampleBody).common from rfl,
        EncodingFile.common_append_tableB]
      exact parse_file _
        (singleChunkFileB_wellFormed _ _ _ _ _ (by decide) (by decide) exampleBody2_length
          (by decide) (by decide) exampleBody_length))

/-! ## `Hex<Size>` -/

set_option maxRecDepth 100000 in
theorem extractHex_putHex : ∀ b : Byte, (extractHex (putHex b)).map toUint8 = some b := by
  decide

theorem charAt_append_cons (a : StdString) (c : Char) (b : StdString) :
    StdString.charAt (a ++ c :: b) a.length = some c := by
  unfold StdString.charAt
  rw [if_pos (by simp), List.getElem?_append_right (Nat.le_refl _), Nat.sub_self]
  simp

theorem Shared.Hex.elements_putHex (rest : List Byte) :
    ∀ (a : StdString) (i : Nat), a.length = i * 2 →
      Shared.Hex.elements (a ++ rest.flatMap putHex) rest.length i = some rest := by
  induction rest with
  | nil => intro a i _; rfl
  | cons b bs ih =>
    intro a i ha
    have h0 : StdString.charAt (a ++ (b :: bs).flatMap putHex) (i * 2)
        = some (hexDigit (b.val / 16)) := by
      rw [← ha]
      exact charAt_append_cons a _ _
    have h1 : StdString.charAt (a ++ (b :: bs).flatMap putHex) (i * 2 + 1)
        = some (hexDigit (b.val % 16)) := by
      have := charAt_append_cons (a ++ [hexDigit (b.val / 16)]) (hexDigit (b.val % 16))
        (bs.flatMap putHex)
      simp only [List.length_append, List.length_singleton, ha, List.append_assoc,
        List.singleton_append] at this
      exact this
    have hrec := ih (a ++ putHex b) (i + 1) (by simp [putHex, ha]; ring)
    rw [List.append_assoc] at hrec
    have hx := extractHex_putHex b
    rw [List.length_cons, Shared.Hex.elements, h0, h1]
    simp only
    rw [List.flatMap_cons, hrec]
    simp only [putHex] at hx
    cases hv : extractHex [hexDigit (b.val / 16), hexDigit (b.val % 16)] with
    | none => rw [hv] at hx; cases hx
    | some v =>
      rw [hv] at hx
      simp only [Option.map_some', Option.some.injEq] at hx
      simp only [hx]

theorem putHex_string_length (arr : List Byte) : (arr.flatMap putHex).length = 2 * arr.length := by
  induction arr with
  | nil => rfl
  | cons b bs ih => simp [putHex, ih]; ring

theorem putHex_string_get (arr : List Byte) :
    ∀ i : Fin arr.length,
      (arr.flatMap putHex)[2 * i.val]? = some (hexDigit ((arr.get i).val / 16)) ∧
      (arr.flatMap putHex)[2 * i.val + 1]? = some (hexDigit ((arr.get i).val % 16)) := by
  induction arr with
  | nil => intro i; exact i.elim0
  | cons b bs ih =>
    intro i
    rcases i with ⟨i, hi⟩
    cases i with
    | zero => simp [putHex]
    | succ k =>
      have := ih ⟨k, by simpa using hi⟩
      simp only [List.flatMap_cons, putHex, List.cons_append, List.nil_append] at this ⊢
      have e1 : 2 * (k + 1) = 2 * k + 1 + 1 := by ring
      have e2 : 2 * (k + 1) + 1 = 2 * k + 1 + 1 + 1 := by ring
      simp only [e1, e2, List.getElem?_cons_succ, List.get_cons_succ]
      exact this

/-- C11: `Hex<Size>(Hex<Size>(arr).string()).data()` is `arr` for every byte
array `arr` (`Size` being its length); `Hex<Size>(arr).string()` has `2 * Size`
characters, and its characters `2i` and `2i + 1` are the two hexadecimal digits
of `arr[i]` (the first one `0` for values below 16). -/
theorem hex_round_trip (arr : List Byte) :
    (Shared.Hex.ofString arr.length (Shared.Hex.ofArray arr).string).map Shared.Hex.data
      = some arr ∧
    (Shared.Hex.ofArray arr).string.length = 2 * arr.length ∧
    ∀ i : Fin arr.length,
      (Shared.Hex.ofArray arr).string[2 * i.val]? = some (hexDigit ((arr.get i).val / 16)) ∧
      (Shared.Hex.ofArray arr).string[2 * i.val + 1]?
        = some (hexDigit ((arr.get i).val % 16)) := by
  refine ⟨?_, putHex_string_length arr, putHex_string_get arr⟩
  have := Shared.Hex.elements_putHex arr [] 0 rfl
  simp only [List.nil_append] at this
  simp [Shared.Hex.ofString, Shared.Hex.ofArray, Shared.Hex.string, Shared.Hex.data, this]

set_option maxRecDepth 100000 in
theorem extractHex_upper : ∀ c0 ∈ hexChars, ∀ c1 ∈ hexChars,
    extractHex [c0.toUpper, c1.toUpper] = some ((16 * digitValue c0 + digitValue c1 : Nat) : Int) := by
  decide

set_option maxRecDepth 100000 in
theorem extractHex_lower : ∀ c0 ∈ hexChars, ∀ c1 ∈ hexChars,
    extractHex [c0.toLower, c1.toLower] = some ((16 * digitValue c0 + digitValue c1 : Nat) : Int) := by
  decide

theorem digitValue_le (c : Char) : digitValue c ≤ 15 := by
  unfold digitValue hexValue
  split
  · simp only [Option.getD_some]; omega
  · split
    · simp only [Option.getD_some]; omega
    · split
      · simp only [Option.getD_some]; omega
      · simp

theorem toUint8_val (n : Nat) (h : n < 256) : (toUint8 (n : Int)).val = n := by
  simp only [toUint8]
  omega

theorem charAt_map (f : Char → Char) (str : StdString) (pos : Nat) (h : pos < str.length) :
    StdString.charAt (str.map f) pos = some (f (str.getD pos '0')) ∧ str.getD pos '0' ∈ str := by
  unfold StdString.charAt
  rw [if_pos (by simpa using h)]
  simp only [List.getElem?_map, List.getD_eq_getElem?_getD, List.getElem?_eq_getElem h,
    Option.map_some', Option.getD_some, true_and]
  exact List.getElem_mem h

theorem Shared.Hex.elements_digits (str : StdString) (hs : ∀ c ∈ str, c ∈ hexChars)
    (f : Char → Char)
    (hf : ∀ c0 ∈ hexChars, ∀ c1 ∈ hexChars,
      extractHex [f c0, f c1] = some ((16 * digitValue c0 + digitValue c1 : Nat) : Int))
    (count : Nat) :
    ∀ i, (i + count) * 2 ≤ str.length →
      Shared.Hex.elements (str.map f) count i = some ((List.range' i count).map fun j =>
        toUint8 ((16 * digitValue (str.getD (j * 2) '0')
          + digitValue (str.getD (j * 2 + 1) '0') : Nat) : Int)) := by
  induction count with
  | zero => intro i _; rfl
  | succ k ih =>
    intro i hi
    obtain ⟨h0, m0⟩ := charAt_map f str (i * 2) (by omega)
    obtain ⟨h1, m1⟩ := charAt_map f str (i * 2 + 1) (by omega)
    rw [Shared.Hex.elements, h0, h1]
    simp only
    rw [hf _ (hs _ m0) _ (hs _ m1), ih (i + 1) (by omega)]
    simp only [List.range'_succ, List.map_cons]

/-- C12: for every string `s` of `2 * Size` hexadecimal digits, `Hex<Size>` of
`s` in upper case and of `s` in lower case have the same `data()`, and byte `i`
is `16 * value(s[2i]) + value(s[2i+1])`. -/
theorem hex_parse_case_insensitive (Size : Nat) (s : StdString)
    (hs : ∀ c ∈ s, c ∈ hexChars) (hl : s.length = 2 * Size) :
    (Shared.Hex.ofString Size (s.map Char.toUpper)).map Shared.Hex.data
      = (Shared.Hex.ofString Size (s.map Char.toLower)).map Shared.Hex.data ∧
    (Shared.Hex.ofString Size (s.map Char.toUpper)).map (fun h => h.data.map Fin.val)
      = some ((List.range Size).map fun i =>
          16 * digitValue (s.getD (2 * i) '0') + digitValue (s.getD (2 * i + 1) '0')) := by
  have hu := Shared.Hex.elements_digits s hs Char.toUpper extractHex_upper Size 0 (by omega)
  have hlow := Shared.Hex.elements_digits s hs Char.toLower extractHex_lower Size 0 (by omega)
  refine ⟨?_, ?_⟩
  · simp only [Shared.Hex.ofString, hu, hlow, Option.map_some', Shared.Hex.data]
  · simp only [Shared.Hex.ofString, hu, Option.map_some', Shared.Hex.data, List.map_map,
      List.range_eq_range', Option.some.injEq]
    apply List.map_congr_left
    intro j _
    simp only [Function.comp]
    rw [toUint8_val _ (by
      have := digitValue_le (s.getD (j * 2) '0')
      have := digitValue_le (s.getD (j * 2 + 1) '0')
      omega), Nat.mul_comm j 2]

/-- The strings of the example: `41ee1986acc533cc00` in both letter cases give
the nine bytes 41 EE 19 86 AC C5 33 CC 00. -/
theorem hex_parse_case_insensitive_witness :
    ((Shared.Hex.ofString 9 ("41ee1986acc533cc00".toList.map Char.toUpper)).map Shared.Hex.data
      = (Shared.Hex.ofString 9 ("41ee1986acc533cc00".toList.map Char.toLower)).map
          Shared.Hex.data ∧
    (Shared.Hex.ofString 9 ("41ee1986acc533cc00".toList.map Char.toUpper)).map
        (fun h => h.data.map Fin.val)
      = some ((List.range 9).map fun i =>
          16 * digitValue ("41ee1986acc533cc00".toList.getD (2 * i) '0')
            + digitValue ("41ee1986acc533cc00".toList.getD (2 * i + 1) '0'))) ∧
    "41ee1986acc533cc00".toList.map Char.toUpper = "41EE1986ACC533CC00".toList ∧
    (Shared.Hex.ofString 9 "41ee1986acc533cc00".toList).map Shared.Hex.data
      = some [0x41, 0xEE, 0x19, 0x86, 0xAC, 0xC5, 0x33, 0xCC, 0x00] ∧
    (Shared.Hex.ofString 9 "41EE1986ACC533CC00".toList).map Shared.Hex.data
      = some [0x41, 0xEE, 0x19, 0x86, 0xAC, 0xC5, 0x33, 0xCC, 0x00] :=
  ⟨hex_parse_case_insensitive 9 "41ee1986acc533cc00".toList (by decide) (by decide),
    by decide, by decide, by decide⟩

/-- C13 (counterexample): `Hex<1>("AB")` has the data `{0xAB}` and its `string()`
is `AB`, whose characters are not among `0-9a-f`. -/
theorem hex_string_keeps_upper_case :
    ∃ h, Shared.Hex.ofString 1 "AB".toList = some h ∧ h.data = [0xAB] ∧
      h.string = "AB".toList ∧ ¬ ∀ c ∈ h.string, c ∈ lowerHexChars := by
  refine ⟨⟨[0xAB], "AB".toList⟩, by decide, rfl, rfl, by decide⟩

theorem hexDigit_mem (n : Nat) (h : n < 16) : hexDigit n ∈ lowerHexChars := by
  interval_cases n <;> decide

/-- C13 (amended): the `string()` of a `Hex<Size>` made from a byte array
contains only the characters `0-9` and `a-f`; the `string()` of a `Hex<Size>`
made from a string is that string, character for character. -/
theorem hex_string_of_array_lowercase_of_string_verbatim (arr : List Byte) (Size : Nat)
    (str : StdString) :
    (∀ c ∈ (Shared.Hex.ofArray arr).string, c ∈ lowerHexChars) ∧
    (Shared.Hex.ofString Size str).map Shared.Hex.string
      = (Shared.Hex.ofString Size str).map fun _ => str := by
  refine ⟨?_, ?_⟩
  · intro c hc
    simp only [Shared.Hex.ofArray, Shared.Hex.string, List.mem_flatMap, putHex,
      List.mem_cons, List.mem_singleton, List.not_mem_nil, or_false] at hc
    obtain ⟨b, -, rfl | rfl⟩ := hc
    · exact hexDigit_mem _ (by have := b.isLt; omega)
    · exact hexDigit_mem _ (by omega)
  · simp only [Shared.Hex.ofString, Option.map_map]
    rfl

theorem readBig_foldl (xs : List Byte) : ∀ acc : Nat,
    xs.foldl (fun acc x => acc * 256 + x.val) acc =
      acc * 256 ^ xs.length + xs.foldl (fun acc x => acc * 256 + x.val) 0 := by
  induction xs with
  | nil => intro acc; simp
  | cons x xs ih =>
    intro acc
    rw [List.foldl_cons, ih, List.foldl_cons, ih (0 * 256 + x.val), List.length_cons, pow_succ]
    ring

theorem readBig_cons (x : Byte) (xs : List Byte) :
    Endian.readBig (x :: xs) = x.val * 256 ^ xs.length + Endian.readBig xs := by
  unfold Endian.readBig
  rw [List.foldl_cons, readBig_foldl]
  simp

theorem readBig_lt (xs : List Byte) : Endian.readBig xs < 256 ^ xs.length := by
  induction xs with
  | nil => simp [Endian.readBig]
  | cons x xs ih =>
    rw [readBig_cons, List.length_cons, pow_succ]
    have := x.isLt
    have h : x.val * 256 ^ xs.length + 256 ^ xs.length ≤ 256 * 256 ^ xs.length := by
      have : (x.val + 1) * 256 ^ xs.length ≤ 256 * 256 ^ xs.length :=
        Nat.mul_le_mul_right _ (by omega)
      rwa [Nat.add_mul, Nat.one_mul] at this
    rw [Nat.mul_comm (256 ^ xs.length) 256]
    omega

/-- The order of `Hex` is the order of the big-endian values, for byte strings
of one length. -/
theorem Hex.lt_iff_readBig : ∀ (a b : Hex), a.length = b.length →
    (Hex.lt a b = true ↔ Endian.readBig a < Endian.readBig b) := by
  intro a
  induction a with
  | nil =>
    intro b hb
    cases b with
    | nil => simp [Hex.lt, Endian.readBig]
    | cons _ _ => simp at hb
  | cons x xs ih =>
    intro b hb
    cases b with
    | nil => simp at hb
    | cons y ys =>
      simp only [List.length_cons, Nat.add_right_cancel_iff] at hb
      have ha := readBig_lt xs
      have hbb := readBig_lt ys
      rw [hb] at ha
      rw [readBig_cons, readBig_cons, hb, Hex.lt]
      by_cases h1 : x < y
      · rw [if_pos h1]
        have : (x.val + 1) * 256 ^ ys.length ≤ y.val * 256 ^ ys.length :=
          Nat.mul_le_mul_right _ h1
        rw [Nat.add_mul, Nat.one_mul] at this
        simp only [true_iff]
        omega
      · rw [if_neg h1]
        by_cases h2 : y < x
        · rw [if_pos h2]
          have : (y.val + 1) * 256 ^ ys.length ≤ x.val * 256 ^ ys.length :=
            Nat.mul_le_mul_right _ h2
          rw [Nat.add_mul, Nat.one_mul] at this
          simp only [Bool.false_eq_true, false_iff]
          omega
        · rw [if_neg h2]
          have hxy : x = y := by
            apply Fin.ext
            have := Fin.lt_def.not.mp h1
            have := Fin.lt_def.not.mp h2
            omega
          rw [hxy, ih ys hb]
          omega

theorem hexDigit_toNat (n : Nat) (h : n < 16) :
    (hexDigit n).toNat = if n < 10 then 48 + n else 87 + n := by
  interval_cases n <;> rfl

theorem StdString.lt_putHex (x y : Byte) (s t : StdString) :
    StdString.lt (putHex x ++ s) (putHex y ++ t) =
      if x < y then true else if y < x then false else StdString.lt s t := by
  have hx := x.isLt
  have hy := y.isLt
  have a1 : x.val / 16 < 16 := by omega
  have a0 : x.val % 16 < 16 := by omega
  have b1 : y.val / 16 < 16 := by omega
  have b0 : y.val % 16 < 16 := by omega
  simp only [putHex, List.cons_append, List.nil_append, StdString.lt, hexDigit_toNat _ a1,
    hexDigit_toNat _ a0, hexDigit_toNat _ b1, hexDigit_toNat _ b0, Fin.lt_def]
  split_ifs <;> first | rfl | omega

theorem StdString.lt_hex_strings : ∀ (a b : List Byte),
    StdString.lt (a.flatMap putHex) (b.flatMap putHex) = Hex.lt a b := by
  intro a
  induction a with
  | nil =>
    intro b
    cases b with
    | nil => rfl
    | cons y ys => simp [putHex, StdString.lt, Hex.lt]
  | cons x xs ih =>
    intro b
    cases b with
    | nil => simp [putHex, StdString.lt, Hex.lt]
    | cons y ys =>
      rw [List.flatMap_cons, List.flatMap_cons, StdString.lt_putHex, ih ys, Hex.lt]

/-- C14: for two byte arrays `a` and `b` of one size, `Hex(a).string()` is below
`Hex(b).string()` in the character-wise order of strings exactly when `a` is
below `b` as an unsigned big-endian integer, which is the lexicographic order of
the bytes. -/
theorem hex_string_order (a b : List Byte) (h : a.length = b.length) :
    (StdString.lt (Shared.Hex.ofArray a).string (Shared.Hex.ofArray b).string = true ↔
      Endian.readBig a < Endian.readBig b) ∧
    StdString.lt (Shared.Hex.ofArray a).string (Shared.Hex.ofArray b).string = Hex.lt a b := by
  have key := StdString.lt_hex_strings a b
  refine ⟨?_, key⟩
  simp only [Shared.Hex.ofArray, Shared.Hex.string] at key ⊢
  rw [key]
  exact Hex.lt_iff_readBig a b h

/-- The arrays `{0x09, 0xFF}` and `{0x0A, 0x00}`: `09ff` is below `0a00`, and
2559 is below 2560. -/
theorem hex_string_order_witness :
    (StdString.lt (Shared.Hex.ofArray [0x09, 0xFF]).string
        (Shared.Hex.ofArray [0x0A, 0x00]).string = true ↔
      Endian.readBig [0x09, 0xFF] < Endian.readBig [0x0A, 0x00]) ∧
    StdString.lt (Shared.Hex.ofArray [0x09, 0xFF]).string
        (Shared.Hex.ofArray [0x0A, 0x00]).string = Hex.lt [0x09, 0xFF] [0x0A, 0x00] :=
  hex_string_order [0x09, 0xFF] [0x0A, 0x00] rfl

/-! ## The bucket function (claims C17, C18) -/

theorem CascIndex.xorFold_lt (key : List Byte) : CascIndex.xorFold key < 256 := by
  unfold CascIndex.xorFold
  have : ∀ (l : List Byte) (x : Nat), x < 2 ^ 8 → l.foldl (fun x b => x ^^^ b.val) x < 2 ^ 8 := by
    intro l
    induction l with
    | nil => intro x hx; exact hx
    | cons b bs ih =>
      intro x hx
      exact ih _ (Nat.xor_lt_two_pow hx b.isLt)
  exact this key 0 (by decide)

/-- C17: for every 9-byte key the bucket is in `[0, 15]`, it is
`(x >> 4) XOR (x & 0x0F)` for the XOR `x` of the nine bytes, and it is the same
for an array and a vector that hold the same bytes. -/
theorem bucket_range_and_container (arr : Fin 9 → Byte) (vec : Array Byte)
    (h : vectorRange vec = arrayRange arr) :
    CascIndex.bucket (arrayRange arr) < 16 ∧
    CascIndex.bucket (arrayRange arr) =
      (((arr 0).val ^^^ (arr 1).val ^^^ (arr 2).val ^^^ (arr 3).val ^^^ (arr 4).val ^^^
        (arr 5).val ^^^ (arr 6).val ^^^ (arr 7).val ^^^ (arr 8).val) >>> 4) ^^^
      (((arr 0).val ^^^ (arr 1).val ^^^ (arr 2).val ^^^ (arr 3).val ^^^ (arr 4).val ^^^
        (arr 5).val ^^^ (arr 6).val ^^^ (arr 7).val ^^^ (arr 8).val) &&& 0x0F) ∧
    CascIndex.bucket (arrayRange arr) = CascIndex.bucket (vectorRange vec) := by
  refine ⟨?_, ?_, by rw [h]⟩
  · have hx := CascIndex.xorFold_lt (arrayRange arr)
    unfold CascIndex.bucket
    have h1 : CascIndex.xorFold (arrayRange arr) >>> 4 < 2 ^ 4 := by
      rw [Nat.shiftRight_eq_div_pow]
      omega
    have h2 : CascIndex.xorFold (arrayRange arr) &&& 0x0F < 2 ^ 4 :=
      Nat.and_lt_two_pow _ (by decide)
    exact Nat.xor_lt_two_pow h1 h2
  · simp [CascIndex.bucket, CascIndex.xorFold, arrayRange, List.ofFn_succ, Fin.succ]

/-- The array and the vector of the test `GetBucket`. -/
theorem bucket_range_and_container_witness :
    CascIndex.bucket (arrayRange (fun i : Fin 9 => testKey.get ⟨i.val, i.isLt⟩)) =
      CascIndex.bucket (vectorRange testKey.toArray) :=
  (bucket_range_and_container (fun i : Fin 9 => testKey.get ⟨i.val, i.isLt⟩)
    testKey.toArray (by decide)).2.2

/-- C18 (counterexample): for the key of the test `GetBucket` the XOR of the nine
bytes is not 0xCC and the bucket is not 0. -/
theorem bucket_test_key_not_zero :
    ¬ (CascIndex.xorFold testKey = 0xCC ∧ CascIndex.bucket testKey = 0x0) := by
  decide

/-- C18 (amended): for the key of the test `GetBucket` the XOR of the nine bytes
is 0xA6 and the bucket is `(0xA6 >> 4) XOR (0xA6 & 0x0F) = 0xA XOR 0x6 = 0xC`. -/
theorem bucket_test_key :
    CascIndex.xorFold testKey = 0xA6 ∧
    CascIndex.bucket testKey = (0xA6 >>> 4) ^^^ (0xA6 &&& 0x0F) ∧
    (0xA6 >>> 4) ^^^ (0xA6 &&& 0x0F) = 0xA ^^^ 0x6 ∧ 0xA ^^^ 0x6 = 0xC := by
  decide

/-! ## The terminator of a chunk body (claim C20) -/

/-- C20: on a chunk body whose first two bytes are zero the entry loop of
`searchTable` stops at once with no key, whatever follows; and on a body of
well-formed entries closed by the `key_count == 0` marker the result is the
lookup among the entries before the marker, whatever bytes come after it. -/
theorem scan_stops_at_terminator (hashSize : Nat) (target : Hex) (rest fill : List Byte)
    (entries : List EncodingEntry) (hw : ∀ e ∈ entries, e.WellFormed hashSize) :
    scanEntries (0 :: 0 :: rest) hashSize target (0 :: 0 :: rest).length 0 [] = .ok [] ∧
    scanEntries (encodeBody entries fill) hashSize target (encodeBody entries fill).length 0 []
      = .ok (lookupKeys target entries) := by
  refine ⟨?_, scanEntries_body hashSize target entries fill hw⟩
  have := scanEntries_body hashSize target [] rest (by simp)
  simpa [encodeBody, lookupKeys] using this

/-- A body whose bytes after the marker spell an entry for `exampleHash`: the
lookup of `exampleHash` still gives no key. -/
theorem scan_stops_at_terminator_witness :
    scanEntries (0 :: 0 :: exampleTail) 16 exampleHash (0 :: 0 :: exampleTail).length 0 []
      = .ok [] ∧
    scanEntries (encodeBody [⟨zeroHash, 1, [exampleKey]⟩] exampleFill) 16 exampleHash
        (encodeBody [⟨zeroHash, 1, [exampleKey]⟩] exampleFill).length 0 []
      = .ok (lookupKeys exampleHash [⟨zeroHash, 1, [exampleKey]⟩]) :=
  scan_stops_at_terminator 16 exampleHash exampleTail exampleFill
    [⟨zeroHash, 1, [exampleKey]⟩]
    (by
      intro e he
      rw [List.mem_singleton] at he
      rw [he]
      simp [EncodingEntry.WellFormed, zeroHash, exampleKey])

/-! ## The legacy lookup (claim C19) -/

theorem Legacy.scanChunk_returns (data : List Byte) (hexData : Option (List Byte))
    (key : StdString) (fuel : Nat) :
    ∀ off, Legacy.scanChunk data hexData fuel off = .ok (some key) →
      ∃ d, hexData = some d ∧ key = (Shared.Hex.ofArray (d.take 9)).string := by
  induction fuel with
  | zero => intro off h; simp [Legacy.scanChunk] at h
  | succ f ih =>
    intro off h
    rw [Legacy.scanChunk] at h
    cases hu : slice data off 2 with
    | none => rw [hu] at h; cases h
    | some unk =>
      rw [hu] at h
      simp only at h
      split at h
      · cases h
      · cases hh : slice data (off + 6) 16 with
        | none => rw [hh] at h; cases h
        | some hash =>
          rw [hh] at h
          simp only at h
          split at h
          · cases h
          · split at h
            · next heq =>
              injection h with h
              injection h with h
              exact ⟨hash, heq, h.symm⟩
            · exact ih _ h

theorem Legacy.searchHeads_returns (hash : StdString) (hexData : Option (List Byte))
    (size offset : Nat) (key : StdString) (heads : List ChunkHead) :
    ∀ (i : Nat) (s s1 : IStream),
      Legacy.searchHeads hash hexData size offset heads i s = .ok (some key, s1) →
      ∃ d, hexData = some d ∧ key = (Shared.Hex.ofArray (d.take 9)).string := by
  induction heads with
  | nil => intro i s s1 h; simp [Legacy.searchHeads] at h
  | cons head rest ih =>
    intro i s s1 h
    rw [Legacy.searchHeads] at h
    split at h
    · rcases hr : (s.seekgBeg (offset + (ChunkBodySize * i) % 2 ^ 32)).read 4096 with ⟨o, s2⟩
      rw [hr] at h
      cases o with
      | none => cases h
      | some data =>
        simp only at h
        cases hsc : Legacy.scanChunk data hexData data.length 0 with
        | ok r =>
          rw [hsc] at h
          cases r with
          | none => exact ih _ _ _ h
          | some k =>
            simp only at h
            injection h with h
            injection h with h1 h2
            injection h1 with h1
            rw [← h1]
            exact Legacy.scanChunk_returns data hexData k _ _ hsc
        | throws w => rw [hsc] at h; cases h
        | undefined => rw [hsc] at h; cases h
    · exact ih _ _ _ h

/-- C19 (the code, on every input): whenever the legacy `findKey(hash)` returns,
the returned string is the hex form of the first nine bytes of the content hash
that was asked for (`chunk->hash` is copied, not `chunk->key`): it is fixed by
`hash` alone and carries nothing of the key field of the entry. -/
theorem legacy_findKey_returns_hash_bytes (self : Legacy.CascEncoding) (hash key : StdString)
    (h : Legacy.findKey self hash = .ok key) :
    ∃ hex, Shared.Hex.ofString 16 hash = some hex ∧
      key = (Shared.Hex.ofArray (hex.data.take 9)).string := by
  have conv : ∀ d, (Shared.Hex.ofString 16 hash).map Shared.Hex.data = some d →
      ∃ hex, Shared.Hex.ofString 16 hash = some hex ∧ hex.data = d := by
    intro d hd
    cases ho : Shared.Hex.ofString 16 hash with
    | none => rw [ho] at hd; cases hd
    | some hex =>
      rw [ho] at hd
      exact ⟨hex, rfl, by simpa using hd⟩
  unfold Legacy.findKey at h
  cases hA : Legacy.searchHeads hash ((Shared.Hex.ofString 16 hash).map Shared.Hex.data)
      self.chunkHeadsA.length self.chunksOffsetA self.chunkHeadsA 0 self.stream with
  | ok r =>
    rw [hA] at h
    rcases r with ⟨_ | k, s1⟩
    · simp only at h
      cases hB : Legacy.searchHeads hash ((Shared.Hex.ofString 16 hash).map Shared.Hex.data)
          self.chunkHeadsB.length self.chunksOffsetB self.chunkHeadsB 0 s1 with
      | ok r2 =>
        rw [hB] at h
        rcases r2 with ⟨_ | k2, s2⟩
        · cases h
        · simp only at h
          injection h with h
          obtain ⟨d, hd, hk⟩ := Legacy.searchHeads_returns _ _ _ _ _ _ _ _ _ hB
          obtain ⟨hex, h1, h2⟩ := conv d hd
          exact ⟨hex, h1, by rw [← h, hk, h2]⟩
      | throws w => rw [hB] at h; cases h
      | undefined => rw [hB] at h; cases h
    · simp only at h
      injection h with h
      obtain ⟨d, hd, hk⟩ := Legacy.searchHeads_returns _ _ _ _ _ _ _ _ _ hA
      obtain ⟨hex, h1, h2⟩ := conv d hd
      exact ⟨hex, h1, by rw [← h, hk, h2]⟩
  | throws w => rw [hA] at h; cases h
  | undefined => rw [hA] at h; cases h

set_option maxRecDepth 1000000 in
/-- The single-chunk table whose entry maps `exampleHash` (fifteen zero bytes,
then 5) to `exampleKey` (sixteen bytes 7): `findKey` returns eighteen zeros, the
first nine bytes of the hash, and not `070707070707070707`. -/
theorem legacy_findKey_returns_hash_bytes_witness :
    (∃ hex, Shared.Hex.ofString 16 "00000000000000000000000000000005".toList = some hex ∧
      "000000000000000000".toList = (Shared.Hex.ofArray (hex.data.take 9)).string) ∧
    Legacy.findKey Legacy.exampleEncoding "00000000000000000000000000000005".toList
      = .ok "000000000000000000".toList ∧
    (Shared.Hex.ofArray (exampleKey.take 9)).string = "070707070707070707".toList :=
  ⟨legacy_findKey_returns_hash_bytes Legacy.exampleEncoding
      "00000000000000000000000000000005".toList "000000000000000000".toList (by decide!),
    by decide!, by decide⟩

/-! ## MD5 (claims C15 and C16) -/

theorem MD5.absorb_short (self : MD5) (l : List Byte) (h : l.length < 64) :
    MD5.absorb self l = (self, l) := by
  rw [MD5.absorb, dif_neg (by omega)]

theorem MD5.absorb_long (self : MD5) (l : List Byte) (h : 64 ≤ l.length) :
    MD5.absorb self l = MD5.absorb (self.transform (l.take 64)) (l.drop 64) := by
  rw [MD5.absorb, dif_pos h]

theorem MD5.absorb_append (l ys : List Byte) : ∀ (self : MD5),
    MD5.absorb self (l ++ ys) = MD5.absorb (MD5.absorb self l).1 ((MD5.absorb self l).2 ++ ys) := by
  generalize hn : l.length = n
  induction n using Nat.strong_induction_on generalizing l with
  | _ n ih =>
    subst hn
    intro self
    by_cases h : 64 ≤ l.length
    · rw [MD5.absorb_long self (l ++ ys) (by simp; omega), MD5.absorb_long self l h,
        List.take_append_of_le_length h, List.drop_append_of_le_length h]
      exact ih (l.drop 64).length (by simp; omega) (l.drop 64) rfl _
    · rw [MD5.absorb_short self l (by omega)]

theorem MD5.absorb_rest_lt (l : List Byte) : ∀ (self : MD5), (MD5.absorb self l).2.length < 64 := by
  generalize hn : l.length = n
  induction n using Nat.strong_induction_on generalizing l with
  | _ n ih =>
    subst hn
    intro self
    by_cases h : 64 ≤ l.length
    · rw [MD5.absorb_long self l h]
      exact ih (l.drop 64).length (by simp; omega) (l.drop 64) rfl _
    · rw [MD5.absorb_short self l (by omega)]; simp; omega

theorem MD5.absorb_rest_length (l : List Byte) :
    ∀ (self : MD5), (MD5.absorb self l).2.length = l.length % 64 := by
  generalize hn : l.length = n
  induction n using Nat.strong_induction_on generalizing l with
  | _ n ih =>
    subst hn
    intro self
    by_cases h : 64 ≤ l.length
    · rw [MD5.absorb_long self l h, ih (l.drop 64).length (by simp; omega) (l.drop 64) rfl _]
      simp; omega
    · rw [MD5.absorb_short self l (by omega)]; simp; omega

theorem MD5.transform_buffer (self : MD5) (block : List Byte) :
    (self.transform block).buffer = self.buffer := by
  simp only [MD5.transform]

theorem MD5.transform_count0 (self : MD5) (block : List Byte) :
    (self.transform block).count0 = self.count0 := by
  simp only [MD5.transform]

theorem MD5.transform_count1 (self : MD5) (block : List Byte) :
    (self.transform block).count1 = self.count1 := by
  simp only [MD5.transform]

theorem MD5.transform_finalized (self : MD5) (block : List Byte) :
    (self.transform block).finalized = self.finalized := by
  simp only [MD5.transform]

theorem MD5.transform_digest (self : MD5) (block : List Byte) :
    (self.transform block).digest = self.digest := by
  simp only [MD5.transform]

theorem MD5.transform_congr (s t : MD5) (block : List Byte) (h : s.state = t.state) :
    (s.transform block).state = (t.transform block).state := by
  simp only [MD5.state, Prod.mk.injEq] at h
  obtain ⟨h0, h1, h2, h3⟩ := h
  simp only [MD5.state, MD5.transform, h0, h1, h2, h3]

theorem MD5.absorb_buffer (l : List Byte) : ∀ (self : MD5),
    (MD5.absorb self l).1.buffer = self.buffer ∧ (MD5.absorb self l).1.count0 = self.count0 ∧
    (MD5.absorb self l).1.count1 = self.count1 ∧
    (MD5.absorb self l).1.finalized = self.finalized ∧
    (MD5.absorb self l).1.digest = self.digest := by
  generalize hn : l.length = n
  induction n using Nat.strong_induction_on generalizing l with
  | _ n ih =>
    subst hn
    intro self
    by_cases h : 64 ≤ l.length
    · rw [MD5.absorb_long self l h]
      have := ih (l.drop 64).length (by simp; omega) (l.drop 64) rfl (self.transform (l.take 64))
      rw [MD5.transform_buffer, MD5.transform_count0, MD5.transform_count1,
        MD5.transform_finalized, MD5.transform_digest] at this
      exact this
    · rw [MD5.absorb_short self l (by omega)]
      exact ⟨rfl, rfl, rfl, rfl, rfl⟩

theorem MD5.absorb_congr (l : List Byte) : ∀ (s t : MD5), s.state = t.state →
    (MD5.absorb s l).1.state = (MD5.absorb t l).1.state ∧ (MD5.absorb s l).2 = (MD5.absorb t l).2 := by
  generalize hn : l.length = n
  induction n using Nat.strong_induction_on generalizing l with
  | _ n ih =>
    subst hn
    intro s t hst
    by_cases h : 64 ≤ l.length
    · rw [MD5.absorb_long s l h, MD5.absorb_long t l h]
      exact ih (l.drop 64).length (by simp; omega) (l.drop 64) rfl _ _
        (MD5.transform_congr s t _ hst)
    · rw [MD5.absorb_short s l (by omega), MD5.absorb_short t l (by omega)]
      exact ⟨hst, rfl⟩

theorem MD5.updateBlocks_eq (input : List Byte) (length : Nat) (hlen : length ≤ input.length)
    (hb : length + 64 < 2 ^ 32) : ∀ (fuel : Nat) (self : MD5) (i : Nat), i ≤ length →
    (length - i) / 64 < fuel →
    ∃ j, MD5.updateBlocks input length fuel self i
        = some ((MD5.absorb self ((input.take length).drop i)).1, j) ∧
      i ≤ j ∧ j ≤ length ∧
      (input.take length).drop j = (MD5.absorb self ((input.take length).drop i)).2 := by
  intro fuel
  induction fuel with
  | zero => intro self i _ h; omega
  | succ fuel ih =>
    intro self i hi hf
    have hm : (i + 64) % 2 ^ 32 = i + 64 := Nat.mod_eq_of_lt (by omega)
    rw [MD5.updateBlocks, hm]
    by_cases hc : i + 64 ≤ length
    · rw [if_pos hc]
      have hs : slice input i 64 = some ((input.drop i).take 64) := by
        unfold slice; rw [if_pos (by omega)]
      rw [hs]
      have hL : 64 ≤ ((input.take length).drop i).length := by
        rw [List.length_drop, List.length_take]; omega
      have ht : ((input.take length).drop i).take 64 = (input.drop i).take 64 := by
        rw [List.drop_take, List.take_take, Nat.min_eq_left (by omega)]
      obtain ⟨j, h1, h2, h3, h4⟩ := ih (self.transform ((input.drop i).take 64)) (i + 64) hc
        (by omega)
      refine ⟨j, ?_, by omega, h3, ?_⟩
      · rw [MD5.absorb_long self _ hL, ht, List.drop_drop]
        exact h1
      · rw [MD5.absorb_long self _ hL, ht, List.drop_drop]
        exact h4
    · rw [if_neg hc]
      have hL : ((input.take length).drop i).length < 64 := by
        rw [List.length_drop, List.length_take]; omega
      exact ⟨i, by rw [MD5.absorb_short self _ hL], Nat.le_refl _, hi,
        by rw [MD5.absorb_short self _ hL]⟩

theorem MD5.memcpy_eq (buffer : List Byte) (index : Nat) (src : List Byte)
    (h : index + src.length ≤ 64) :
    MD5.memcpy buffer index src
      = some (buffer.take index ++ src ++ buffer.drop (index + src.length)) := by
  rw [MD5.memcpy, if_pos h]

theorem MD5.count_step (c0 c1 length : Nat) (h0 : c0 < 2 ^ 32) (h1 : c1 < 2 ^ 32)
    (h8 : c0 % 8 = 0) (hl : length < 2 ^ 32) :
    let n0 := (c0 + (length <<< 3) % 2 ^ 32) % 2 ^ 32
    let n1 := ((if n0 < (length <<< 3) % 2 ^ 32 then (c1 + 1) % 2 ^ 32 else c1)
      + (length >>> 29)) % 2 ^ 32
    n0 < 2 ^ 32 ∧ n1 < 2 ^ 32 ∧ n0 % 8 = 0 ∧
    n1 * 2 ^ 32 + n0 = (c1 * 2 ^ 32 + c0 + 8 * length) % 2 ^ 64 ∧
    n0 / 8 % 64 = (c0 / 8 % 64 + length) % 64 := by
  intro n0 n1
  have e3 : length <<< 3 = length * 8 := by rw [Nat.shiftLeft_eq]
  have e29 : length >>> 29 = length / 536870912 := by rw [Nat.shiftRight_eq_div_pow]
  simp only [n1, n0, e3, e29]
  norm_num at h0 h1 hl ⊢
  split <;> omega

theorem MD5.pending_length (s : MD5) (hv : s.Valid) :
    s.pending.length = s.count0 / 8 % 64 := by
  rw [MD5.pending, List.length_take, hv.1]
  omega

set_option maxHeartbeats 1000000 in
theorem MD5.update_spec (s : MD5) (input : List Byte) (length : Nat) (hv : s.Valid)
    (hlen : length ≤ input.length) (hb : length + 64 < 2 ^ 32) :
    ∃ r, s.update input length = some r ∧ r.Valid ∧
      r.state = (MD5.absorb s (s.pending ++ input.take length)).1.state ∧
      r.pending = (MD5.absorb s (s.pending ++ input.take length)).2 ∧
      r.bitCount = (s.bitCount + 8 * length) % 2 ^ 64 ∧
      r.finalized = s.finalized ∧ r.digest = s.digest := by
  obtain ⟨hbuf, h0, h1, h8⟩ := hv
  have hpl : s.pending.length = s.count0 / 8 % 64 := MD5.pending_length s ⟨hbuf, h0, h1, h8⟩
  have hl32 : length < 2 ^ 32 := by omega
  have hidx : s.count0 / 8 % 64 < 64 := Nat.mod_lt _ (by decide)
  have hTl : (input.take length).length = length := by rw [List.length_take]; omega
  rw [MD5.update]
  dsimp only
  by_cases hc : length ≥ 64 - s.count0 / 8 % 64
  · rw [if_pos hc]
    have hs : slice input 0 (64 - s.count0 / 8 % 64) = some (input.take (64 - s.count0 / 8 % 64)) := by
      unfold slice; rw [if_pos (by omega), List.drop_zero]
    have hfl : (input.take (64 - s.count0 / 8 % 64)).length = 64 - s.count0 / 8 % 64 := by
      rw [List.length_take]; omega
    have hm := MD5.memcpy_eq s.buffer (s.count0 / 8 % 64) (input.take (64 - s.count0 / 8 % 64))
      (by rw [hfl]; omega)
    have hd : s.buffer.drop (s.count0 / 8 % 64 + (input.take (64 - s.count0 / 8 % 64)).length)
        = [] := by
      rw [List.drop_eq_nil_iff, hfl, hbuf]; omega
    rw [hd, List.append_nil] at hm
    rw [hs, Option.some_bind, hm, Option.some_bind]
    generalize hself : MD5.transform _ _ = self2
    obtain ⟨j, e1, e2, e3, e4⟩ := MD5.updateBlocks_eq input length hlen hb (length / 64 + 1) self2
      (64 - s.count0 / 8 % 64) hc (by omega)
    have hrl := MD5.absorb_rest_length ((input.take length).drop (64 - s.count0 / 8 % 64)) self2
    rw [← e4] at hrl
    simp only [List.length_drop, hTl] at hrl
    have hs2 : slice input j ((length + 2 ^ 32 - j) % 2 ^ 32) = some ((input.take length).drop j) := by
      have : (length + 2 ^ 32 - j) % 2 ^ 32 = length - j := by omega
      unfold slice
      rw [this, if_pos (by omega), List.drop_take]
    have hjl : ((input.take length).drop j).length = length - j := by
      rw [List.length_drop, hTl]
    rw [e1, Option.some_bind]
    dsimp only
    rw [hs2, Option.some_bind, MD5.memcpy_eq _ _ _ (by rw [hjl]; omega), Option.some_bind]
    have hab := MD5.absorb_buffer ((input.take length).drop (64 - s.count0 / 8 % 64)) self2
    have hL : 64 ≤ (s.pending ++ input.take length).length := by
      rw [List.length_append, hpl, hTl]; omega
    have htk : (s.pending ++ input.take length).take 64
        = s.buffer.take (s.count0 / 8 % 64) ++ input.take (64 - s.count0 / 8 % 64) := by
      rw [List.take_append_eq_append_take, List.take_of_length_le (by omega), hpl, List.take_take,
        Nat.min_eq_left (by omega)]
      rfl
    have hdr : (s.pending ++ input.take length).drop 64
        = (input.take length).drop (64 - s.count0 / 8 % 64) := by
      rw [List.drop_append_eq_append_drop, List.drop_of_length_le (by omega), hpl, List.nil_append]
    have hcg := MD5.absorb_congr ((input.take length).drop (64 - s.count0 / 8 % 64)) self2
      (s.transform (s.buffer.take (s.count0 / 8 % 64) ++ input.take (64 - s.count0 / 8 % 64)))
      (by rw [← hself]; exact MD5.transform_congr _ _ _ rfl)
    rw [MD5.absorb_long s _ hL, htk, hdr, ← hcg.1, ← hcg.2]
    have hb2 : self2.buffer.length = 64 := by
      rw [← hself, MD5.transform_buffer]
      simp only [List.length_append, List.length_take, hbuf]
      omega
    have hc0 : self2.count0 = (s.count0 + (length <<< 3) % 2 ^ 32) % 2 ^ 32 := by
      rw [← hself, MD5.transform_count0]
    have hc1 : self2.count1 = ((if (s.count0 + (length <<< 3) % 2 ^ 32) % 2 ^ 32
        < (length <<< 3) % 2 ^ 32 then (s.count1 + 1) % 2 ^ 32 else s.count1)
        + (length >>> 29)) % 2 ^ 32 := by
      rw [← hself, MD5.transform_count1]
    have hfin : self2.finalized = s.finalized := by rw [← hself, MD5.transform_finalized]
    have hdig : self2.digest = s.digest := by rw [← hself, MD5.transform_digest]
    have hbl : (List.take 0 (MD5.absorb self2
        ((input.take length).drop (64 - s.count0 / 8 % 64))).1.buffer
        ++ (input.take length).drop j
        ++ List.drop (0 + ((input.take length).drop j).length) (MD5.absorb self2
          ((input.take length).drop (64 - s.count0 / 8 % 64))).1.buffer).length = 64 := by
      simp only [List.length_append, List.length_take, List.length_drop, hab.1, hb2, hjl]
      omega
    have hrl2 : (s.count0 / 8 % 64 + length) % 64 = length - j := by omega
    clear hrl e2 hL
    obtain ⟨c0, c1, c8, cb, ci⟩ := MD5.count_step s.count0 s.count1 length h0 h1 h8 hl32
    refine ⟨_, rfl, ⟨hbl, ?_, ?_, ?_⟩, rfl, ?_, ?_, ?_, ?_⟩
    · show (MD5.absorb self2 _).1.count0 < 2 ^ 32
      rw [hab.2.1, hc0]; exact c0
    · show (MD5.absorb self2 _).1.count1 < 2 ^ 32
      rw [hab.2.2.1, hc1]; exact c1
    · show (MD5.absorb self2 _).1.count0 % 8 = 0
      rw [hab.2.1, hc0]; exact c8
    · show List.take ((MD5.absorb self2 _).1.count0 / 8 % 64) _ = _
      rw [hab.2.1, hc0, ci, hrl2, ← e4, List.take_zero, List.nil_append,
        List.take_append_of_le_length (by rw [hjl]), List.take_of_length_le (by rw [hjl])]
    · show (MD5.absorb self2 _).1.count1 * 2 ^ 32 + (MD5.absorb self2 _).1.count0 = _
      rw [hab.2.1, hab.2.2.1, hc0, hc1]; exact cb
    · show (MD5.absorb self2 _).1.finalized = _
      rw [hab.2.2.2.1, hfin]
    · show (MD5.absorb self2 _).1.digest = _
      rw [hab.2.2.2.2, hdig]
  · rw [if_neg hc]
    have hs : slice input 0 length = some (input.take length) := by
      unfold slice; rw [if_pos (by omega), List.drop_zero]
    rw [hs, Option.some_bind, MD5.memcpy_eq _ _ _ (by rw [hTl]; omega), Option.some_bind]
    have hL : (s.pending ++ input.take length).length < 64 := by
      rw [List.length_append, hpl, hTl]; omega
    rw [MD5.absorb_short s _ hL]
    have hbl : (List.take (s.count0 / 8 % 64) s.buffer ++ input.take length
        ++ List.drop (s.count0 / 8 % 64 + (input.take length).length) s.buffer).length = 64 := by
      simp only [List.length_append, List.length_take, List.length_drop, hbuf, hTl]
      omega
    have hmm : (s.count0 / 8 % 64 + length) % 64 = s.count0 / 8 % 64 + length :=
      Nat.mod_eq_of_lt (by omega)
    obtain ⟨c0, c1, c8, cb, ci⟩ := MD5.count_step s.count0 s.count1 length h0 h1 h8 hl32
    refine ⟨_, rfl, ⟨hbl, c0, c1, c8⟩, rfl, ?_, cb, rfl, rfl⟩
    · show List.take _ _ = _
      rw [ci, hmm, hTl, List.append_assoc, ← hpl]
      rw [show s.buffer.take s.pending.length = s.pending by rw [hpl]; rfl]
      rw [← List.append_assoc, List.take_append_of_le_length (by simp [hTl]),
        List.take_of_length_le (by simp [hTl])]

theorem MD5.update_fed (s : MD5) (input : List Byte) (length : Nat) (hv : s.Valid)
    (hlen : length ≤ input.length) (hb : length + 64 < 2 ^ 32) :
    ∃ r, s.update input length = some r ∧ MD5.Fed s (input.take length) r := by
  obtain ⟨r, h, h1, h2, h3, h4, h5, h6⟩ := MD5.update_spec s input length hv hlen hb
  refine ⟨r, h, h1, h2, h3, ?_, h5, h6⟩
  rw [h4, List.length_take, Nat.min_eq_left hlen]

theorem MD5.fed_nil (s : MD5) (hv : s.Valid) : MD5.Fed s [] s := by
  have hpl := MD5.pending_length s hv
  have hidx : s.count0 / 8 % 64 < 64 := Nat.mod_lt _ (by decide)
  have hsh := MD5.absorb_short s (s.pending ++ []) (by rw [List.append_nil, hpl]; exact hidx)
  refine ⟨hv, by rw [hsh], by rw [hsh, List.append_nil], ?_, rfl, rfl⟩
  obtain ⟨_, h0, h1, _⟩ := hv
  rw [MD5.bitCount]
  norm_num at h0 h1 ⊢
  omega

theorem MD5.fed_trans (s r t : MD5) (xs ys : List Byte) (h1 : MD5.Fed s xs r)
    (h2 : MD5.Fed r ys t) : MD5.Fed s (xs ++ ys) t := by
  obtain ⟨_, a2, a3, a4, a5, a6⟩ := h1
  obtain ⟨b1, b2, b3, b4, b5, b6⟩ := h2
  have hc := MD5.absorb_congr (r.pending ++ ys) r (MD5.absorb s (s.pending ++ xs)).1 a2
  rw [a3, ← MD5.absorb_append] at hc
  rw [a3] at b2 b3
  refine ⟨b1, ?_, ?_, ?_, b5.trans a5, b6.trans a6⟩
  · rw [← List.append_assoc, ← hc.1]; exact b2
  · rw [← List.append_assoc, ← hc.2]; exact b3
  · rw [b4, a4, List.length_append]
    generalize s.bitCount = n
    norm_num
    omega

theorem MD5.updates_fed : ∀ (pieces : List (List Byte)) (s : MD5), s.Valid →
    (∀ p ∈ pieces, p.length + 64 < 2 ^ 32) →
    ∃ r, MD5.updates s pieces = some r ∧ MD5.Fed s pieces.flatten r := by
  intro pieces
  induction pieces with
  | nil => intro s hv _; exact ⟨s, rfl, MD5.fed_nil s hv⟩
  | cons p ps ih =>
    intro s hv hp
    obtain ⟨r, h1, h2⟩ := MD5.update_fed s p p.length hv (Nat.le_refl _)
      (hp p (List.mem_cons_self _ _))
    rw [List.take_length] at h2
    obtain ⟨t, h3, h4⟩ := ih r h2.1 (fun q hq => hp q (List.mem_cons_of_mem _ hq))
    refine ⟨t, ?_, ?_⟩
    · rw [MD5.updates, h1, Option.some_bind]; exact h3
    · rw [List.flatten_cons]; exact MD5.fed_trans s r t _ _ h2 h4

theorem MD5.encode_length (l : List Nat) : (MD5.encode l).length = 4 * l.length := by
  induction l with
  | nil => rfl
  | cons w l ih => simp only [MD5.encode, List.length_cons, ih]; omega

theorem MD5.finalize_same (r t : MD5) (h : MD5.Same r t) :
    ∃ d, r.finalize = some d ∧ t.finalize = some d ∧ d.finalized = true := by
  obtain ⟨a1, b1, hst, hpe, hbc, a5, b5⟩ := h
  have hc0 : r.count0 = t.count0 := by
    have h1 := a1.2.1; have h2 := b1.2.1
    simp only [MD5.bitCount] at hbc
    norm_num at h1 h2 hbc
    omega
  have hc1 : r.count1 = t.count1 := by
    simp only [MD5.bitCount] at hbc
    norm_num at hbc
    omega
  have hidx : r.count0 / 8 % 64 < 64 := Nat.mod_lt _ (by decide)
  rw [MD5.finalize, MD5.finalize, if_neg (by rw [a5]; simp), if_neg (by rw [b5]; simp)]
  dsimp only
  rw [← hc0, ← hc1]
  generalize hpad : (if r.count0 / 8 % 64 < 56 then 56 - r.count0 / 8 % 64
    else 120 - r.count0 / 8 % 64) = padLen
  have hpl : padLen ≤ 64 := by rw [← hpad]; split <;> omega
  have hpadl : MD5.padding.length = 64 := by simp [MD5.padding]
  obtain ⟨r1, e1, f1⟩ := MD5.update_fed r MD5.padding padLen a1 (by rw [hpadl]; exact hpl)
    (by omega)
  obtain ⟨t1, e2, f2⟩ := MD5.update_fed t MD5.padding padLen b1 (by rw [hpadl]; exact hpl)
    (by omega)
  have hbl : (MD5.encode [r.count0, r.count1]).length = 8 := MD5.encode_length _
  obtain ⟨r2, e3, f3⟩ := MD5.update_fed r1 (MD5.encode [r.count0, r.count1]) 8 f1.1
    (by rw [hbl]) (by decide)
  obtain ⟨t2, e4, f4⟩ := MD5.update_fed t1 (MD5.encode [r.count0, r.count1]) 8 f2.1
    (by rw [hbl]) (by decide)
  have g1 := MD5.fed_trans r r1 r2 _ _ f1 f3
  have g2 := MD5.fed_trans t t1 t2 _ _ f2 f4
  have hcg := MD5.absorb_congr (r.pending ++ (MD5.padding.take padLen
    ++ (MD5.encode [r.count0, r.count1]).take 8)) r t hst
  have hs2 : r2.state = t2.state := by
    rw [g1.2.1, g2.2.1, ← hpe]; exact hcg.1
  simp only [MD5.state, Prod.mk.injEq] at hs2
  rw [e1, e2, Option.some_bind, Option.some_bind, e3, e4, Option.some_bind, Option.some_bind,
    hs2.1, hs2.2.1, hs2.2.2.1, hs2.2.2.2]
  exact ⟨_, rfl, rfl, rfl⟩

theorem MD5.fed_same (r t s : MD5) (l : List Byte) (hr : MD5.Fed s l r) (ht : MD5.Fed s l t)
    (hf : s.finalized = false) : MD5.Same r t :=
  ⟨hr.1, ht.1, hr.2.1.trans ht.2.1.symm, hr.2.2.1.trans ht.2.2.1.symm,
    hr.2.2.2.1.trans ht.2.2.2.1.symm, hr.2.2.2.2.1.trans hf, ht.2.2.2.2.1.trans hf⟩

theorem MD5.update_same (r t : MD5) (input : List Byte) (length : Nat) (h : MD5.Same r t)
    (hlen : length ≤ input.length) (hb : length + 64 < 2 ^ 32) :
    ∃ r1 t1, r.update input length = some r1 ∧ t.update input length = some t1 ∧
      MD5.Same r1 t1 := by
  obtain ⟨a1, b1, hst, hpe, hbc, a5, b5⟩ := h
  obtain ⟨r1, e1, f1⟩ := MD5.update_fed r input length a1 hlen hb
  obtain ⟨t1, e2, f2⟩ := MD5.update_fed t input length b1 hlen hb
  have hcg := MD5.absorb_congr (r.pending ++ input.take length) r t hst
  refine ⟨r1, t1, e1, e2, f1.1, f2.1, ?_, ?_, ?_, f1.2.2.2.2.1.trans a5, f2.2.2.2.2.1.trans b5⟩
  · rw [f1.2.1, f2.2.1, ← hpe]; exact hcg.1
  · rw [f1.2.2.1, f2.2.2.1, ← hpe]; exact hcg.2
  · rw [f1.2.2.2.1, f2.2.2.2.1, hbc]

theorem MD5.init_valid (self : MD5) (h : self.buffer.length = 64) : self.init.Valid :=
  ⟨h, by show 0 < 2 ^ 32; decide, by show 0 < 2 ^ 32; decide, rfl⟩

theorem MD5.init_pending (self : MD5) : self.init.pending = [] := by
  show List.take (0 / 8 % 64) _ = []
  rfl

theorem MD5.init_same (r t : MD5) (hr : r.buffer.length = 64) (ht : t.buffer.length = 64) :
    MD5.Same r.init t.init :=
  ⟨MD5.init_valid r hr, MD5.init_valid t ht, rfl, by rw [MD5.init_pending, MD5.init_pending],
    rfl, rfl, rfl⟩

theorem md5String_storage (r t : MD5) (hr : r.buffer.length = 64) (ht : t.buffer.length = 64)
    (str : StdString) (hl : str.length + 64 < 2 ^ 32) : md5String r str = md5String t str := by
  have hc : str.c_str.length = str.length + 1 := by simp [StdString.c_str]
  have hm : str.length % 2 ^ 32 = str.length := Nat.mod_eq_of_lt (by omega)
  obtain ⟨r1, t1, e1, e2, hs⟩ := MD5.update_same r.init t.init str.c_str str.length
    (MD5.init_same r t hr ht) (by omega) hl
  obtain ⟨d, f1, f2, _⟩ := MD5.finalize_same r1 t1 hs
  rw [md5String, md5String, MD5.ofString, MD5.ofString, hm, e1, e2, Option.some_bind,
    Option.some_bind, f1, f2]

set_option maxRecDepth 1000000 in
/-- C15: the function `md5` gives the values of the test suite of RFC 1321 for
the strings "", "a", "abc" and "message digest", whatever the storage of its
local object held before (`uint4` sums are taken modulo 2^32 throughout the
definitions). -/
theorem md5_rfc1321_test_suite (self : MD5) (h : self.buffer.length = 64) :
    md5String self "".toList = some "d41d8cd98f00b204e9800998ecf8427e".toList ∧
    md5String self "a".toList = some "0cc175b9c0f1b6a831c399e269772661".toList ∧
    md5String self "abc".toList = some "900150983cd24fb0d6963f7d28e17f72".toList ∧
    md5String self "message digest".toList = some "f96b697d7cb7938d525a2f31aaf161d0".toList := by
  have hz : MD5.zeroed.buffer.length = 64 := by decide
  refine ⟨?_, ?_, ?_, ?_⟩
  · rw [md5String_storage self MD5.zeroed h hz _ (by decide)]; decide!
  · rw [md5String_storage self MD5.zeroed h hz _ (by decide)]; decide!
  · rw [md5String_storage self MD5.zeroed h hz _ (by decide)]; decide!
  · rw [md5String_storage self MD5.zeroed h hz _ (by decide)]; decide!

/-- Witness for C15: storage filled with zero bytes. -/
theorem md5_rfc1321_test_suite_witness :
    MD5.zeroed.buffer.length = 64 ∧
    md5String MD5.zeroed "".toList = some "d41d8cd98f00b204e9800998ecf8427e".toList :=
  ⟨by decide, (md5_rfc1321_test_suite MD5.zeroed (by decide)).1⟩

theorem MD5.readBlocks_fed (length : Nat) (hL : length + 4096 ≤ 2 ^ 32) :
    ∀ (fuel : Nat) (self : MD5) (stream : IStream) (buf : List Byte) (i : Nat), self.Valid →
    buf.length = 4096 → stream.fail = false →
    stream.pos + (length - i) ≤ stream.bytes.length → (length - i + 4095) / 4096 < fuel →
    ∃ r st reads, MD5.readBlocks length fuel self stream buf i = some (r, st, reads) ∧
      MD5.Fed self ((stream.bytes.drop stream.pos).take (length - i)) r ∧
      st.fail = false ∧ st.bytes = stream.bytes ∧ reads.sum = length - i := by
  intro fuel
  induction fuel with
  | zero => intro self stream buf i _ _ _ _ h; omega
  | succ fuel ih =>
    intro self stream buf i hv hbuf hfail hpos hfuel
    rw [MD5.readBlocks]
    by_cases hi : i < length
    · rw [if_pos hi]
      dsimp only
      have hsub : (length + 2 ^ 32 - i) % 2 ^ 32 = length - i := by omega
      rw [hsub]
      generalize hcount : min (length - i) 4096 = count
      have hc1 : count ≤ length - i := by omega
      have hc2 : count ≤ 4096 := by omega
      have hrs : stream.readSome count
          = ((stream.bytes.drop stream.pos).take count, { stream with pos := stream.pos + count }) := by
        rw [IStream.readSome, hfail]
        simp only [Bool.false_eq_true, if_false]
        rw [if_pos (by omega)]
      have hgl : ((stream.bytes.drop stream.pos).take count).length = count := by
        rw [List.length_take, List.length_drop]; omega
      rw [hrs]
      dsimp only
      rw [hgl]
      have hbl : ((stream.bytes.drop stream.pos).take count ++ buf.drop count).length = 4096 := by
        rw [List.length_append, hgl, List.length_drop, hbuf]; omega
      obtain ⟨r1, e1, f1⟩ := MD5.update_fed self
        ((stream.bytes.drop stream.pos).take count ++ buf.drop count) count hv (by omega) (by omega)
      rw [List.take_append_of_le_length (by omega), List.take_of_length_le (by omega)] at f1
      have hwrap : (i + 4096) % 2 ^ 32 = i + 4096 := Nat.mod_eq_of_lt (by omega)
      obtain ⟨r, st, reads, e2, f2, g1, g2, g3⟩ := ih r1
        { stream with pos := stream.pos + count }
        ((stream.bytes.drop stream.pos).take count ++ buf.drop count) (i + 4096) f1.1 hbl hfail
        (by show stream.pos + count + (length - (i + 4096)) ≤ stream.bytes.length; omega)
        (by omega)
      rw [e1, Option.some_bind, hwrap, e2, Option.map_some']
      refine ⟨r, st, count :: reads, rfl, ?_, g1, g2, ?_⟩
      · have hsplit : List.take (length - i) (stream.bytes.drop stream.pos)
            = List.take count (stream.bytes.drop stream.pos)
              ++ List.take (length - (i + 4096)) (List.drop (stream.pos + count) stream.bytes) := by
          have : length - i = count + (length - (i + 4096)) := by omega
          rw [this, List.take_add, List.drop_drop]
        rw [hsplit]
        exact MD5.fed_trans self r1 r _ _ f1 f2
      · rw [List.sum_cons, g3]; omega
    · rw [if_neg hi]
      have h0 : length - i = 0 := by omega
      refine ⟨self, stream, [], rfl, ?_, hfail, rfl, by rw [h0]; rfl⟩
      rw [h0, List.take_zero]
      exact MD5.fed_nil self hv

theorem MD5.updateBlocks_wrap (input : List Byte) (length : Nat) (hlo : 2 ^ 32 - 64 ≤ length)
    (hin : input.length < 2 ^ 32) : ∀ (fuel : Nat) (self : MD5) (i : Nat),
    i % 64 = 0 → i + 64 ≤ 2 ^ 32 → MD5.updateBlocks input length fuel self i = none := by
  intro fuel
  induction fuel with
  | zero => intro self i _ _; rfl
  | succ fuel ih =>
    intro self i h64 hi
    rw [MD5.updateBlocks]
    by_cases hw : i + 64 = 2 ^ 32
    · have hs : slice input i 64 = none := by
        unfold slice; rw [if_neg (by omega)]
      rw [hw, Nat.mod_self, if_pos (Nat.zero_le _), hs]
    · have hm : (i + 64) % 2 ^ 32 = i + 64 := Nat.mod_eq_of_lt (by omega)
      rw [hm, if_pos (by omega)]
      cases slice input i 64 with
      | none => rfl
      | some block => exact ih _ _ (by omega) (by omega)

theorem MD5.update_wrap (s : MD5) (input : List Byte) (length : Nat) (hs : s.count0 / 8 % 64 = 0)
    (hlo : 2 ^ 32 - 64 ≤ length) (hin : input.length < 2 ^ 32) :
    s.update input length = none := by
  rw [MD5.update]
  dsimp only
  rw [hs, if_pos (by omega)]
  cases slice input 0 (64 - 0) with
  | none => rfl
  | some first =>
    rw [Option.some_bind]
    cases MD5.memcpy s.buffer 0 first with
    | none => rfl
    | some buffer =>
      rw [Option.some_bind, MD5.updateBlocks_wrap input length hlo hin _ _ _ (by decide)
        (by decide)]
      rfl

theorem length_le_flatten (pieces : List (List Byte)) (p : List Byte) (h : p ∈ pieces) :
    p.length ≤ pieces.flatten.length := by
  induction pieces with
  | nil => cases h
  | cons q qs ih =>
    rw [List.flatten_cons, List.length_append]
    rcases List.mem_cons.mp h with h | h
    · subst h; omega
    · have := ih h; omega

/-- Split independence (C16, below the wrap of the loop counter): on a fresh
object, for every partition `pieces` of a byte sequence shorter than 2^32 - 64
bytes, `update` on the pieces in order and then `finalize`, and one `update` on
the whole sequence and then `finalize`, both return, and return the same
finalized object, hence the same digest and `hexdigest`. -/
theorem md5_split_independent (self : MD5) (pieces : List (List Byte))
    (h : self.buffer.length = 64) (hb : pieces.flatten.length + 64 < 2 ^ 32) :
    ∃ d, (MD5.updates self.init pieces).bind MD5.finalize = some d ∧
      (self.init.update pieces.flatten pieces.flatten.length).bind MD5.finalize = some d ∧
      d.finalized = true := by
  have hv := MD5.init_valid self h
  obtain ⟨r, e1, f1⟩ := MD5.updates_fed pieces self.init hv (fun p hp => by
    have := length_le_flatten pieces p hp; omega)
  obtain ⟨t, e2, f2⟩ := MD5.update_fed self.init pieces.flatten pieces.flatten.length hv
    (Nat.le_refl _) hb
  rw [List.take_length] at f2
  obtain ⟨d, g1, g2, g3⟩ := MD5.finalize_same r t (MD5.fed_same r t self.init _ f1 f2 rfl)
  exact ⟨d, by rw [e1, Option.some_bind, g1], by rw [e2, Option.some_bind, g2], g3⟩

/-- Witness for `md5_split_independent`: "abc" fed as "a" and "bc". -/
theorem md5_split_independent_witness :
    MD5.zeroed.buffer.length = 64 ∧ ([[97], [98, 99]] : List (List Byte)).flatten.length + 64 < 2 ^ 32 ∧
    ∃ d, (MD5.updates MD5.zeroed.init [[97], [98, 99]]).bind MD5.finalize = some d ∧
      (MD5.zeroed.init.update ([[97], [98, 99]] : List (List Byte)).flatten
        ([[97], [98, 99]] : List (List Byte)).flatten.length).bind MD5.finalize = some d ∧
      d.finalized = true :=
  ⟨by decide, by decide, md5_split_independent MD5.zeroed [[97], [98, 99]] (by decide) (by decide)⟩

/-- The stream-window constructor (C16, below the wrap of the loop counter):
for a stream that is not failed and holds `length` bytes from its position on,
`length` at most 2^32 - 4096, the constructor `MD5(stream, length)` returns
after `length / 4096 + 2` passes at most, leaves the stream as it was, and
builds the same object, hence the same `hexdigest`, as `MD5(vector)` over those
`length` bytes; its reads sum to `length`. -/
theorem md5_stream_window_eq_vector (self other : MD5) (buf : List Byte) (stream : IStream)
    (length fuel : Nat) (h : self.buffer.length = 64) (ho : other.buffer.length = 64)
    (hbuf : buf.length = 4096) (hfail : stream.fail = false)
    (hpos : stream.pos + length ≤ stream.bytes.length) (hL : length + 4096 ≤ 2 ^ 32)
    (hfuel : length / 4096 + 1 < fuel) :
    ∃ d reads, MD5.ofStream self buf fuel stream length = some (d, stream, reads) ∧
      MD5.ofVector other ((stream.bytes.drop stream.pos).take length) = some d ∧
      d.finalized = true ∧ reads.sum = length := by
  obtain ⟨r, st, reads, e1, f1, g1, g2, g3⟩ := MD5.readBlocks_fed length hL fuel self.init stream
    buf 0 (MD5.init_valid self h) hbuf hfail hpos (by omega)
  have hwl : ((stream.bytes.drop stream.pos).take length).length = length := by
    rw [List.length_take, List.length_drop]; omega
  obtain ⟨t, e2, f2⟩ := MD5.update_fed other.init ((stream.bytes.drop stream.pos).take length)
    length (MD5.init_valid other ho) (by omega) (by omega)
  rw [List.take_take, Nat.min_self] at f2
  rw [Nat.sub_zero] at f1
  have hcg := MD5.absorb_congr ((stream.bytes.drop stream.pos).take length) self.init other.init
    rfl
  have hs : MD5.Same r t := by
    refine ⟨f1.1, f2.1, ?_, ?_, f1.2.2.2.1.trans f2.2.2.2.1.symm, f1.2.2.2.2.1, f2.2.2.2.2.1⟩
    · rw [f1.2.1, f2.2.1, MD5.init_pending, MD5.init_pending, List.nil_append]; exact hcg.1
    · rw [f1.2.2.1, f2.2.2.1, MD5.init_pending, MD5.init_pending, List.nil_append]; exact hcg.2
  obtain ⟨d, k1, k2, k3⟩ := MD5.finalize_same r t hs
  have hst : st.seekgBeg stream.pos = stream := by
    obtain ⟨b, p, f⟩ := st
    obtain ⟨b2, p2, f2⟩ := stream
    simp only at g1 g2 hfail
    subst g1 g2 hfail
    rfl
  refine ⟨d, reads, ?_, ?_, k3, g3⟩
  · rw [MD5.ofStream, e1, Option.some_bind, k1, Option.map_some', hst]
  · rw [MD5.ofVector, hwl, Nat.mod_eq_of_lt (by omega), e2, Option.some_bind, k2]

/-- C16 (the code where the loop counter wraps): let `input` be a vector of at
least 2^32 - 64 and fewer than 2^32 bytes. On a fresh object, `update` on the
pieces of any partition of `input` into pieces shorter than 2^32 - 64 bytes,
then `finalize`, returns a finalized object; one `update` on the whole of
`input` has no result: its loop `for (i = firstpart; i + blocksize <= length;
i += blocksize)` reaches `i = 2^32 - 64`, where `i + blocksize` wraps to 0 and
the loop goes on to read `input[2^32 - 64 .. 2^32 - 1]`, past the end of
`input`. -/
theorem md5_update_whole_wraps (self : MD5) (input : List Byte) (h : self.buffer.length = 64)
    (hlo : 2 ^ 32 - 64 ≤ input.length) (hhi : input.length < 2 ^ 32) :
    (∀ pieces : List (List Byte), pieces.flatten = input →
      (∀ p ∈ pieces, p.length + 64 < 2 ^ 32) →
      ∃ d, (MD5.updates self.init pieces).bind MD5.finalize = some d ∧ d.finalized = true) ∧
    (self.init.update input input.length).bind MD5.finalize = none ∧
    MD5.ofVector self input = none := by
  have hu := MD5.update_wrap self.init input input.length (by show 0 / 8 % 64 = 0; rfl) hlo hhi
  refine ⟨?_, by rw [hu]; rfl, by rw [MD5.ofVector, Nat.mod_eq_of_lt hhi, hu]; rfl⟩
  intro pieces _ hp
  obtain ⟨r, e1, f1⟩ := MD5.updates_fed pieces self.init (MD5.init_valid self h) hp
  obtain ⟨d, g1, _, g3⟩ := MD5.finalize_same r r
    (MD5.fed_same r r self.init _ f1 f1 rfl)
  exact ⟨d, by rw [e1, Option.some_bind, g1], g3⟩

/-- Witness for C16: the vector of 2^32 - 64 zero bytes. -/
theorem md5_update_whole_wraps_witness :
    MD5.zeroed.buffer.length = 64 ∧ 2 ^ 32 - 64 ≤ MD5.longInput.length ∧
    MD5.longInput.length < 2 ^ 32 ∧
    (MD5.zeroed.init.update MD5.longInput MD5.longInput.length).bind MD5.finalize = none ∧
    MD5.ofVector MD5.zeroed MD5.longInput = none :=
  have h1 : 2 ^ 32 - 64 ≤ MD5.longInput.length := by
    rw [MD5.longInput, List.length_replicate]; decide
  have h2 : MD5.longInput.length < 2 ^ 32 := by
    rw [MD5.longInput, List.length_replicate]; decide
  ⟨by decide, h1, h2, (md5_update_whole_wraps MD5.zeroed MD5.longInput (by decide) h1 h2).2⟩

/-! ## The bounds of the entry loop (claim C21) -/

theorem readKeys_bound (data : List Byte) (hs : Nat) (isTarget : Bool) (keyCount : Nat) :
    ∀ (it : Nat) (keys : List Hex) (r : Nat × List Hex),
      readKeys data hs isTarget keyCount it keys = some r → keyCount ≠ 0 →
      it + hs * keyCount ≤ data.length := by
  induction keyCount with
  | zero => intro _ _ _ _ h; exact absurd rfl h
  | succ n ih =>
    intro it keys r h _
    rw [readKeys] at h
    cases hsl : slice data it hs with
    | none => rw [hsl] at h; cases h
    | some key =>
      rw [hsl] at h
      have hb := slice_bound hsl
      by_cases hn : n = 0
      · subst hn; omega
      · have := ih _ _ _ h hn
        rw [Nat.mul_succ]; omega

theorem scanEntries_overshoot (data : List Byte) (hs : Nat) (target : Hex) (fuel : Nat)
    (hkc : Endian.readLittle (data.take 2) ≠ 0)
    (hover : data.length < 6 + hs + hs * Endian.readLittle (data.take 2)) :
    scanEntries data hs target fuel 0 [] = .undefined := by
  cases fuel with
  | zero => rfl
  | succ fuel =>
    rw [scanEntries]
    split
    · cases h2 : slice data 0 2 with
      | none => rfl
      | some kc =>
        have hkc2 : kc = data.take 2 := by
          unfold slice at h2
          split at h2
          · rw [List.drop_zero] at h2; exact (Option.some.inj h2).symm
          · cases h2
        subst hkc2
        simp only
        rw [if_neg hkc]
        cases h4 : slice data (0 + 2) 4 with
        | none => rfl
        | some fs =>
          simp only
          cases hc : slice data (0 + 2 + 4) hs with
          | none => rfl
          | some current =>
            simp only
            cases hr : readKeys data hs (decide (target = current))
                (Endian.readLittle (data.take 2)) (0 + 2 + 4 + hs) [] with
            | none => rfl
            | some r =>
              have := readKeys_bound data hs _ _ _ _ _ hr hkc
              omega
    · rename_i hne
      exfalso
      apply hne
      refine ⟨rfl, ?_⟩
      cases data with
      | nil => simp [Endian.readLittle] at hkc
      | cons _ _ => simp

/-- C21 (the code on a failing input): let the chunk loop pass over the heads
`skipped` and select `head`, whose 4096-byte body has the digest recorded in
`head` and starts with a key count `k ≠ 0` for which the entry does not fit,
`6 + hashSizeA + k * hashSizeA > 4096`. The entry loop has no test between its
head `it < end` and the copies of the `k` keys: the copy of key number `k - 1`
takes the bytes `[6 + hashSizeA * k, 6 + hashSizeA * (k + 1))`, which are not all
inside the buffer, so the scan reads past index 4095 and `find` has no defined
outcome. -/
theorem scan_reads_past_chunk_end (md5 : List Byte → Hex) (enc : CascEncoding)
    (target : Hex) (skipped rest : List ChunkHead) (head : ChunkHead) (body : List Byte)
    (hheads : enc.chunkHeadsA = skipped ++ head :: rest)
    (hskip : ∀ x ∈ skipped, Hex.gt target x.first = false)
    (hsel : Hex.gt target head.first = true)
    (hread : ((enc.stream.seekgBeg ((enc.chunksOffsetA + ChunkBodySize *
        (enc.chunkHeadsA.length - 1 - skipped.length)) % 2 ^ 64)).read 4096).1 = some body)
    (hmd5 : md5 body = head.hash)
    (hkc : Endian.readLittle (body.take 2) ≠ 0)
    (hover : 4096 < 6 + enc.hashSizeA + enc.hashSizeA * Endian.readLittle (body.take 2)) :
    body.length = 4096 ∧
    slice body (6 + enc.hashSizeA * Endian.readLittle (body.take 2)) enc.hashSizeA = none ∧
    scanEntries body enc.hashSizeA target body.length 0 [] = .undefined ∧
    (find md5 enc target).outcome = .undefined := by
  have hfail : enc.stream.fail = false := by
    rcases hst : enc.stream with ⟨b, p, fl⟩
    rw [hst] at hread
    cases fl with
    | false => rfl
    | true => simp [IStream.seekgBeg, IStream.read] at hread
  rw [read_chunk enc.stream hfail] at hread
  have hslice : slice enc.stream.bytes ((enc.chunksOffsetA + ChunkBodySize *
        (enc.chunkHeadsA.length - 1 - skipped.length)) % 2 ^ 64) 4096 = some body := by
    cases hs : slice enc.stream.bytes ((enc.chunksOffsetA + ChunkBodySize *
        (enc.chunkHeadsA.length - 1 - skipped.length)) % 2 ^ 64) 4096 with
    | none => rw [hs] at hread; simp at hread
    | some d => rw [hs] at hread; simpa using hread
  have hlen : body.length = 4096 := slice_length hslice
  have hscan := scanEntries_overshoot body enc.hashSizeA target body.length hkc
    (by rw [hlen]; exact hover)
  refine ⟨hlen, ?_, hscan, ?_⟩
  · unfold slice
    rw [if_neg (by rw [hlen]; omega)]
  · have hsearch : searchLoop md5 target enc.chunkHeadsA.length enc.chunksOffsetA enc.hashSizeA
        enc.chunkHeadsA 0 enc.stream [] =
          ⟨[(enc.chunksOffsetA + ChunkBodySize *
            (enc.chunkHeadsA.length - 1 - skipped.length)) % 2 ^ 64], .undefined⟩ := by
      conv => lhs; arg 6; rw [hheads]
      rw [searchLoop_skip md5 target _ _ _ skipped (head :: rest) 0 enc.stream hskip,
        Nat.zero_add, searchLoop_step md5 target _ _ _ head rest _ enc.stream hfail hsel, hslice]
      simp only
      rw [if_neg (not_not.mpr hmd5), hscan]
    rw [find, searchTable, hsearch]

/-- The single-chunk file with the body `overshootBody`: the first entry
announces 257 keys of 16 bytes, 4134 bytes in all. -/
theorem scan_reads_past_chunk_end_witness :
    overshootBody.length = 4096 ∧
    slice overshootBody (6 + 16 * 257) 16 = none ∧
    (find exampleMd5 (singleChunkFile zeroHash (exampleMd5 overshootBody) overshootBody).parsed
      exampleHash).outcome = .undefined := by
  have hl : overshootBody.length = 4096 := by
    rw [overshootBody, exampleTail, List.length_cons, List.length_cons, List.length_replicate]
  have hk : Endian.readLittle (overshootBody.take 2) = 257 := by decide
  have h := scan_reads_past_chunk_end exampleMd5
    (singleChunkFile zeroHash (exampleMd5 overshootBody) overshootBody).parsed exampleHash
    [] [] ⟨zeroHash, exampleMd5 overshootBody⟩ overshootBody rfl (by simp) (by decide)
    (singleChunkFile_read zeroHash (exampleMd5 overshootBody) overshootBody (by decide)
      (by decide) hl)
    rfl (by rw [hk]; decide) (by rw [hk]; decide)
  rw [hk] at h
  exact ⟨h.1, h.2.1, h.2.2.2⟩

/-! ## The chunks that `find` reads (claim C22) -/

theorem emptyBody_length : emptyBody.length = 4096 := by
  simp only [emptyBody, encodeBody, exampleTail, List.flatMap_nil, List.nil_append,
    List.length_cons, List.length_replicate]

theorem bodies_split (l : List (List Byte)) (j : Nat) (hj : j < l.length) :
    ∃ before after body, l = before ++ body :: after ∧ before.length = j ∧ l[j]? = some body := by
  refine ⟨l.take j, l.drop (j + 1), l[j], ?_, ?_, ?_⟩
  · rw [← List.drop_eq_getElem_cons hj, List.take_append_drop]
  · rw [List.length_take]; omega
  · exact List.getElem?_eq_getElem hj

/-- C23: after `parse` of a well-formed file with `n` heads in table A,
`chunkHeadsA` has `n` elements and `chunkHeadsA[i]` is the head number
`n - 1 - i` of the file; the position `chunksOffsetA + 4096 * (n - 1 - i)`, from
which the chunk loop reads when it scans index `i` (that is when the target
exceeds the first key of `chunkHeadsA[i]`), holds the body number `n - 1 - i` of
the file: the digest of a head is compared with the digest of the body of the
same chunk. -/
theorem parse_keeps_head_body_pairs (md5 : List Byte → Hex) (f : EncodingFile)
    (hw : f.WellFormed) (target : Hex) (i : Nat) (hi : i < f.headsA.length) :
    ∃ (enc : CascEncoding) (head : ChunkHead) (body : List Byte),
      parse (IStream.ofBytes f.bytes) = .ok enc ∧
      enc.chunkHeadsA.length = f.headsA.length ∧
      enc.chunkHeadsA[i]? = some head ∧ f.headsA[f.headsA.length - 1 - i]? = some head ∧
      f.bodiesA[f.headsA.length - 1 - i]? = some body ∧
      ((enc.stream.seekgBeg
          (enc.chunksOffsetA + ChunkBodySize * (f.headsA.length - 1 - i))).read 4096).1
        = some body ∧
      (Hex.gt target head.first = true →
        searchLoop md5 target enc.chunkHeadsA.length enc.chunksOffsetA enc.hashSizeA
            (enc.chunkHeadsA.drop i) i enc.stream [] =
          if md5 body ≠ head.hash then
            ⟨[enc.chunksOffsetA + ChunkBodySize * (f.headsA.length - 1 - i)],
              .throws (.InvalidHashException head.hash (md5 body))⟩
          else
            match scanEntries body enc.hashSizeA target body.length 0 [] with
            | .ok keys1 =>
              ⟨(enc.chunksOffsetA + ChunkBodySize * (f.headsA.length - 1 - i)) ::
                  (searchLoop md5 target enc.chunkHeadsA.length enc.chunksOffsetA enc.hashSizeA
                    (enc.chunkHeadsA.drop (i + 1)) (i + 1)
                    ⟨f.bytes, enc.chunksOffsetA + ChunkBodySize * (f.headsA.length - 1 - i) + 4096,
                      false⟩ keys1).reads,
                (searchLoop md5 target enc.chunkHeadsA.length enc.chunksOffsetA enc.hashSizeA
                    (enc.chunkHeadsA.drop (i + 1)) (i + 1)
                    ⟨f.bytes, enc.chunksOffsetA + ChunkBodySize * (f.headsA.length - 1 - i) + 4096,
                      false⟩ keys1).outcome⟩
            | .throws e =>
              ⟨[enc.chunksOffsetA + ChunkBodySize * (f.headsA.length - 1 - i)], .throws e⟩
            | .undefined =>
              ⟨[enc.chunksOffsetA + ChunkBodySize * (f.headsA.length - 1 - i)], .undefined⟩) := by
  have hw' := hw
  obtain ⟨-, -, hs, hna, -, hbl, -, -, -, -, -⟩ := hw
  have hj : f.headsA.length - 1 - i < f.headsA.length := by omega
  obtain ⟨before, after, body, hsplit, hbefore, hbody⟩ :=
    bodies_split f.bodiesA (f.headsA.length - 1 - i) (by rw [hbl]; exact hj)
  have hhead : f.headsA[f.headsA.length - 1 - i]? = some (f.headsA[f.headsA.length - 1 - i]) :=
    List.getElem?_eq_getElem hj
  have hrev : f.parsed.chunkHeadsA[i]? = some (f.headsA[f.headsA.length - 1 - i]) := by
    show f.headsA.reverse[i]? = _
    rw [List.getElem?_reverse hi, hhead]
  have hslice := slice_body f hw' before after body hsplit
  rw [hbefore] at hslice
  have hmod : (f.parsed.chunksOffsetA + ChunkBodySize * (f.parsed.chunkHeadsA.length - 1 - i))
      % 2 ^ 64 = f.parsed.chunksOffsetA + ChunkBodySize * (f.headsA.length - 1 - i) := by
    have hl : f.parsed.chunkHeadsA.length = f.headsA.length := List.length_reverse _
    rw [hl]
    apply Nat.mod_eq_of_lt
    simp only [EncodingFile.parsed, HeaderSize, sizeofChunkHead, ChunkBodySize] at hs ⊢
    norm_num at hs hna ⊢
    omega
  have hslice' : slice f.parsed.stream.bytes
      (f.parsed.chunksOffsetA + ChunkBodySize * (f.headsA.length - 1 - i)) 4096 = some body :=
    hslice
  refine ⟨f.parsed, f.headsA[f.headsA.length - 1 - i], body, parse_file f hw',
    List.length_reverse _, hrev, hhead, hbody, ?_, ?_⟩
  · rw [read_chunk _ rfl, hslice']
  · intro hgt
    have hdrop : f.parsed.chunkHeadsA.drop i
        = f.headsA[f.headsA.length - 1 - i] :: f.parsed.chunkHeadsA.drop (i + 1) := by
      have hl : f.parsed.chunkHeadsA.length = f.headsA.length := List.length_reverse _
      have hi' : i < f.parsed.chunkHeadsA.length := by
        rw [hl]; exact hi
      rw [List.drop_eq_getElem_cons hi']
      congr 1
      have := List.getElem?_eq_getElem hi'
      rw [hrev] at this
      exact (Option.some.inj this).symm
    rw [hdrop, searchLoop_step md5 target _ _ _ _ _ _ _ rfl hgt, hmod, hslice']
    rfl

/-- The file `twoEmptyChunks` at index 0: `chunkHeadsA[0]` is head 1 of the
file, and the read for index 0 returns body 1. -/
theorem parse_keeps_head_body_pairs_witness :
    ∃ (enc : CascEncoding) (head : ChunkHead) (body : List Byte),
      parse (IStream.ofBytes (twoEmptyChunks (exampleMd5 emptyBody)).bytes) = .ok enc ∧
      enc.chunkHeadsA.length = (twoEmptyChunks (exampleMd5 emptyBody)).headsA.length ∧
      enc.chunkHeadsA[0]? = some head ∧
      (twoEmptyChunks (exampleMd5 emptyBody)).headsA[1]? = some head ∧
      (twoEmptyChunks (exampleMd5 emptyBody)).bodiesA[1]? = some body ∧
      ((enc.stream.seekgBeg (enc.chunksOffsetA + ChunkBodySize * 1)).read 4096).1 = some body := by
  obtain ⟨enc, head, body, h1, h2, h3, h4, h5, h6, _⟩ :=
    parse_keeps_head_body_pairs exampleMd5 (twoEmptyChunks (exampleMd5 emptyBody))
      (twoChunkFile_wellFormed _ _ _ _ _ _ (by decide) (by decide) (by decide) (by decide)
        emptyBody_length emptyBody_length) exampleKey 0 (by decide)
  exact ⟨enc, head, body, h1, h2, h3, h4, h5, h6⟩

/-! ## What `find` makes of the result of `searchTable` (claim C24) -/

theorem scanEntries_ne_throws (data : List Byte) (hs : Nat) (target : Hex) (e : CascError) :
    ∀ (fuel it : Nat) (keys : List Hex), scanEntries data hs target fuel it keys ≠ .throws e := by
  intro fuel
  induction fuel with
  | zero => intro it keys h; rw [scanEntries] at h; cases h
  | succ fuel ih =>
    intro it keys h
    rw [scanEntries] at h
    split at h
    · split at h
      · cases h
      · split at h
        · cases h
        · split at h
          · cases h
          · split at h
            · cases h
            · split at h
              · cases h
              · exact ih _ _ h
    · cases h

theorem searchLoop_throws (md5 : List Byte → Hex) (target : Hex) (size offset hs : Nat)
    (heads : List ChunkHead) : ∀ (i : Nat) (s : IStream) (keys : List Hex) (e : CascError),
    (searchLoop md5 target size offset hs heads i s keys).outcome = .throws e →
    ∃ expected actual, e = .InvalidHashException expected actual := by
  induction heads with
  | nil => intro i s keys e h; rw [searchLoop] at h; cases h
  | cons head rest ih =>
    intro i s keys e h
    rw [searchLoop] at h
    split at h
    · split at h
      · split at h
        · cases h
        · split at h
          · simp only [Outcome.throws.injEq] at h
            exact ⟨_, _, h.symm⟩
          · split at h
            · exact ih _ _ _ _ h
            · rename_i hsc
              exact absurd hsc (scanEntries_ne_throws _ _ _ _ _ _ _)
            · cases h
      · exact ih _ _ _ _ h
    · cases h

/-- C24: `find` never returns an empty key list. Whenever it returns, the list
has at least one key and is the list that `searchTable` over table A returned;
it throws `FileNotFoundException` exactly when `searchTable` over table A returns
no key, as it does for a table A without chunks; every other end of
`searchTable` (an `InvalidHashException`, or a read with no defined behaviour) is
the end of `find` unchanged. So a call whose behaviour is defined returns at
least one key or throws. -/
theorem find_never_returns_empty (md5 : List Byte → Hex) (enc : CascEncoding) (target : Hex) :
    (∀ keys, (find md5 enc target).outcome = .ok keys →
      keys ≠ [] ∧ (searchTable md5 enc target enc.chunkHeadsA enc.chunksOffsetA
        enc.hashSizeA).outcome = .ok keys) ∧
    ((find md5 enc target).outcome = .throws (.FileNotFoundException target) ↔
      (searchTable md5 enc target enc.chunkHeadsA enc.chunksOffsetA enc.hashSizeA).outcome
        = .ok []) ∧
    (∀ e, (searchTable md5 enc target enc.chunkHeadsA enc.chunksOffsetA enc.hashSizeA).outcome
        = .throws e →
      (find md5 enc target).outcome = .throws e ∧
        ∃ expected actual, e = .InvalidHashException expected actual) ∧
    ((find md5 enc target).outcome = .undefined ↔
      (searchTable md5 enc target enc.chunkHeadsA enc.chunksOffsetA enc.hashSizeA).outcome
        = .undefined) ∧
    ((∃ keys, keys ≠ [] ∧ (find md5 enc target).outcome = .ok keys) ∨
      (∃ e, (find md5 enc target).outcome = .throws e) ∨
      (find md5 enc target).outcome = .undefined) ∧
    (enc.chunkHeadsA = [] →
      find md5 enc target = ⟨[], .throws (.FileNotFoundException target)⟩) := by
  have hthrows : ∀ e, (searchTable md5 enc target enc.chunkHeadsA enc.chunksOffsetA
      enc.hashSizeA).outcome = .throws e →
      ∃ expected actual, e = .InvalidHashException expected actual := by
    intro e h
    exact searchLoop_throws md5 target _ _ _ _ _ _ _ e h
  rcases hst : searchTable md5 enc target enc.chunkHeadsA enc.chunksOffsetA enc.hashSizeA
    with ⟨reads, outcome⟩
  rw [hst] at hthrows
  simp only at hthrows
  have hnil : enc.chunkHeadsA = [] →
      find md5 enc target = ⟨[], .throws (.FileNotFoundException target)⟩ := by
    intro h0
    apply find_all_skipped
    rw [h0]
    intro x hx
    cases hx
  cases outcome with
  | ok keys =>
    cases keys with
    | nil =>
      have hf : find md5 enc target = ⟨reads, .throws (.FileNotFoundException target)⟩ := by
        rw [find, hst]; rfl
      rw [hf]
      refine ⟨?_, ?_, ?_, ?_, ?_, ?_⟩
      · intro keys h; cases h
      · exact ⟨fun _ => rfl, fun _ => rfl⟩
      · intro e h; cases h
      · exact Iff.intro (fun h => by cases h) (fun h => by cases h)
      · exact Or.inr (Or.inl ⟨_, rfl⟩)
      · intro h0; rw [← hf]; exact hnil h0
    | cons k ks =>
      have hf : find md5 enc target = ⟨reads, .ok (k :: ks)⟩ := by
        rw [find, hst]; rfl
      rw [hf]
      refine ⟨?_, ?_, ?_, ?_, ?_, ?_⟩
      · intro keys h
        simp only [Outcome.ok.injEq] at h
        subst h
        exact ⟨List.cons_ne_nil _ _, rfl⟩
      · exact Iff.intro (fun h => by cases h) (fun h => by cases h)
      · intro e h; cases h
      · exact Iff.intro (fun h => by cases h) (fun h => by cases h)
      · exact Or.inl ⟨_, List.cons_ne_nil _ _, rfl⟩
      · intro h0; rw [← hf]; exact hnil h0
  | throws e =>
    have hf : find md5 enc target = ⟨reads, .throws e⟩ := by
      rw [find, hst]
    rw [hf]
    obtain ⟨a, b, hab⟩ := hthrows e rfl
    subst hab
    refine ⟨?_, ?_, ?_, ?_, ?_, ?_⟩
    · intro keys h; cases h
    · exact Iff.intro (fun h => by cases h) (fun h => by cases h)
    · intro e h
      simp only [Outcome.throws.injEq] at h
      subst h
      exact ⟨rfl, _, _, rfl⟩
    · exact Iff.intro (fun h => by cases h) (fun h => by cases h)
    · exact Or.inr (Or.inl ⟨_, rfl⟩)
    · intro h0; rw [← hf]; exact hnil h0
  | undefined =>
    have hf : find md5 enc target = ⟨reads, .undefined⟩ := by
      rw [find, hst]
    rw [hf]
    refine ⟨?_, ?_, ?_, ?_, ?_, ?_⟩
    · intro keys h; cases h
    · exact Iff.intro (fun h => by cases h) (fun h => by cases h)
    · intro e h; cases h
    · exact ⟨fun _ => rfl, fun _ => rfl⟩
    · exact Or.inr (Or.inr rfl)
    · intro h0; rw [← hf]; exact hnil h0

/-! ## The legacy `parse` and the current one (claim C25) -/

theorem CascEncoding.read_ok {s : IStream} {n : Nat} {r : List Byte × IStream}
    (h : CascEncoding.read s n = .ok r) :
    s.fail = false ∧ n ≤ s.bytes.length - s.pos ∧
      r = ((s.bytes.drop s.pos).take n, ⟨s.bytes, s.pos + n, false⟩) := by
  obtain ⟨bytes, pos, fail⟩ := s
  cases fail with
  | true => simp [CascEncoding.read, IStream.read] at h
  | false =>
    by_cases hn : n ≤ bytes.length - pos
    · simp only [CascEncoding.read, IStream.read, Bool.false_eq_true, if_false, if_pos hn,
        Outcome.ok.injEq] at h
      exact ⟨rfl, hn, h.symm⟩
    · simp [CascEncoding.read, IStream.read, hn] at h

theorem Legacy.read_eq (bytes : List Byte) (pos n : Nat) (h : n ≤ bytes.length - pos) :
    Legacy.read ⟨bytes, pos, false⟩ n
      = .ok ((bytes.drop pos).take n, ⟨bytes, pos + n, false⟩) := by
  simp [Legacy.read, IStream.read, h]

theorem readHeads_full (n : Nat) : ∀ (s : IStream), (readHeads s n).2.fail = false →
    (readHeads s n).1.length = n := by
  induction n with
  | zero => intro s _; rfl
  | succ n ih =>
    intro s h
    rw [readHeads] at h ⊢
    rcases hr : s.read sizeofChunkHead with ⟨d, s1⟩
    rw [hr] at h
    cases d with
    | none =>
      exfalso
      simp only at h
      obtain ⟨bytes, pos, fail⟩ := s
      cases fail with
      | true =>
        simp only [IStream.read, if_true, Prod.mk.injEq] at hr
        rw [← hr.2] at h
        cases h
      | false =>
        simp only [IStream.read, Bool.false_eq_true, if_false] at hr
        split at hr
        · cases hr
        · simp only [Prod.mk.injEq, true_and] at hr
          rw [← hr] at h
          cases h
    | some d =>
      simp only at h ⊢
      rw [List.length_cons, ih s1 h]

theorem parseHeader_ok {stream s : IStream} {hd : Header} (h : parseHeader stream = .ok (hd, s)) :
    stream.fail = false ∧
    ∃ b1 b2 b3 : List Byte,
      (stream.bytes.drop stream.pos).take 2 = [0x45, 0x4E] ∧
      2 ≤ stream.bytes.length - stream.pos ∧
      4 ≤ stream.bytes.length - (stream.pos + 9) ∧
      4 ≤ stream.bytes.length - (stream.pos + 13) ∧
      4 ≤ stream.bytes.length - (stream.pos + 18) ∧
      b1 = (stream.bytes.drop (stream.pos + 9)).take 4 ∧
      b2 = (stream.bytes.drop (stream.pos + 13)).take 4 ∧
      b3 = (stream.bytes.drop (stream.pos + 18)).take 4 ∧
      hd.tableSizeA = Endian.readBig b1 ∧ hd.tableSizeB = Endian.readBig b2 ∧
      hd.stringTableSize = Endian.readBig b3 ∧
      s = ⟨stream.bytes, stream.pos + 22, false⟩ := by
  rw [parseHeader] at h
  obtain ⟨r0, e0, h⟩ := Outcome.bind_eq_ok h
  obtain ⟨f0, n0, rfl⟩ := CascEncoding.read_ok e0
  split at h
  · cases h
  · rename_i hsig
    rw [parseFields] at h
    obtain ⟨r1, e1, h⟩ := Outcome.bind_eq_ok h
    obtain ⟨-, n1, rfl⟩ := CascEncoding.read_ok e1
    obtain ⟨r2, e2, h⟩ := Outcome.bind_eq_ok h
    obtain ⟨-, n2, rfl⟩ := CascEncoding.read_ok e2
    obtain ⟨r3, e3, h⟩ := Outcome.bind_eq_ok h
    obtain ⟨-, n3, rfl⟩ := CascEncoding.read_ok e3
    obtain ⟨r4, e4, h⟩ := Outcome.bind_eq_ok h
    obtain ⟨-, n4, rfl⟩ := CascEncoding.read_ok e4
    obtain ⟨r5, e5, h⟩ := Outcome.bind_eq_ok h
    obtain ⟨-, n5, rfl⟩ := CascEncoding.read_ok e5
    simp only [IStream.seekgCur, Bool.false_eq_true, if_false, Outcome.ok.injEq,
      Prod.mk.injEq] at h n1 n2 n3 n4 n5 ⊢
    obtain ⟨hhd, hs⟩ := h
    refine ⟨f0, _, _, _, ?_, n0, by omega, by omega, by omega, rfl, rfl, rfl, ?_, ?_, ?_, ?_⟩
    · simp only [ne_eq, not_not] at hsig
      have hl : ((stream.bytes.drop stream.pos).take 2).length = 2 := by
        rw [List.length_take, List.length_drop]; omega
      match hm : (stream.bytes.drop stream.pos).take 2, hl with
      | [b0, b1], _ =>
        rw [hm] at hsig
        have := (signature_eq_iff b0 b1).mp (by simpa [Endian.readLittle] using hsig)
        rw [this.1, this.2]
    · rw [← hhd]
    · rw [← hhd]
    · rw [← hhd]
    · rw [← hs]
theorem Legacy.Outcome.bind_of_ok {α β : Type} (a : α) (f : α → Legacy.Outcome β) :
    (Legacy.Outcome.ok a).bind f = f a := rfl

theorem IStream.seekgCur_ok (bytes : List Byte) (pos k : Nat) :
    IStream.seekgCur ⟨bytes, pos, false⟩ k = ⟨bytes, pos + k, false⟩ := rfl

/-- C25 (the two parsers compared): whenever the current `parse` returns on a
stream, so does the legacy `parse`, with the same `chunksOffsetA` and with
`chunkHeadsA` and `chunkHeadsB` in file order, the reverse of the current lists.
The legacy `chunksOffsetB` is not the current one: it lacks the term
`tableSizeB * sizeof(ChunkHead)`, so it is smaller by 32 bytes for each head of
table B and differs as soon as table B has a chunk. -/
theorem legacy_parse_offsetB_differs (stream : IStream) (enc : CascEncoding)
    (h : parse stream = .ok enc) :
    ∃ l, Legacy.parse stream = .ok l ∧ l.chunksOffsetA = enc.chunksOffsetA ∧
      l.chunkHeadsA = enc.chunkHeadsA.reverse ∧ l.chunkHeadsB = enc.chunkHeadsB.reverse ∧
      enc.chunksOffsetB = l.chunksOffsetB + sizeofChunkHead * enc.chunkHeadsB.length ∧
      (enc.chunkHeadsB ≠ [] → l.chunksOffsetB ≠ enc.chunksOffsetB) := by
  rw [parse] at h
  obtain ⟨⟨hd, s0⟩, e0, ht⟩ := Outcome.bind_eq_ok h
  clear h
  obtain ⟨hfail, b1, b2, b3, hmagic, n0, n1, n2, n3, rfl, rfl, rfl, hA, hB, hS, rfl⟩ :=
    parseHeader_ok e0
  obtain ⟨bytes, pos, fail⟩ := stream
  simp only at hfail hmagic n0 n1 n2 n3 hA hB hS ht
  subst hfail
  simp only [parseTables, checkForErrors] at ht
  split at ht
  · cases ht
  · rename_i hnf
    simp only [Outcome.ok.injEq] at ht
    subst ht
    simp only [Bool.not_eq_true] at hnf
    have hlenB := readHeads_full _ _ hnf
    have hlt : hd.tableSizeB < 2 ^ 32 := by
      rw [hB]
      have := readBig_lt ((bytes.drop (pos + 13)).take 4)
      rw [List.length_take, List.length_drop, Nat.min_eq_left (by omega)] at this
      exact this
    have hltA : hd.tableSizeA < 2 ^ 32 := by
      rw [hA]
      have := readBig_lt ((bytes.drop (pos + 9)).take 4)
      rw [List.length_take, List.length_drop, Nat.min_eq_left (by omega)] at this
      exact this
    refine ⟨{ stream := (readHeads ((readHeads (IStream.seekgCur ⟨bytes, pos + 22, false⟩
          hd.stringTableSize) hd.tableSizeA).2.seekgCur
            (hd.tableSizeA * ChunkBodySize % 2 ^ 32)) hd.tableSizeB).2
              chunkHeadsA := (readHeads (IStream.seekgCur ⟨bytes, pos + 22, false⟩
                hd.stringTableSize) hd.tableSizeA).1
              chunkHeadsB := (readHeads ((readHeads (IStream.seekgCur ⟨bytes, pos + 22, false⟩
                hd.stringTableSize) hd.tableSizeA).2.seekgCur
                  (hd.tableSizeA * ChunkBodySize % 2 ^ 32)) hd.tableSizeB).1
              chunksOffsetA := ((HeaderSize + hd.stringTableSize) % 2 ^ 32
                + hd.tableSizeA * sizeofChunkHead) % 2 ^ 64
              chunksOffsetB := ((HeaderSize + hd.stringTableSize) % 2 ^ 32
                + hd.tableSizeA * sizeofChunkHead
                + (hd.tableSizeA * ChunkBodySize) % 2 ^ 32) % 2 ^ 64 }, ?_, ?_⟩
    · rw [Legacy.parse, Legacy.read_eq bytes pos 2 n0, Legacy.Outcome.bind_of_ok]
      dsimp only
      rw [hmagic, if_neg (by decide), IStream.seekgCur_ok, show pos + 2 + 7 = pos + 9 by omega,
        Legacy.read_eq bytes (pos + 9) 4 n1, Legacy.Outcome.bind_of_ok]
      dsimp only
      rw [show pos + 9 + 4 = pos + 13 by omega, Legacy.read_eq bytes (pos + 13) 4 n2,
        Legacy.Outcome.bind_of_ok]
      dsimp only
      rw [IStream.seekgCur_ok, show pos + 13 + 4 + 1 = pos + 18 by omega,
        Legacy.read_eq bytes (pos + 18) 4 n3, Legacy.Outcome.bind_of_ok]
      dsimp only
      rw [show pos + 18 + 4 = pos + 22 by omega, ← hA, ← hB, ← hS, if_neg (by rw [hnf]; simp)]
    · generalize (readHeads _ hd.tableSizeB).1 = Bl at hlenB ⊢
      simp only [List.reverse_reverse, offsetA, offsetB, List.length_reverse, hlenB, true_and]
      have e1 : (HeaderSize + hd.stringTableSize) % 2 ^ 32 < 2 ^ 32 := Nat.mod_lt _ (by decide)
      have e2 : (hd.tableSizeA * ChunkBodySize) % 2 ^ 32 < 2 ^ 32 := Nat.mod_lt _ (by decide)
      generalize (HeaderSize + hd.stringTableSize) % 2 ^ 32 = x at e1 ⊢
      generalize (hd.tableSizeA * ChunkBodySize) % 2 ^ 32 = y at e2 ⊢
      simp only [sizeofChunkHead]
      norm_num at e1 e2 hlt hltA ⊢
      have m1 : (x + hd.tableSizeA * 32 + y + hd.tableSizeB * 32) % 18446744073709551616
          = x + hd.tableSizeA * 32 + y + hd.tableSizeB * 32 := Nat.mod_eq_of_lt (by omega)
      have m2 : (x + hd.tableSizeA * 32 + y) % 18446744073709551616
          = x + hd.tableSizeA * 32 + y := Nat.mod_eq_of_lt (by omega)
      have m3 : (x + hd.tableSizeA * 32) % 18446744073709551616
          = x + hd.tableSizeA * 32 := Nat.mod_eq_of_lt (by omega)
      rw [m1, m2]
      refine ⟨by omega, ?_⟩
      intro hne
      have : hd.tableSizeB ≠ 0 := by
        intro h0
        rw [h0] at hlenB
        rw [List.eq_nil_of_length_eq_zero hlenB] at hne
        exact hne rfl
      omega

/-- The single-chunk file with one chunk in table B: the current `parse` stores
4182 in `chunksOffsetB`, where the table-B bodies are; the legacy `parse` stores
4150, where the table-B heads are. -/
theorem legacy_parse_offsetB_differs_witness :
    (singleChunkFileB zeroHash (exampleMd5 emptyBody) emptyBody
      ⟨zeroHash, exampleMd5 emptyBody⟩ emptyBody).parsed.chunksOffsetB = 4182 ∧
    ∃ l, Legacy.parse (IStream.ofBytes (singleChunkFileB zeroHash (exampleMd5 emptyBody)
        emptyBody ⟨zeroHash, exampleMd5 emptyBody⟩ emptyBody).bytes) = .ok l ∧
      l.chunksOffsetB = 4150 := by
  obtain ⟨l, h1, _, _, _, h5, _⟩ := legacy_parse_offsetB_differs _ _
    (parse_file (singleChunkFileB zeroHash (exampleMd5 emptyBody) emptyBody
      ⟨zeroHash, exampleMd5 emptyBody⟩ emptyBody)
      (singleChunkFileB_wellFormed _ _ _ _ _ (by decide) (by decide) emptyBody_length
        (by decide) (by decide) emptyBody_length))
  have h6 : (singleChunkFileB zeroHash (exampleMd5 emptyBody) emptyBody
      ⟨zeroHash, exampleMd5 emptyBody⟩ emptyBody).parsed.chunksOffsetB = 4182 := by decide
  have h7 : (singleChunkFileB zeroHash (exampleMd5 emptyBody) emptyBody
      ⟨zeroHash, exampleMd5 emptyBody⟩ emptyBody).parsed.chunkHeadsB.length = 1 := by decide
  refine ⟨h6, l, h1, ?_⟩
  rw [h6, h7] at h5
  simp only [sizeofChunkHead] at h5
  omega

/-! ## The letter case of the argument of the legacy `findKey` (claim C26) -/

set_option maxRecDepth 1000000 in
/-- C26 (the code on a failing input): the legacy object `Legacy.letterEncoding`
holds an entry for the hash `0a000000000000000000000000000001` in chunk 0, whose
first key is `0a00..00`. `findKey` of the hash written in lower case returns;
`findKey` of the same hash written in upper case throws "Key not found": the
range test compares the argument as given with the lower-case strings of the
first keys, character by character, and `A` is below `a`, so chunk 0 is passed
over. Both strings denote the same sixteen bytes. -/
theorem legacy_findKey_upper_case_not_found :
    "0a000000000000000000000000000001".toList.map Char.toUpper
      = "0A000000000000000000000000000001".toList ∧
    (Shared.Hex.ofString 16 "0a000000000000000000000000000001".toList).map Shared.Hex.data
      = some Legacy.letterHash ∧
    (Shared.Hex.ofString 16 "0A000000000000000000000000000001".toList).map Shared.Hex.data
      = some Legacy.letterHash ∧
    Legacy.findKey Legacy.letterEncoding "0a000000000000000000000000000001".toList
      = .ok "0a0000000000000000".toList ∧
    Legacy.findKey Legacy.letterEncoding "0A000000000000000000000000000001".toList
      = .throws "Key not found" := by
  refine ⟨by decide, by decide!, by decide!, by decide!, by decide!⟩

/-! ## The block loop of the stream-window constructor (claim C27) -/

theorem IStream.readSome_length_le (s : IStream) (n : Nat) : (s.readSome n).1.length ≤ n := by
  rw [IStream.readSome]
  split
  · exact Nat.zero_le _
  · split
    · rw [List.length_take]; exact Nat.min_le_left _ _
    · rw [List.length_drop]; omega

theorem MD5.update_returns (s : MD5) (b : List Byte) (count : Nat) (hv : s.Valid)
    (hb : b.length = 4096) (hc : count ≤ 4096) :
    ∃ r, s.update b count = some r ∧ r.Valid ∧ r.finalized = s.finalized := by
  obtain ⟨r, h1, h2⟩ := MD5.update_fed s b count hv (by omega) (by omega)
  exact ⟨r, h1, h2.1, h2.2.2.2.2.1⟩

theorem MD5.readBlocks_returns (length : Nat) (hL : length + 4096 ≤ 2 ^ 32) :
    ∀ (fuel : Nat) (self : MD5) (stream : IStream) (buf : List Byte) (i : Nat), self.Valid →
    buf.length = 4096 → (length - i + 4095) / 4096 < fuel →
    ∃ r st reads, MD5.readBlocks length fuel self stream buf i = some (r, st, reads) ∧
      r.Valid ∧ r.finalized = self.finalized ∧
      reads.length = (length - i + 4095) / 4096 ∧ reads.sum = length - i := by
  intro fuel
  induction fuel with
  | zero => intro self stream buf i _ _ h; omega
  | succ fuel ih =>
    intro self stream buf i hv hbuf hfuel
    rw [MD5.readBlocks]
    by_cases hi : i < length
    · rw [if_pos hi]
      dsimp only
      have hsub : (length + 2 ^ 32 - i) % 2 ^ 32 = length - i := by omega
      rw [hsub]
      generalize hcount : min (length - i) 4096 = count
      have hc1 : count ≤ length - i := by omega
      have hc2 : count ≤ 4096 := by omega
      have hgl := IStream.readSome_length_le stream count
      have hbl : ((stream.readSome count).1 ++ buf.drop (stream.readSome count).1.length).length
          = 4096 := by
        rw [List.length_append, List.length_drop, hbuf]; omega
      obtain ⟨r1, e1, v1, f1⟩ := MD5.update_returns self _ count hv hbl hc2
      have hwrap : (i + 4096) % 2 ^ 32 = i + 4096 := Nat.mod_eq_of_lt (by omega)
      obtain ⟨r, st, reads, e2, v2, f2, g1, g2⟩ := ih r1 (stream.readSome count).2 _ (i + 4096)
        v1 hbl (by omega)
      rw [e1, Option.some_bind, hwrap, e2, Option.map_some']
      refine ⟨r, st, count :: reads, rfl, v2, f2.trans f1, ?_, ?_⟩
      · rw [List.length_cons, g1]; omega
      · rw [List.sum_cons, g2]; omega
    · rw [if_neg hi]
      have h0 : length - i = 0 := by omega
      exact ⟨self, stream, [], rfl, hv, rfl, by rw [h0]; rfl, by rw [h0]; rfl⟩

theorem MD5.readBlocks_wraps (length : Nat) (hlo : 2 ^ 32 - 4096 < length) :
    ∀ (fuel : Nat) (self : MD5) (stream : IStream) (buf : List Byte) (i : Nat), self.Valid →
    buf.length = 4096 → i % 4096 = 0 → i < 2 ^ 32 →
    MD5.readBlocks length fuel self stream buf i = none := by
  intro fuel
  induction fuel with
  | zero => intro _ _ _ _ _ _ _ _; rfl
  | succ fuel ih =>
    intro self stream buf i hv hbuf hi4 hi32
    rw [MD5.readBlocks, if_pos (by omega)]
    dsimp only
    generalize hcount : min ((length + 2 ^ 32 - i) % 2 ^ 32) 4096 = count
    have hc2 : count ≤ 4096 := by omega
    have hgl := IStream.readSome_length_le stream count
    have hbl : ((stream.readSome count).1 ++ buf.drop (stream.readSome count).1.length).length
        = 4096 := by
      rw [List.length_append, List.length_drop, hbuf]; omega
    obtain ⟨r1, e1, v1, _⟩ := MD5.update_returns self _ count hv hbl hc2
    rw [e1, Option.some_bind, ih r1 _ _ _ v1 hbl (by omega) (Nat.mod_lt _ (by decide))]
    rfl

/-- C27 (the code on every 32-bit length): in the loop of `MD5(stream, length)`
every `update` returns, whatever the stream supplies. For `length` up to
2^32 - 4096 the loop ends after `ceil(length / 4096)` reads whose counts sum to
`length`, and the constructor returns. For `length` above 2^32 - 4096 the counter
`i` reaches 2^32 - 4096, which is below `length`, and `i += 4096U` wraps to 0:
the condition `i < length` holds in every pass and the constructor does not
return, however many passes are allowed. -/
theorem md5_stream_loop_wraps (self : MD5) (buf : List Byte) (stream : IStream) (length : Nat)
    (h : self.buffer.length = 64) (hbuf : buf.length = 4096) (hlen : length < 2 ^ 32) :
    (∀ (s : MD5) (b : List Byte) (count : Nat), s.Valid → b.length = 4096 → count ≤ 4096 →
      ∃ r, s.update b count = some r ∧ r.Valid) ∧
    (length ≤ 2 ^ 32 - 4096 →
      ∃ d st reads, MD5.ofStream self buf (length / 4096 + 2) stream length = some (d, st, reads) ∧
        reads.length = (length + 4095) / 4096 ∧ reads.sum = length) ∧
    (2 ^ 32 - 4096 < length → ∀ fuel, MD5.ofStream self buf fuel stream length = none) := by
  refine ⟨?_, ?_, ?_⟩
  · intro s b count hv hb hc
    obtain ⟨r, h1, h2, _⟩ := MD5.update_returns s b count hv hb hc
    exact ⟨r, h1, h2⟩
  · intro hle
    obtain ⟨r, st, reads, e1, v1, f1, g1, g2⟩ := MD5.readBlocks_returns length (by omega)
      (length / 4096 + 2) self.init stream buf 0 (MD5.init_valid self h) hbuf (by omega)
    have hsame : MD5.Same r r := ⟨v1, v1, rfl, rfl, rfl, f1, f1⟩
    obtain ⟨d, k1, _, _⟩ := MD5.finalize_same r r hsame
    refine ⟨d, st.seekgBeg stream.pos, reads, ?_, g1, g2⟩
    rw [MD5.ofStream, e1, Option.some_bind, k1, Option.map_some']
  · intro hgt fuel
    rw [MD5.ofStream, MD5.readBlocks_wraps length hgt fuel self.init stream buf 0
      (MD5.init_valid self h) hbuf rfl (by decide)]
    rfl

/-- The call `MD5(stream, 4294967295)` on an empty stream: neither one pass
nor 2^20 + 1 passes, one more than `ceil(length / 4096)`, end the loop. -/
theorem md5_stream_loop_wraps_witness :
    MD5.ofStream MD5.zeroed (List.replicate 4096 0) 1 (IStream.ofBytes []) 4294967295 = none ∧
    MD5.ofStream MD5.zeroed (List.replicate 4096 0) 1048577 (IStream.ofBytes []) 4294967295
      = none :=
  ⟨(md5_stream_loop_wraps MD5.zeroed (List.replicate 4096 0) (IStream.ofBytes []) 4294967295
      (by decide) (List.length_replicate _ _) (by decide)).2.2 (by decide) 1,
    (md5_stream_loop_wraps MD5.zeroed (List.replicate 4096 0) (IStream.ofBytes []) 4294967295
      (by decide) (List.length_replicate _ _) (by decide)).2.2 (by decide) 1048577⟩

/-! ## The number of passes of the entry loop (claim C28) -/

theorem scanPasses_bound (data : List Byte) (hs : Nat) (target : Hex) :
    ∀ (fuel it : Nat) (keys : List Hex),
      6 * scanPasses data hs target fuel it keys ≤ data.length - it + 5 := by
  intro fuel
  induction fuel with
  | zero => intro it keys; rw [scanPasses]; omega
  | succ f ih =>
    intro it keys
    rw [scanPasses]
    by_cases hc : keys.isEmpty = true ∧ it < data.length
    · rw [if_pos hc]
      have := hc.2
      cases slice data it 2 with
      | none => simp only; omega
      | some kc =>
        simp only
        by_cases hk : Endian.readLittle kc = 0
        · rw [if_pos hk]; omega
        · rw [if_neg hk]
          cases hfs : slice data (it + 2) 4 with
          | none => simp only; omega
          | some fs =>
            simp only
            cases slice data (it + 2 + 4) hs with
            | none => simp only; omega
            | some current =>
              simp only
              cases hr : readKeys data hs (decide (target = current)) (Endian.readLittle kc)
                  (it + 2 + 4 + hs) keys with
              | none => simp only; omega
              | some r =>
                simp only
                have hcur := readKeys_cursor _ _ _ _ _ _ r hr
                have := slice_bound hfs
                have := ih r.1 r.2
                omega
    · rw [if_neg hc]; omega

theorem scanEntries_fuel_six (data : List Byte) (hs : Nat) (target : Hex) (fuel : Nat) :
    ∀ (fuel' it : Nat) (keys : List Hex),
      data.length - it < 6 * fuel → data.length - it < 6 * fuel' →
      scanEntries data hs target fuel it keys = scanEntries data hs target fuel' it keys ∧
      scanPasses data hs target fuel it keys = scanPasses data hs target fuel' it keys := by
  induction fuel with
  | zero => intro fuel' it keys h _; omega
  | succ f ih =>
    intro fuel' it keys h h'
    obtain ⟨f', rfl⟩ : ∃ k, fuel' = k + 1 := ⟨fuel' - 1, by omega⟩
    rw [scanEntries, scanEntries, scanPasses, scanPasses]
    by_cases hc : keys.isEmpty = true ∧ it < data.length
    · rw [if_pos hc, if_pos hc, if_pos hc, if_pos hc]
      cases slice data it 2 with
      | none => exact ⟨rfl, rfl⟩
      | some kc =>
        simp only
        by_cases hk : Endian.readLittle kc = 0
        · rw [if_pos hk, if_pos hk, if_pos hk, if_pos hk]
          exact ⟨rfl, rfl⟩
        · rw [if_neg hk, if_neg hk, if_neg hk, if_neg hk]
          cases hfs : slice data (it + 2) 4 with
          | none => exact ⟨rfl, rfl⟩
          | some fs =>
            simp only
            cases slice data (it + 2 + 4) hs with
            | none => exact ⟨rfl, rfl⟩
            | some current =>
              simp only
              cases hr : readKeys data hs (decide (target = current)) (Endian.readLittle kc)
                  (it + 2 + 4 + hs) keys with
              | none => exact ⟨rfl, rfl⟩
              | some r =>
                simp only
                have hcur := readKeys_cursor _ _ _ _ _ _ r hr
                have := hc.2
                have := slice_bound hfs
                have := ih f' r.1 r.2 (by rw [hcur]; omega) (by rw [hcur]; omega)
                exact ⟨this.1, by rw [this.2]⟩
    · rw [if_neg hc, if_neg hc, if_neg hc, if_neg hc]
      exact ⟨rfl, rfl⟩

theorem scanRun_scanEntries (data : List Byte) (hs : Nat) (target : Hex) :
    ∀ (fuel it : Nat) (keys : List Hex),
      scanEntries data hs target fuel it keys = (scanRun data hs target fuel it keys).ending.toOutcome ∧
      scanPasses data hs target fuel it keys = (scanRun data hs target fuel it keys).passes := by
  intro fuel
  induction fuel with
  | zero => intro it keys; exact ⟨rfl, rfl⟩
  | succ f ih =>
    intro it keys
    rw [scanEntries, scanPasses, scanRun]
    by_cases hc : keys.isEmpty = true ∧ it < data.length
    · rw [if_pos hc, if_pos hc, if_pos hc]
      cases slice data it 2 with
      | none => exact ⟨rfl, rfl⟩
      | some kc =>
        simp only
        by_cases hk : Endian.readLittle kc = 0
        · rw [if_pos hk, if_pos hk, if_pos hk]
          exact ⟨rfl, rfl⟩
        · rw [if_neg hk, if_neg hk, if_neg hk]
          cases slice data (it + 2) 4 with
          | none => exact ⟨rfl, rfl⟩
          | some fs =>
            simp only
            cases slice data (it + 2 + 4) hs with
            | none => exact ⟨rfl, rfl⟩
            | some current =>
              simp only
              cases readKeys data hs (decide (target = current)) (Endian.readLittle kc)
                  (it + 2 + 4 + hs) keys with
              | none => exact ⟨rfl, rfl⟩
              | some r =>
                simp only
                exact ⟨(ih r.1 r.2).1, by rw [(ih r.1 r.2).2]⟩
    · rw [if_neg hc, if_neg hc, if_neg hc]
      exact ⟨rfl, rfl⟩

theorem scanRun_ends (data : List Byte) (hs : Nat) (target : Hex) :
    ∀ (fuel it : Nat) (keys : List Hex), data.length - it < 6 * fuel →
      (scanRun data hs target fuel it keys).ending ≠ .outOfFuel := by
  intro fuel
  induction fuel with
  | zero => intro it keys h; omega
  | succ f ih =>
    intro it keys h
    rw [scanRun]
    by_cases hc : keys.isEmpty = true ∧ it < data.length
    · rw [if_pos hc]
      cases slice data it 2 with
      | none => simp
      | some kc =>
        simp only
        by_cases hk : Endian.readLittle kc = 0
        · rw [if_pos hk]; simp
        · rw [if_neg hk]
          cases hfs : slice data (it + 2) 4 with
          | none => simp
          | some fs =>
            simp only
            cases slice data (it + 2 + 4) hs with
            | none => simp
            | some current =>
              simp only
              cases hr : readKeys data hs (decide (target = current)) (Endian.readLittle kc)
                  (it + 2 + 4 + hs) keys with
              | none => simp
              | some r =>
                simp only
                have hcur := readKeys_cursor _ _ _ _ _ _ r hr
                have := hc.2
                have := slice_bound hfs
                exact ih r.1 r.2 (by rw [hcur]; omega)
    · rw [if_neg hc]; simp

theorem scanRun_fuel_six (data : List Byte) (hs : Nat) (target : Hex) (fuel : Nat) :
    ∀ (fuel' it : Nat) (keys : List Hex),
      data.length - it < 6 * fuel → data.length - it < 6 * fuel' →
      scanRun data hs target fuel it keys = scanRun data hs target fuel' it keys := by
  induction fuel with
  | zero => intro fuel' it keys h _; omega
  | succ f ih =>
    intro fuel' it keys h h'
    obtain ⟨f', rfl⟩ : ∃ k, fuel' = k + 1 := ⟨fuel' - 1, by omega⟩
    rw [scanRun, scanRun]
    by_cases hc : keys.isEmpty = true ∧ it < data.length
    · rw [if_pos hc, if_pos hc]
      cases slice data it 2 with
      | none => rfl
      | some kc =>
        simp only
        by_cases hk : Endian.readLittle kc = 0
        · rw [if_pos hk, if_pos hk]
        · rw [if_neg hk, if_neg hk]
          cases hfs : slice data (it + 2) 4 with
          | none => rfl
          | some fs =>
            simp only
            cases slice data (it + 2 + 4) hs with
            | none => rfl
            | some current =>
              simp only
              cases hr : readKeys data hs (decide (target = current)) (Endian.readLittle kc)
                  (it + 2 + 4 + hs) keys with
              | none => rfl
              | some r =>
                simp only
                have hcur := readKeys_cursor _ _ _ _ _ _ r hr
                have := hc.2
                have := slice_bound hfs
                rw [ih f' r.1 r.2 (by rw [hcur]; omega) (by rw [hcur]; omega)]
    · rw [if_neg hc, if_neg hc]

/-- C28: the entry loop of `searchTable` ends on every 4096-byte body, for every
`hashSizeA` (0 included) and every target. The run `scanRun` is the loop of
`scanEntries` with the passes counted and the end told apart: `scanEntries`
gives the outcome of its ending and `scanPasses` its number of passes, for every
input. With 683 or more tests of the loop condition allowed (the chunk loop
allows 4096) the run never uses them up: it leaves the loop with the keys, which
`scanEntries` then returns, or it ends in a read outside the buffer; it makes at
most 683 passes and is the same run as with 683 tests allowed. A pass that goes
on to a next pass has read a key count of at least 1 and moves the cursor from
`it` to `it + 6 + (1 + keyCount) * hashSizeA`, at least 6 bytes further. -/
theorem scan_makes_at_most_683_passes (data : List Byte) (hs : Nat) (target : Hex)
    (hlen : data.length = 4096) :
    (∀ (fuel it : Nat) (keys : List Hex),
      scanEntries data hs target fuel it keys
        = (scanRun data hs target fuel it keys).ending.toOutcome ∧
      scanPasses data hs target fuel it keys = (scanRun data hs target fuel it keys).passes) ∧
    (∀ fuel, 683 ≤ fuel →
      (scanRun data hs target fuel 0 []).ending ≠ .outOfFuel ∧
      (scanRun data hs target fuel 0 []).passes ≤ 683 ∧
      scanRun data hs target fuel 0 [] = scanRun data hs target 683 0 [] ∧
      ((∃ keys, (scanRun data hs target fuel 0 []).ending = .returned keys ∧
          scanEntries data hs target fuel 0 [] = .ok keys) ∨
        ((scanRun data hs target fuel 0 []).ending = .outside ∧
          scanEntries data hs target fuel 0 [] = .undefined))) ∧
    (∀ fuel, scanPasses data hs target fuel 0 [] ≤ 683) ∧
    (∀ fuel, 683 ≤ fuel →
      scanEntries data hs target fuel 0 [] = scanEntries data hs target 683 0 [] ∧
      scanPasses data hs target fuel 0 [] = scanPasses data hs target 683 0 []) ∧
    (∀ (fuel it : Nat) (kc fs current : List Byte) (r : Nat × List Hex), it < data.length →
      slice data it 2 = some kc → Endian.readLittle kc ≠ 0 → slice data (it + 2) 4 = some fs →
      slice data (it + 2 + 4) hs = some current →
      readKeys data hs (decide (target = current)) (Endian.readLittle kc) (it + 2 + 4 + hs) []
        = some r →
      scanEntries data hs target (fuel + 1) it [] = scanEntries data hs target fuel r.1 r.2 ∧
      scanPasses data hs target (fuel + 1) it [] = 1 + scanPasses data hs target fuel r.1 r.2 ∧
      (scanRun data hs target (fuel + 1) it []).passes
        = 1 + (scanRun data hs target fuel r.1 r.2).passes ∧
      (scanRun data hs target (fuel + 1) it []).ending
        = (scanRun data hs target fuel r.1 r.2).ending ∧
      r.1 = it + 6 + (1 + Endian.readLittle kc) * hs ∧ it + 6 ≤ r.1 ∧
      1 ≤ Endian.readLittle kc) := by
  refine ⟨scanRun_scanEntries data hs target, ?_, ?_, ?_, ?_⟩
  · intro fuel hf
    have hend := scanRun_ends data hs target fuel 0 [] (by rw [hlen]; omega)
    have htie := scanRun_scanEntries data hs target fuel 0 []
    have hpass := scanPasses_bound data hs target fuel 0 []
    rw [htie.2, hlen] at hpass
    refine ⟨hend, by omega,
      scanRun_fuel_six data hs target fuel 683 0 [] (by rw [hlen]; omega) (by rw [hlen]; omega),
      ?_⟩
    rw [htie.1]
    cases he : (scanRun data hs target fuel 0 []).ending with
    | returned keys => exact Or.inl ⟨keys, rfl, rfl⟩
    | outside => exact Or.inr ⟨rfl, rfl⟩
    | outOfFuel => exact absurd he hend
  · intro fuel
    have := scanPasses_bound data hs target fuel 0 []
    rw [hlen] at this
    omega
  · intro fuel hf
    exact scanEntries_fuel_six data hs target fuel 683 0 [] (by rw [hlen]; omega)
      (by rw [hlen]; omega)
  · intro fuel it kc fs current r hit h2 hk h4 hc hr
    have hcur := readKeys_cursor _ _ _ _ _ _ r hr
    refine ⟨?_, ?_, ?_, ?_, ?_, ?_, ?_⟩
    · rw [scanEntries, if_pos ⟨List.isEmpty_nil, hit⟩, h2]
      simp only
      rw [if_neg hk, h4]
      simp only
      rw [hc]
      simp only
      rw [hr]
    · rw [scanPasses, if_pos ⟨List.isEmpty_nil, hit⟩, h2]
      simp only
      rw [if_neg hk, h4]
      simp only
      rw [hc]
      simp only
      rw [hr]
    · rw [scanRun, if_pos ⟨List.isEmpty_nil, hit⟩, h2]
      simp only
      rw [if_neg hk, h4]
      simp only
      rw [hc]
      simp only
      rw [hr]
    · rw [scanRun, if_pos ⟨List.isEmpty_nil, hit⟩, h2]
      simp only
      rw [if_neg hk, h4]
      simp only
      rw [hc]
      simp only
      rw [hr]
    · rw [hcur, Nat.add_mul, Nat.one_mul, Nat.mul_comm]; omega
    · rw [hcur]; omega
    · omega

set_option maxRecDepth 1000000 in
/-- The body `exampleBody`, whose only entry takes 38 bytes and is the one
looked up: with the 4096 tests that the chunk loop allows, the run makes one
pass and leaves the loop with the key, which `scanEntries` returns. -/
theorem scan_makes_at_most_683_passes_witness :
    exampleBody.length = 4096 ∧
    scanRun exampleBody 16 exampleHash 683 0 [] = ⟨1, .returned [exampleKey]⟩ ∧
    (scanRun exampleBody 16 exampleHash 4096 0 []).ending ≠ .outOfFuel ∧
    (scanRun exampleBody 16 exampleHash 4096 0 []).passes ≤ 683 ∧
    scanEntries exampleBody 16 exampleHash 4096 0 [] = .ok [exampleKey] := by
  have h := (scan_makes_at_most_683_passes exampleBody 16 exampleHash exampleBody_length).2.1
    4096 (by decide)
  have h683 : scanRun exampleBody 16 exampleHash 683 0 [] = ⟨1, .returned [exampleKey]⟩ := by
    decide!
  refine ⟨exampleBody_length, h683, h.1, h.2.1, ?_⟩
  rw [((scan_makes_at_most_683_passes exampleBody 16 exampleHash exampleBody_length).1
    4096 0 []).1, h.2.2.1, h683]
  rfl

/-! ## The text of a digest (claim C29) -/

theorem MD5.finalize_digest (self d : MD5) (hf : self.finalized = false)
    (h : self.finalize = some d) : d.finalized = true ∧ d.digest.length = 16 := by
  rw [MD5.finalize, if_neg (by rw [hf]; simp)] at h
  dsimp only at h
  cases h1 : self.update MD5.padding (if self.count0 / 8 % 64 < 56 then 56 - self.count0 / 8 % 64
      else 120 - self.count0 / 8 % 64) with
  | none => rw [h1] at h; cases h
  | some s1 =>
    rw [h1, Option.some_bind] at h
    cases h2 : s1.update (MD5.encode [self.count0, self.count1]) 8 with
    | none => rw [h2] at h; cases h
    | some s2 =>
      rw [h2, Option.some_bind] at h
      injection h with h
      rw [← h]
      exact ⟨rfl, MD5.encode_length _⟩

/-- C29: `hexdigest` of an object that is not finalized is the empty string. On
a finalized object, whose `digest` holds 16 bytes, it has 32 characters, all of
them among `0-9a-f`, and its characters `2i` and `2i + 1` are the two
hexadecimal digits of `digest[i]`, the first one `0` for a byte below 0x10.
`finalize` on an object that is not finalized makes such an object whenever it
returns, and it returns on every object a sequence of `update` calls can
leave. -/
theorem md5_hexdigest_format (self : MD5) :
    (self.finalized = false → self.hexdigest = []) ∧
    (self.finalized = true → self.digest.length = 16 →
      self.hexdigest.length = 32 ∧ (∀ c ∈ self.hexdigest, c ∈ lowerHexChars) ∧
      ∀ i : Fin self.digest.length,
        self.hexdigest[2 * i.val]? = some (hexDigit ((self.digest.get i).val / 16)) ∧
        self.hexdigest[2 * i.val + 1]? = some (hexDigit ((self.digest.get i).val % 16)) ∧
        ((self.digest.get i).val < 16 → self.hexdigest[2 * i.val]? = some '0')) ∧
    (self.finalized = false → ∀ d, self.finalize = some d →
      d.finalized = true ∧ d.digest.length = 16) ∧
    (self.finalized = false → self.Valid → ∃ d, self.finalize = some d) := by
  refine ⟨?_, ?_, ?_, ?_⟩
  · intro h
    rw [MD5.hexdigest, h]
    rfl
  · intro h hl
    have he : self.hexdigest = self.digest.flatMap putHex := by
      rw [MD5.hexdigest, if_pos h]
    rw [he]
    refine ⟨by rw [putHex_string_length, hl], ?_, ?_⟩
    · intro c hc
      simp only [List.mem_flatMap, putHex, List.mem_cons, List.mem_singleton, List.not_mem_nil,
        or_false] at hc
      obtain ⟨b, -, hb⟩ := hc
      have := b.isLt
      rcases hb with rfl | rfl
      · exact hexDigit_mem _ (by omega)
      · exact hexDigit_mem _ (by omega)
    · intro i
      have := putHex_string_get self.digest i
      refine ⟨this.1, this.2, ?_⟩
      intro hlt
      rw [this.1, Nat.div_eq_of_lt hlt]
      rfl
  · intro h d hd
    exact MD5.finalize_digest self d h hd
  · intro h hv
    obtain ⟨d, hd, _, _⟩ := MD5.finalize_same self self ⟨hv, hv, rfl, rfl, rfl, h, h⟩
    exact ⟨d, hd⟩

set_option maxRecDepth 1000000 in
/-- The object `MD5("abc")`: it is finalized, and its `hexdigest` is the text of
its 16 digest bytes; its byte 1 is 0x01 and prints as `01`. -/
theorem md5_hexdigest_format_witness :
    ∃ d, MD5.ofString MD5.zeroed "abc".toList = some d ∧ d.finalized = true ∧
      d.digest.length = 16 ∧ d.hexdigest.length = 32 ∧
      d.hexdigest = "900150983cd24fb0d6963f7d28e17f72".toList := by
  obtain ⟨d, hd⟩ : ∃ d, MD5.ofString MD5.zeroed "abc".toList = some d := by
    cases h : MD5.ofString MD5.zeroed "abc".toList with
    | none => exact absurd h (by decide!)
    | some d => exact ⟨d, rfl⟩
  have hfin : d.finalized = true := by
    have : (MD5.ofString MD5.zeroed "abc".toList).map MD5.finalized = some true := by decide!
    rw [hd] at this
    exact Option.some.inj this
  have hlen : d.digest.length = 16 := by
    have : (MD5.ofString MD5.zeroed "abc".toList).map (fun x => x.digest.length) = some 16 := by
      decide!
    rw [hd] at this
    exact Option.some.inj this
  have hhex : d.hexdigest = "900150983cd24fb0d6963f7d28e17f72".toList := by
    have : (MD5.ofString MD5.zeroed "abc".toList).map MD5.hexdigest
        = some "900150983cd24fb0d6963f7d28e17f72".toList := by decide!
    rw [hd] at this
    exact Option.some.inj this
  exact ⟨d, hd, hfin, hlen, ((md5_hexdigest_format d).2.1 hfin hlen).1, hhex⟩

/-! ## The bit counter (claim C30) -/

theorem MD5.updateBlocks_counts (input : List Byte) (length : Nat) :
    ∀ (fuel : Nat) (self : MD5) (i : Nat) (r : MD5 × Nat),
    MD5.updateBlocks input length fuel self i = some r →
    r.1.count0 = self.count0 ∧ r.1.count1 = self.count1 := by
  intro fuel
  induction fuel with
  | zero => intro self i r h; rw [MD5.updateBlocks] at h; cases h
  | succ fuel ih =>
    intro self i r h
    rw [MD5.updateBlocks] at h
    split at h
    · cases hs : slice input i 64 with
      | none => rw [hs] at h; cases h
      | some block =>
        rw [hs] at h
        have := ih _ _ _ h
        rw [MD5.transform_count0, MD5.transform_count1] at this
        exact this
    · injection h with h
      rw [← h]
      exact ⟨rfl, rfl⟩

theorem MD5.update_counts (s : MD5) (input : List Byte) (length : Nat) (r : MD5)
    (h : s.update input length = some r) :
    r.count0 = (s.count0 + (length <<< 3) % 2 ^ 32) % 2 ^ 32 ∧
    r.count1 = ((if (s.count0 + (length <<< 3) % 2 ^ 32) % 2 ^ 32 < (length <<< 3) % 2 ^ 32
      then (s.count1 + 1) % 2 ^ 32 else s.count1) + (length >>> 29)) % 2 ^ 32 := by
  rw [MD5.update] at h
  dsimp only at h
  split at h
  · cases h1 : slice input 0 (64 - s.count0 / 8 % 64) with
    | none => rw [h1] at h; cases h
    | some first =>
      rw [h1, Option.some_bind] at h
      cases h2 : MD5.memcpy s.buffer (s.count0 / 8 % 64) first with
      | none => rw [h2] at h; cases h
      | some buffer =>
        rw [h2, Option.some_bind] at h
        cases h3 : MD5.updateBlocks input length (length / 64 + 1) (MD5.transform
            { s with count0 := (s.count0 + (length <<< 3) % 2 ^ 32) % 2 ^ 32,
                     count1 := ((if (s.count0 + (length <<< 3) % 2 ^ 32) % 2 ^ 32
                        < (length <<< 3) % 2 ^ 32 then (s.count1 + 1) % 2 ^ 32 else s.count1)
                        + (length >>> 29)) % 2 ^ 32,
                     buffer := buffer } buffer) (64 - s.count0 / 8 % 64) with
        | none => rw [h3] at h; cases h
        | some r3 =>
          rw [h3, Option.some_bind] at h
          have hc := MD5.updateBlocks_counts _ _ _ _ _ _ h3
          rw [MD5.transform_count0, MD5.transform_count1] at hc
          cases h4 : slice input r3.2 ((length + 2 ^ 32 - r3.2) % 2 ^ 32) with
          | none => rw [h4] at h; cases h
          | some rest =>
            rw [h4, Option.some_bind] at h
            cases h5 : MD5.memcpy r3.1.buffer 0 rest with
            | none => rw [h5] at h; cases h
            | some buffer2 =>
              rw [h5, Option.some_bind] at h
              injection h with h
              rw [← h]
              exact hc
  · cases h1 : slice input 0 length with
    | none => rw [h1] at h; cases h
    | some rest =>
      rw [h1, Option.some_bind] at h
      cases h2 : MD5.memcpy s.buffer (s.count0 / 8 % 64) rest with
      | none => rw [h2] at h; cases h
      | some buffer =>
        rw [h2, Option.some_bind] at h
        injection h with h
        rw [← h]
        exact ⟨rfl, rfl⟩

theorem MD5.update_bitCount (s : MD5) (input : List Byte) (length : Nat) (r : MD5)
    (h0 : s.count0 < 2 ^ 32) (h1 : s.count1 < 2 ^ 32) (h8 : s.count0 % 8 = 0)
    (hl : length < 2 ^ 32) (h : s.update input length = some r) :
    r.count0 < 2 ^ 32 ∧ r.count1 < 2 ^ 32 ∧ r.count0 % 8 = 0 ∧
    r.bitCount = (s.bitCount + 8 * length) % 2 ^ 64 := by
  obtain ⟨e0, e1⟩ := MD5.update_counts s input length r h
  obtain ⟨c0, c1, c8, cb, _⟩ := MD5.count_step s.count0 s.count1 length h0 h1 h8 hl
  rw [MD5.bitCount, MD5.bitCount, e0, e1]
  exact ⟨c0, c1, c8, cb⟩

theorem MD5.updates_bitCount : ∀ (pieces : List (List Byte)) (s r : MD5),
    s.count0 < 2 ^ 32 → s.count1 < 2 ^ 32 → s.count0 % 8 = 0 →
    (∀ p ∈ pieces, p.length < 2 ^ 32) → MD5.updates s pieces = some r →
    r.count0 < 2 ^ 32 ∧ r.count1 < 2 ^ 32 ∧
    r.bitCount = (s.bitCount + 8 * pieces.flatten.length) % 2 ^ 64 := by
  intro pieces
  induction pieces with
  | nil =>
    intro s r h0 h1 _ _ h
    rw [MD5.updates] at h
    injection h with h
    subst h
    refine ⟨h0, h1, ?_⟩
    rw [MD5.bitCount]
    norm_num at h0 h1 ⊢
    omega
  | cons p ps ih =>
    intro s r h0 h1 h8 hp h
    rw [MD5.updates] at h
    cases hu : s.update p p.length with
    | none => rw [hu] at h; cases h
    | some t =>
      rw [hu, Option.some_bind] at h
      obtain ⟨t0, t1, t8, tb⟩ := MD5.update_bitCount s p p.length t h0 h1 h8
        (hp p (List.mem_cons_self _ _)) hu
      obtain ⟨r0, r1, rb⟩ := ih t r t0 t1 t8 (fun q hq => hp q (List.mem_cons_of_mem _ hq)) h
      refine ⟨r0, r1, ?_⟩
      rw [rb, tb, List.flatten_cons, List.length_append]
      generalize s.bitCount = n
      norm_num
      omega

/-- C30: after `update` calls on a fresh object, one for each piece of
`pieces`, each piece shorter than 2^32 bytes, the counter
`count[1] * 2^32 + count[0]` is `8 * n` modulo 2^64 for the number `n` of bytes
fed, both words staying below 2^32: the carry out of `count[0]` and the term
`length >> 29` are exact in every call. The calls return when every piece is
shorter than 2^32 - 64 bytes. -/
theorem md5_bit_counter_exact (self : MD5) (pieces : List (List Byte))
    (hp : ∀ p ∈ pieces, p.length < 2 ^ 32) :
    (∀ r, MD5.updates self.init pieces = some r →
      r.count1 * 2 ^ 32 + r.count0 = (8 * pieces.flatten.length) % 2 ^ 64 ∧
      r.count0 < 2 ^ 32 ∧ r.count1 < 2 ^ 32) ∧
    (self.buffer.length = 64 → (∀ p ∈ pieces, p.length + 64 < 2 ^ 32) →
      ∃ r, MD5.updates self.init pieces = some r) ∧
    (∀ (s r : MD5) (input : List Byte) (length : Nat), s.count0 < 2 ^ 32 → s.count1 < 2 ^ 32 →
      s.count0 % 8 = 0 → length < 2 ^ 32 → s.update input length = some r →
      r.count1 * 2 ^ 32 + r.count0 = (s.count1 * 2 ^ 32 + s.count0 + 8 * length) % 2 ^ 64 ∧
      r.count0 = (s.count0 + 8 * length) % 2 ^ 32 ∧
      r.count1 = (s.count1 + (s.count0 + (8 * length) % 2 ^ 32) / 2 ^ 32 + length / 2 ^ 29)
        % 2 ^ 32) := by
  refine ⟨?_, ?_, ?_⟩
  · intro r h
    obtain ⟨r0, r1, rb⟩ := MD5.updates_bitCount pieces self.init r (by show 0 < 2 ^ 32; decide)
      (by show 0 < 2 ^ 32; decide) rfl hp h
    have hz : self.init.bitCount = 0 := by
      show 0 * 2 ^ 32 + 0 = 0
      rw [Nat.zero_mul]
    rw [hz, Nat.zero_add] at rb
    exact ⟨rb, r0, r1⟩
  · intro h64 hq
    obtain ⟨r, hr, _⟩ := MD5.updates_fed pieces self.init (MD5.init_valid self h64) hq
    exact ⟨r, hr⟩
  · intro s r input length h0 h1 h8 hl h
    obtain ⟨_, _, _, tb⟩ := MD5.update_bitCount s input length r h0 h1 h8 hl h
    obtain ⟨e0, e1⟩ := MD5.update_counts s input length r h
    refine ⟨tb, ?_, ?_⟩
    · rw [e0, Nat.shiftLeft_eq]
      norm_num
      omega
    · rw [e1, Nat.shiftLeft_eq, Nat.shiftRight_eq_div_pow]
      norm_num at h0 h1 hl ⊢
      split <;> omega

/-- The pieces "a" and "bc": three bytes fed, the counter is 24. -/
theorem md5_bit_counter_exact_witness :
    ∃ r, MD5.updates MD5.zeroed.init [[97], [98, 99]] = some r ∧
      r.count1 * 2 ^ 32 + r.count0 = 24 := by
  have h := md5_bit_counter_exact MD5.zeroed [[97], [98, 99]] (by decide)
  obtain ⟨r, hr⟩ := h.2.1 (by decide) (by decide)
  exact ⟨r, hr, (h.1 r hr).1⟩

/-! ## The block buffer (claim C31) -/

theorem MD5.updateBlocks_cursor (input : List Byte) (length : Nat) (hl : length < 2 ^ 32) :
    ∀ (fuel : Nat) (self : MD5) (i : Nat) (r : MD5 × Nat), i ≤ length →
    MD5.updateBlocks input length fuel self i = some r → r.2 ≤ length ∧ length - r.2 < 64 := by
  intro fuel
  induction fuel with
  | zero => intro self i r _ h; rw [MD5.updateBlocks] at h; cases h
  | succ fuel ih =>
    intro self i r hi h
    rw [MD5.updateBlocks] at h
    split at h
    · rename_i hc
      cases hs : slice input i 64 with
      | none => rw [hs] at h; cases h
      | some block =>
        rw [hs] at h
        exact ih _ _ _ hc h
    · rename_i hc
      injection h with h
      rw [← h]
      refine ⟨hi, ?_⟩
      show length - i < 64
      omega

theorem MD5.updateWrites_inside (self : MD5) (input : List Byte) (length : Nat)
    (hl : length < 2 ^ 32) : ∀ w ∈ self.updateWrites input length, w.1 + w.2 ≤ 64 := by
  intro w hw
  have hidx : self.count0 / 8 % 64 < 64 := Nat.mod_lt _ (by decide)
  rw [MD5.updateWrites] at hw
  dsimp only at hw
  split at hw
  · rename_i hc
    rcases List.mem_cons.mp hw with rfl | hw
    · show self.count0 / 8 % 64 + (64 - self.count0 / 8 % 64) ≤ 64
      omega
    · split at hw
      · rename_i r hb
        simp only [List.mem_singleton] at hw
        subst hw
        cases h1 : slice input 0 (64 - self.count0 / 8 % 64) with
        | none => rw [h1] at hb; cases hb
        | some first =>
          rw [h1, Option.some_bind] at hb
          cases h2 : MD5.memcpy self.buffer (self.count0 / 8 % 64) first with
          | none => rw [h2] at hb; cases hb
          | some buffer =>
            rw [h2, Option.some_bind] at hb
            have := MD5.updateBlocks_cursor input length hl _ _ _ r hc hb
            show 0 + (length + 2 ^ 32 - r.2) % 2 ^ 32 ≤ 64
            omega
      · cases hw
  · rename_i hc
    simp only [List.mem_singleton] at hw
    subst hw
    show self.count0 / 8 % 64 + length ≤ 64
    omega

theorem MD5.fed_index (s r : MD5) (l : List Byte) (hs : s.Valid) (h : MD5.Fed s l r) :
    r.count0 / 8 % 64 = (s.count0 / 8 % 64 + l.length) % 64 := by
  rw [← MD5.pending_length r h.1, h.2.2.1, MD5.absorb_rest_length, List.length_append,
    MD5.pending_length s hs]

/-- C31: on a fresh object, after `update` calls for the pieces of `pieces`
(each shorter than 2^32 - 64 bytes, so that every call returns) the object is
not finalized and the number of pending bytes, `count[0] / 8 % 64`, is the
number `n` of bytes fed modulo 64. Every `memcpy` into `buffer` made by an
`update` with a 32-bit `length` writes inside the indices 0..63. In `finalize`
the padding length is between 1 and 64 and `n + padLen + 8` is a multiple of 64;
the two `update` calls of `finalize` return and leave no pending byte, and the
digest stored is the encoding of the state reached then. -/
theorem md5_buffer_invariant (self : MD5) (pieces : List (List Byte))
    (h : self.buffer.length = 64) (hp : ∀ p ∈ pieces, p.length + 64 < 2 ^ 32) :
    (∀ (s : MD5) (input : List Byte) (length : Nat), length < 2 ^ 32 →
      ∀ w ∈ s.updateWrites input length, w.1 + w.2 ≤ 64) ∧
    ∃ r, MD5.updates self.init pieces = some r ∧ r.finalized = false ∧
      r.buffer.length = 64 ∧
      r.count0 / 8 % 64 = pieces.flatten.length % 64 ∧
      r.pending.length = pieces.flatten.length % 64 ∧
      1 ≤ (if r.count0 / 8 % 64 < 56 then 56 - r.count0 / 8 % 64 else 120 - r.count0 / 8 % 64) ∧
      (if r.count0 / 8 % 64 < 56 then 56 - r.count0 / 8 % 64 else 120 - r.count0 / 8 % 64) ≤ 64 ∧
      (pieces.flatten.length
        + (if r.count0 / 8 % 64 < 56 then 56 - r.count0 / 8 % 64 else 120 - r.count0 / 8 % 64)
        + 8) % 64 = 0 ∧
      ∃ r1 r2 d,
        r.update MD5.padding
          (if r.count0 / 8 % 64 < 56 then 56 - r.count0 / 8 % 64 else 120 - r.count0 / 8 % 64)
          = some r1 ∧
        r1.update (MD5.encode [r.count0, r.count1]) 8 = some r2 ∧
        r2.count0 / 8 % 64 = 0 ∧ r2.pending = [] ∧
        r.finalize = some d ∧
        d.digest = MD5.encode [r2.state0, r2.state1, r2.state2, r2.state3] ∧
        d.buffer = List.replicate 64 0 ∧ d.finalized = true := by
  refine ⟨fun s input length hl => MD5.updateWrites_inside s input length hl, ?_⟩
  have hv := MD5.init_valid self h
  obtain ⟨r, e, f⟩ := MD5.updates_fed pieces self.init hv hp
  have hidx : r.count0 / 8 % 64 = pieces.flatten.length % 64 := by
    rw [MD5.fed_index self.init r _ hv f]
    show (0 / 8 % 64 + pieces.flatten.length) % 64 = _
    norm_num
  have hfin : r.finalized = false := f.2.2.2.2.1
  have hlt : r.count0 / 8 % 64 < 64 := Nat.mod_lt _ (by decide)
  generalize hpad : (if r.count0 / 8 % 64 < 56 then 56 - r.count0 / 8 % 64
    else 120 - r.count0 / 8 % 64) = padLen
  have hp1 : 1 ≤ padLen := by rw [← hpad]; split <;> omega
  have hp2 : padLen ≤ 64 := by rw [← hpad]; split <;> omega
  have hp3 : (r.count0 / 8 % 64 + padLen + 8) % 64 = 0 := by rw [← hpad]; split <;> omega
  have hpadl : MD5.padding.length = 64 := by simp [MD5.padding]
  obtain ⟨r1, e1, f1⟩ := MD5.update_fed r MD5.padding padLen f.1 (by rw [hpadl]; exact hp2)
    (by omega)
  have hbl : (MD5.encode [r.count0, r.count1]).length = 8 := MD5.encode_length _
  obtain ⟨r2, e2, f2⟩ := MD5.update_fed r1 (MD5.encode [r.count0, r.count1]) 8 f1.1
    (by rw [hbl]) (by decide)
  have hi1 := MD5.fed_index r r1 _ f.1 f1
  have hi2 := MD5.fed_index r1 r2 _ f1.1 f2
  rw [List.length_take, hpadl, Nat.min_eq_left hp2] at hi1
  rw [List.length_take, hbl, Nat.min_self] at hi2
  have hz : r2.count0 / 8 % 64 = 0 := by omega
  have hpend : r2.pending = [] := by
    apply List.eq_nil_of_length_eq_zero
    rw [MD5.pending_length r2 f2.1, hz]
  have hfz : r.finalize = some { r2 with
      digest := MD5.encode [r2.state0, r2.state1, r2.state2, r2.state3]
      buffer := List.replicate 64 0
      count0 := 0
      count1 := 0
      finalized := true } := by
    rw [MD5.finalize, if_neg (by rw [hfin]; simp)]
    dsimp only
    rw [hpad, e1, Option.some_bind, e2, Option.some_bind]
  have hp4 : (pieces.flatten.length + padLen + 8) % 64 = 0 := by omega
  subst hpad
  exact ⟨r, e, hfin, f.1.1, hidx, by rw [MD5.pending_length r f.1, hidx], hp1, hp2, hp4,
    r1, r2, _, e1, e2, hz, hpend, hfz, rfl, rfl, rfl⟩

/-- The pieces "a" and "bc": three bytes are pending, the padding length is 53
and `3 + 53 + 8` is 64. -/
theorem md5_buffer_invariant_witness :
    ∃ r, MD5.updates MD5.zeroed.init [[97], [98, 99]] = some r ∧ r.finalized = false ∧
      r.count0 / 8 % 64 = 3 ∧ r.pending.length = 3 ∧
      ∃ r1 r2 d, r.update MD5.padding 53 = some r1 ∧
        r1.update (MD5.encode [r.count0, r.count1]) 8 = some r2 ∧ r2.pending = [] ∧
        r.finalize = some d := by
  obtain ⟨r, h1, h2, _, h4, h5, _, _, _, r1, r2, d, h9, h10, _, h12, h13, _⟩ :=
    (md5_buffer_invariant MD5.zeroed [[97], [98, 99]] (by decide) (by decide)).2
  have h4' : r.count0 / 8 % 64 = 3 := h4
  rw [h4'] at h9
  exact ⟨r, h1, h2, h4', h5, r1, r2, d, h9, h10, h12, h13⟩

end Casc
